import Mathlib

/-!
# spark: shallow embedding of the simulation kernel

Machine doubles are modelled by an arbitrary linearly ordered field `K`
(exact arithmetic; `ℝ` and `ℚ` are instances).  A `std::vector<double>` is a
`List K`; reading position `i` is `rd v i`, writing is `List.set`.

The gather of `interpolate/field.cpp` indexes an array with a floored `double`
quotient, so there the rounding matters: its embedding takes the rounding `fl` of
each `double` operation as a parameter, `roundDouble` (IEEE-754 binary64) for the
machine and `id` for exact arithmetic.
-/

set_option linter.unusedVariables false
set_option linter.unusedSectionVars false

namespace Spark

variable {K : Type} [LinearOrderedField K]

/-! ## Generic helpers -/

/-- Counted loop `for (j = 0; j < n; j++) s = body(j, s)`. -/
def forLoop {σ : Type} (body : Nat → σ → σ) : Nat → σ → σ
  | 0, s => s
  | k + 1, s => body k (forLoop body k s)

/-- Read `v[i]` of a vector of numbers (positions past the end read as `0`). -/
def rd (v : List K) (i : Nat) : K := v.getD i 0

/-- Model of `std::vector<double>::resize(n)`: keeps the first `n` entries and
pads with zeros. -/
def resize (v : List K) (n : Nat) : List K :=
  v.take n ++ List.replicate (n - v.length) 0

/-! ## electromagnetics/poisson.cpp : DirichletPoissonSolver -/

/-- Body of the forward elimination loop of `poisson_thomas` at index `i`;
the state is `(yout, cprime)` and `fin[i]`, `yout[i]` live at `off + i`. -/
def thomasForwardBody (fin : List K) (off : Nat) (dx2 : K) (i : Nat)
    (s : List K × K) : List K × K :=
  (s.1.set (off + i) ((rd fin (off + i) * dx2 - rd s.1 (off + i - 1)) / (-2 - s.2)),
   1 / (-2 - s.2))

/-- Body of the back substitution loop of `poisson_thomas` at index `i`. -/
def thomasBackwardBody (off : Nat) (i : Nat) (s : List K × K) : List K × K :=
  (s.1.set (off + i) (rd s.1 (off + i) - s.2 * rd s.1 (off + i + 1)),
   -2 - 1 / s.2)

/-- Embedding of `DirichletPoissonSolver::poisson_thomas(fin, yout, n, dx, ylhs, yrhs)`.
The two pointers are views `fin = density.data() + off`, `yout = out.data() + off`
into the vectors `density` and `out`, so `yout[j]` is `out[off + j]`; the index
`yout[n - 2]` is formed as `off + n - 2` (it is `out[off - 1]` when `n = 1`).
The loop `for (i = 1; i < n - 1; ++i)` runs `n - 2` times with `i = j + 1`, the
loop `for (i = n - 2; i >= 1; --i)` runs `n - 2` times with `i = n - 2 - j`. -/
def poisson_thomas (fin yout : List K) (off n : Nat) (dx ylhs yrhs : K) : List K :=
  let dx2 := dx * dx
  let cprime : K := -(1 / 2)
  let yout := yout.set (off + 0) ((rd fin (off + 0) * dx2 - ylhs) / (-2))
  let s := forLoop (fun j => thomasForwardBody fin off dx2 (j + 1)) (n - 2) (yout, cprime)
  let yout := s.1.set (off + n - 1)
    (((rd fin (off + n - 1) * dx2 - yrhs) - rd s.1 (off + n - 2)) / (-2 - s.2))
  let s := forLoop (fun j => thomasBackwardBody off (n - 2 - j)) (n - 2) (yout, s.2)
  s.1.set (off + 0) (rd s.1 (off + 0) - (-(1 / 2)) * rd s.1 (off + 1))

/-- Embedding of `DirichletPoissonSolver::solve(density, out, v0, v1)` for a solver
constructed with `(n, dx)`; `out` is the prior content of the output buffer and
the result is its final content. -/
def DirichletPoissonSolver.solve (n : Nat) (dx : K) (density out : List K) (v0 v1 : K) :
    List K :=
  let out := resize out n
  let out := poisson_thomas density out 1 (n - 2) dx v0 v1
  let out := out.set 0 v0
  out.set (out.length - 1) v1

/-! ## electromagnetics/poisson.cpp : SymmetricPoissonSolver -/

/-- `Eigen::Triplet<double>(row, col, value)`. -/
structure Triplet (K : Type) where
  row : Nat
  col : Nat
  value : K

/-- Entry `(i, j)` of the sparse matrix produced by `setFromTriplets`: the sum of the
values of all triplets at that position. -/
def tripletEntry (ts : List (Triplet K)) (i j : Nat) : K :=
  ((ts.filter (fun t => decide (t.row = i) && decide (t.col = j))).map (fun t => t.value)).sum

/-- Number of triplets that `setFromTriplets` adds at position `(i, j)`. -/
def tripletCount (ts : List (Triplet K)) (i j : Nat) : Nat :=
  (ts.filter (fun t => decide (t.row = i) && decide (t.col = j))).length

/-- Component `r` of the product of the matrix given by the triplets with the vector
`x`. -/
def tripletMulVec (ts : List (Triplet K)) (x : List K) (r : Nat) : K :=
  ((ts.filter (fun t => decide (t.row = r))).map (fun t => t.value * rd x t.col)).sum

/-- Body of the first loop of the constructor `SymmetricPoissonSolver(n, dx)`: the
triplets pushed for index `i`. -/
def matBody (n : Nat) (dx2 : K) (i : Nat) (triplets : List (Triplet K)) : List (Triplet K) :=
  let triplets := triplets ++ [⟨i, i, -2 / dx2⟩]
  if i < n - 1 then triplets ++ [⟨i + 1, i, 1 / dx2⟩, ⟨i, i + 1, 1 / dx2⟩] else triplets

/-- The triplets from which the constructor `SymmetricPoissonSolver(n, dx)` builds the
matrix `mat`. -/
def SymmetricPoissonSolver.matTriplets (n : Nat) (dx : K) : List (Triplet K) :=
  let dx2 := dx * dx
  let triplets := forLoop (matBody n dx2) n []
  triplets ++ [⟨n - 1, 0, 1 / dx2⟩, ⟨0, n - 1, 1 / dx2⟩]

/-- Body of the second loop of the constructor `SymmetricPoissonSolver(n, dx)`. -/
def ematBody (dx : K) (i : Nat) (triplets : List (Triplet K)) : List (Triplet K) :=
  triplets ++ [⟨i + 1, i, 1 / (2 * dx)⟩, ⟨i, i + 1, -1 / (2 * dx)⟩]

/-- The triplets from which the constructor `SymmetricPoissonSolver(n, dx)` builds the
matrix `emat`. -/
def SymmetricPoissonSolver.ematTriplets (n : Nat) (dx : K) : List (Triplet K) :=
  let triplets := forLoop (ematBody dx) (n - 1) []
  triplets ++ [⟨n - 1, 0, 1 / (2 * dx)⟩, ⟨0, n - 1, -1 / (2 * dx)⟩]

/-- Embedding of `SymmetricPoissonSolver::grad(out)` for a solver constructed with
`(n, dx)` whose stored potential `m_impl->x` is `x`; the result is the final `out`. -/
def SymmetricPoissonSolver.grad (n : Nat) (dx : K) (x : List K) : List K :=
  let e := (List.range n).map
    (fun r => -(tripletMulVec (SymmetricPoissonSolver.ematTriplets n dx) x r))
  let out := e
  out.set 0 (rd out (out.length - 1))

/-- Sum of a weight `w` over the triplets at position `(i, j)`; with `w` the value it is
`tripletEntry`, with `w = 1` it is `tripletCount`. -/
def tripletSum {M : Type} [AddCommMonoid M] (w : Triplet K → M) (ts : List (Triplet K))
    (i j : Nat) : M :=
  ((ts.filter (fun t => decide (t.row = i) && decide (t.col = j))).map w).sum

/-- Sum of a weight `w` over the triplets of row `r`; with `w t = t.value * x[t.col]` it
is `tripletMulVec`. -/
def tripletRowSum {M : Type} [AddCommMonoid M] (w : Triplet K → M) (ts : List (Triplet K))
    (r : Nat) : M :=
  ((ts.filter (fun t => decide (t.row = r))).map w).sum

/-! ## constants/constants.h -/

/-- Elementary charge [C] (`constants::e`). -/
def constants.e : K := 1.602176634e-19

/-- Electron mass [kg] (`constants::m_e`). -/
def constants.m_e : K := 9.1093837139e-31

/-- Pi (`constants::pi`), the decimal literal of the header. -/
def constants.pi : K := 3.1415926535897932

/-! ## Vectors, species, math library and random streams -/

/-- `core::Vec<1>`. -/
structure Vec1 (K : Type) where
  x : K

/-- `core::Vec<2>`. -/
structure Vec2 (K : Type) where
  x : K
  y : K

/-- `core::Vec<3>`. -/
structure Vec3 (K : Type) where
  x : K
  y : K
  z : K

/-- `ChargedSpecies<NX, NV>`: structure of arrays with positions of type `X`,
velocities of type `V`, charge `q`, mass `m` and active count `n`. -/
structure ChargedSpecies (K X V : Type) where
  x : List X
  v : List V
  f : List X
  q : K
  m : K
  n : Nat

/-- The functions of `<cmath>` the kernel calls, taken as parameters so that the
embedding stays executable; the theorems state what they need of them. -/
structure MathFns (K : Type) where
  sqrt : K → K
  cos : K → K
  sin : K → K
  acos : K → K

/-- State of the process-wide random generator: the values the next calls of
`random::uniform()` and `random::uniform_u64()` return, in order. -/
structure Rng (K : Type) where
  dbl : Nat → K
  u64 : Nat → Nat

/-- One call of `random::uniform()`: the value and the advanced generator. -/
def Rng.uniform (g : Rng K) : K × Rng K :=
  (g.dbl 0, { g with dbl := fun i => g.dbl (i + 1) })

/-- One call of `random::uniform_u64()`: the value and the advanced generator. -/
def Rng.uniform_u64 (g : Rng K) : Nat × Rng K :=
  (g.u64 0, { g with u64 := fun i => g.u64 (i + 1) })

/-- Read `v[i]` of an array of 3-vectors. -/
def rd3 (v : List (Vec3 K)) (i : Nat) : Vec3 K := v.getD i ⟨0, 0, 0⟩

/-- Read `x[i]` of an array of 2-vectors. -/
def rd2 (v : List (Vec2 K)) (i : Nat) : Vec2 K := v.getD i ⟨0, 0⟩

/-- Read `x[i]` of an array of 1-vectors. -/
def rd1 (v : List (Vec1 K)) (i : Nat) : Vec1 K := v.getD i ⟨0⟩

/-- Squared Euclidean length `v.x² + v.y² + v.z²`. -/
def Vec3.norm2 (v : Vec3 K) : K := v.x * v.x + v.y * v.y + v.z * v.z

/-- Modelled from the spec: `Vec3::normalized()` (core/vec.h is not among the sources),
the unit vector `v̂ = v/|v|`. -/
def Vec3.normalized (L : MathFns K) (v : Vec3 K) : Vec3 K :=
  ⟨v.x / L.sqrt v.norm2, v.y / L.sqrt v.norm2, v.z / L.sqrt v.norm2⟩

/-! ## collisions/mcc.cpp -/

/-- `MonteCarloCollisions::CollisionReaction`. -/
structure CollisionReaction (K : Type) where
  energy : List K
  cross_section : List K
  energy_threshold : K

/-- Loop of `std::lower_bound` (binary search): `first` and `len` delimit the
remaining range, the first argument bounds the number of halvings. -/
def lowerBoundLoop (v : List K) (val : K) : Nat → Nat → Nat → Nat
  | 0, first, _ => first
  | fuel + 1, first, len =>
    if len = 0 then first
    else if rd v (first + len / 2) < val then
      lowerBoundLoop v val fuel (first + len / 2 + 1) (len - len / 2 - 1)
    else lowerBoundLoop v val fuel first (len / 2)

/-- `std::lower_bound(v.begin(), v.end(), val) - v.begin()`. -/
def lower_bound (v : List K) (val : K) : Nat :=
  lowerBoundLoop v val v.length 0 v.length

/-- Embedding of `interpolate_cross_section(cs, energy)`. -/
def interpolate_cross_section (cs : CollisionReaction K) (energy : K) : K :=
  if energy ≤ rd cs.energy 0 then rd cs.cross_section 0
  else if energy ≥ rd cs.energy (cs.energy.length - 1) then
    rd cs.cross_section (cs.cross_section.length - 1)
  else
    let rhs := lower_bound cs.energy energy
    let x0 := rd cs.energy (rhs - 1)
    let x1 := rd cs.energy rhs
    let y1 := rd cs.cross_section (rhs - 1)
    let y0 := rd cs.cross_section rhs
    y0 + (energy - x0) * (y1 - y0) / (x1 - x0)

/-- Invariant of `CollisionReaction` in the data model: the two tables are non-empty
and of the same length and the energies are strictly increasing. -/
def CollisionReaction.WellFormed (cs : CollisionReaction K) : Prop :=
  0 < cs.energy.length ∧ cs.cross_section.length = cs.energy.length ∧
    cs.energy.Pairwise (fun a b => a < b)

instance (cs : CollisionReaction K) : Decidable cs.WellFormed := by
  unfold CollisionReaction.WellFormed
  infer_instance

/-- The integer stream of the generator keeps reaching every residue modulo `n + 1`:
each value `r ≤ n` comes up again after every position `p`.  A uniform generator has
this property with probability one; it is what makes the rejection loop of
`sample_from_sequence` finish. -/
def Rng.Recurrent (g : Rng K) (n : Nat) : Prop :=
  ∀ r, r ≤ n → ∀ p, ∃ q, p ≤ q ∧ g.u64 q % (n + 1) = r

/-- The `do { num = uniform_u64() % (n + 1); } while (used.find(num) != used.end())`
loop of `sample_from_sequence`; `none` when the bound on the number of draws is
reached before an unused number comes up. -/
def drawUnused (n : Nat) (used : List Nat) : Nat → Rng K → Option (Nat × Rng K)
  | 0, _ => none
  | fuel + 1, g =>
    if g.uniform_u64.1 % (n + 1) ∈ used then drawUnused n used fuel g.uniform_u64.2
    else some (g.uniform_u64.1 % (n + 1), g.uniform_u64.2)

/-- The `for (i = 0; i < n; i++)` loop of `sample_from_sequence`, `k` iterations
from index `i`; the state is `(sequence, used, generator)`. -/
def sampleLoop (n fuel : Nat) : Nat → Nat → List Nat × List Nat × Rng K →
    Option (List Nat × List Nat × Rng K)
  | 0, _, s => some s
  | k + 1, i, (sequence, used, g) =>
    match drawUnused n used fuel g with
    | none => none
    | some (num, g') => sampleLoop n fuel k (i + 1) (sequence.set i num, num :: used, g')

/-- Embedding of `sample_from_sequence(n, range, sequence, used)`; the unordered set
`used` is a list, `fuel` bounds the draws of each `do ... while`, and the result is
`(sequence, used, generator)`.  As in the source, `range` is not used. -/
def sample_from_sequence (fuel n range : Nat) (sequence : List Nat) (used : List Nat)
    (g : Rng K) : Option (List Nat × List Nat × Rng K) :=
  sampleLoop n fuel n 0 (sequence.take n ++ List.replicate (n - sequence.length) 0, [], g)

/-- Embedding of `kinetic_energy_ev(p, idx)`. -/
def kinetic_energy_ev (p : ChargedSpecies K (Vec1 K) (Vec3 K)) (idx : Nat) : K :=
  (1 / 2) * p.m * ((rd3 p.v idx).x * (rd3 p.v idx).x + (rd3 p.v idx).y * (rd3 p.v idx).y
    + (rd3 p.v idx).z * (rd3 p.v idx).z)

/-- Embedding of `collision_frequency(neutral_density, cross_section, kinetic_energy, mass)`. -/
def collision_frequency (L : MathFns K) (neutral_density cross_section kinetic_energy mass : K) :
    K :=
  neutral_density * cross_section * L.sqrt (2 * constants.e * kinetic_energy / mass)

/-- Embedding of `isotropic_scatter(p, idx, chi)`; it draws `phi` from the generator. -/
def isotropic_scatter (L : MathFns K) (p : ChargedSpecies K (Vec1 K) (Vec3 K)) (idx : Nat)
    (chi : K) (g : Rng K) : Vec3 K × Rng K :=
  let vn := (rd3 p.v idx).normalized L
  let phi := 2 * constants.pi * g.uniform.1
  let zeta := L.acos vn.z
  (⟨vn.x * L.cos chi + vn.y * L.sin chi * L.sin phi / L.sin zeta
      + vn.x * vn.z * L.sin chi * L.cos phi / L.sin zeta,
    vn.y * L.cos chi - vn.x * L.sin chi * L.sin phi / L.sin zeta
      + vn.y * vn.z * L.sin chi * L.cos phi / L.sin zeta,
    vn.z * L.cos chi - (vn.x * vn.x + vn.y * vn.y) * L.sin chi * L.cos phi / L.sin zeta⟩,
   g.uniform.2)

/-- `MonteCarloCollisions::DomainConfig`. -/
structure DomainConfig (K : Type) where
  m_dt : K
  m_n_neutral : K

/-- The members of `MonteCarloCollisions`. -/
structure MonteCarloCollisions (K : Type) where
  m_config : DomainConfig K
  m_el_cs : CollisionReaction K
  m_exc_cs : List (CollisionReaction K)
  m_iz_cs : CollisionReaction K
  m_iso_cs : CollisionReaction K
  m_bs_cs : CollisionReaction K
  m_nu_prime_e : K
  m_p_null_e : K
  m_nu_prime_i : K
  m_p_null_i : K
  m_particle_samples : List Nat
  m_used_cache : List Nat

/-- Embedding of `MonteCarloCollisions::frequency_ratio(cs, kinetic_energy)`. -/
def MonteCarloCollisions.frequency_ratio (L : MathFns K) (mcc : MonteCarloCollisions K)
    (cs : CollisionReaction K) (kinetic_energy : K) : K :=
  collision_frequency L mcc.m_config.m_n_neutral
    (interpolate_cross_section mcc.m_el_cs kinetic_energy) kinetic_energy constants.m_e
    / mcc.m_nu_prime_e

/-- Embedding of `MonteCarloCollisions::electron_elastic_coll(electrons, idx,
kinetic_energy, ion_mass)`. -/
def MonteCarloCollisions.electron_elastic_coll (L : MathFns K)
    (electrons : ChargedSpecies K (Vec1 K) (Vec3 K)) (idx : Nat) (kinetic_energy ion_mass : K)
    (g : Rng K) : ChargedSpecies K (Vec1 K) (Vec3 K) × Rng K :=
  let chi := L.acos (1 - 2 * g.uniform.1)
  let vs := isotropic_scatter L electrons idx chi g.uniform.2
  let delta_energy := (2 * electrons.m / ion_mass) * (1 - L.cos chi)
  let vmag := L.sqrt (2 * constants.e * (kinetic_energy * (1 - delta_energy)) / electrons.m)
  ({ electrons with v := electrons.v.set idx ⟨vs.1.x * vmag, vs.1.y * vmag, vs.1.z * vmag⟩ },
   vs.2)

/-- Which `if` of the body of the particle loop of `collide_electrons` fired. -/
inductive Branch where
  | elastic
  | excitation
  | ionization
  | null
  deriving DecidableEq, Repr

/-- The excitation loop of `collide_electrons`: each reaction moves `fr0` to `fr1`
and adds its ratio to `fr1`; its `continue` only ends the current inner iteration.
The state is `(fr0, fr1, fired)`. -/
def excitationLoop (L : MathFns K) (mcc : MonteCarloCollisions K) (kinetic_energy r1 : K) :
    List (CollisionReaction K) → K × K × Bool → K × K × Bool
  | [], s => s
  | exc_cs :: rest, (_, fr1, fired) =>
    excitationLoop L mcc kinetic_energy r1 rest
      (fr1, fr1 + mcc.frequency_ratio L exc_cs kinetic_energy,
       fired || decide (r1 > fr1 ∧ r1 ≤ fr1 + mcc.frequency_ratio L exc_cs kinetic_energy
          ∧ kinetic_energy > exc_cs.energy_threshold))

/-- Body of the particle loop of `collide_electrons` for sample number `i`; the state
is `(electrons, ions, generator, branches)`, where `branches` records, newest first,
which branch each processed sample took. -/
def collideBody (L : MathFns K) (mcc : MonteCarloCollisions K) (samples : List Nat) (i : Nat)
    (s : ChargedSpecies K (Vec1 K) (Vec3 K) × ChargedSpecies K (Vec1 K) (Vec3 K) × Rng K
      × List Branch) :
    ChargedSpecies K (Vec1 K) (Vec3 K) × ChargedSpecies K (Vec1 K) (Vec3 K) × Rng K
      × List Branch :=
  let electrons := s.1
  let ions := s.2.1
  let p_idx := samples.getD i 0
  let kinetic_energy := kinetic_energy_ev electrons p_idx
  let r1 := s.2.2.1.uniform.1
  let g := s.2.2.1.uniform.2
  let fr1 := mcc.frequency_ratio L mcc.m_el_cs kinetic_energy
  if r1 ≤ fr1 then
    let r := MonteCarloCollisions.electron_elastic_coll L electrons p_idx kinetic_energy ions.m g
    (r.1, ions, r.2, Branch.elastic :: s.2.2.2)
  else
    let e := excitationLoop L mcc kinetic_energy r1 mcc.m_exc_cs (0, fr1, false)
    let fr0 := e.2.1
    let fr1 := e.2.1 + mcc.frequency_ratio L mcc.m_iz_cs kinetic_energy
    if r1 > fr0 ∧ r1 ≤ fr1 ∧ kinetic_energy ≥ mcc.m_iz_cs.energy_threshold then
      (electrons, ions, g, Branch.ionization :: s.2.2.2)
    else
      (electrons, ions, g, (if e.2.2 then Branch.excitation else Branch.null) :: s.2.2.2)

/-- Result of `collide_electrons`: the final objects, the returned `int` and the
branch taken by each sample (newest first). -/
structure CollideResult (K : Type) where
  mcc : MonteCarloCollisions K
  electrons : ChargedSpecies K (Vec1 K) (Vec3 K)
  ions : ChargedSpecies K (Vec1 K) (Vec3 K)
  rng : Rng K
  ret : Int
  branches : List Branch

/-- Number of colliders `n_null` computed at the start of `collide_electrons`. -/
def MonteCarloCollisions.n_null [FloorRing K] (mcc : MonteCarloCollisions K)
    (electrons : ChargedSpecies K (Vec1 K) (Vec3 K)) (g : Rng K) : Nat :=
  let n_null_f := mcc.m_p_null_e * (electrons.n : K)
  let n_null := (Int.floor n_null_f).toNat
  if n_null_f - (n_null : K) > g.uniform.1 then n_null + 1 else n_null

/-- Embedding of `MonteCarloCollisions::collide_electrons(electrons, ions)`; `fuel`
bounds the draws of each rejection loop of `sample_from_sequence` and the result is
`none` when that bound is reached. -/
def MonteCarloCollisions.collide_electrons [FloorRing K] (L : MathFns K) (fuel : Nat)
    (mcc : MonteCarloCollisions K) (electrons ions : ChargedSpecies K (Vec1 K) (Vec3 K))
    (g : Rng K) : Option (CollideResult K) :=
  let n_null := mcc.n_null electrons g
  match sample_from_sequence fuel n_null electrons.n mcc.m_particle_samples mcc.m_used_cache
      g.uniform.2 with
  | none => none
  | some (sequence, used, g') =>
    let s := forLoop (collideBody L mcc sequence) n_null (electrons, ions, g', [])
    some { mcc := { mcc with m_particle_samples := sequence, m_used_cache := used },
           electrons := s.1, ions := s.2.1, rng := s.2.2.1, ret := 0, branches := s.2.2.2 }

/-! ## particle/pusher.cpp -/

/-- Body of the particle loop of `move_particles<ChargedSpecies<1,3>>` for particle `i`;
`k = q*dt/m`. -/
def moveBody (force : List (Vec1 K)) (k dt : K) (i : Nat)
    (s : ChargedSpecies K (Vec1 K) (Vec3 K)) : ChargedSpecies K (Vec1 K) (Vec3 K) :=
  let v := s.v.set i { rd3 s.v i with x := (rd3 s.v i).x + (rd1 force i).x * k }
  let x := s.x.set i { x := (rd1 s.x i).x + (rd3 v i).x * dt }
  { s with v := v, x := x }

/-- Embedding of `move_particles<ChargedSpecies<1,3>>(species, force, dt)`. -/
def move_particles (species : ChargedSpecies K (Vec1 K) (Vec3 K)) (force : List (Vec1 K))
    (dt : K) : ChargedSpecies K (Vec1 K) (Vec3 K) :=
  let n := species.n
  let k := species.q * dt / species.m
  forLoop (moveBody force k dt) n species

/-- Body of the particle loop of `move_particles_cylindrical` for one particle with
position `x`, velocity `v` and force entry `F`; `k = q/m`. -/
def cylindricalBody (k dt : K) (F : Vec2 K) (x : Vec2 K) (v : Vec3 K) : Vec2 K × Vec3 K :=
  let Ez := F.x
  let Er := F.y
  let vz := v.x
  let vr := v.y
  let v_theta := v.z
  let r := x.y
  let az := k * Ez
  let s : K × K × Vec3 K :=
    if r > 1e-15 then (k * Er + v_theta * v_theta / r, -vr * v_theta / r, v)
    else (0, 0, if |r| < 1e-15 then { v with y := 0, z := 0 } else v)
  let ar := s.1
  let atheta := s.2.1
  let v := s.2.2
  let v := { v with x := v.x + az * dt }
  let v := { v with y := v.y + ar * dt }
  let v := { v with z := v.z + atheta * dt }
  let x := { x with x := x.x + v.x * dt }
  let x := { x with y := x.y + v.y * dt }
  if x.y < 0 then ({ x with y := 0 }, { v with y := 0, z := 0 }) else (x, v)

/-- The particle loop of `move_particles_cylindrical` at particle `i`: the body
applied to `x[i]`, `v[i]`, `force[i]` and written back. -/
def cylindricalLoopBody (force : List (Vec2 K)) (k dt : K) (i : Nat)
    (s : ChargedSpecies K (Vec2 K) (Vec3 K)) : ChargedSpecies K (Vec2 K) (Vec3 K) :=
  { s with x := s.x.set i (cylindricalBody k dt (rd2 force i) (rd2 s.x i) (rd3 s.v i)).1,
           v := s.v.set i (cylindricalBody k dt (rd2 force i) (rd2 s.x i) (rd3 s.v i)).2 }

/-- Embedding of `move_particles_cylindrical<3>(species, force, dt)`. -/
def move_particles_cylindrical (species : ChargedSpecies K (Vec2 K) (Vec3 K))
    (force : List (Vec2 K)) (dt : K) : ChargedSpecies K (Vec2 K) (Vec3 K) :=
  let n := species.n
  let k := species.q / species.m
  forLoop (cylindricalLoopBody force k dt) n species

/-- The state of one particle in `move_particles_cylindrical` after the updates of
`v[i]` and `x[i]` and before the test `x[i].y < 0`: the first component holds the
freshly updated position, with radius `r + v_r'*dt`. -/
def cylindricalAdvance (k dt : K) (F : Vec2 K) (x : Vec2 K) (v : Vec3 K) : Vec2 K × Vec3 K :=
  let Ez := F.x
  let Er := F.y
  let vz := v.x
  let vr := v.y
  let v_theta := v.z
  let r := x.y
  let az := k * Ez
  let s : K × K × Vec3 K :=
    if r > 1e-15 then (k * Er + v_theta * v_theta / r, -vr * v_theta / r, v)
    else (0, 0, if |r| < 1e-15 then { v with y := 0, z := 0 } else v)
  let ar := s.1
  let atheta := s.2.1
  let v := s.2.2
  let v := { v with x := v.x + az * dt }
  let v := { v with y := v.y + ar * dt }
  let v := { v with z := v.z + atheta * dt }
  let x := { x with x := x.x + v.x * dt }
  let x := { x with y := x.y + v.y * dt }
  (x, v)

/-! ## interpolate/field.cpp -/

/-- `spatial::UniformGrid` in one dimension: the spacing `dx` and the flat data
buffer; the extent is the length of the buffer. -/
structure UniformGrid (K : Type) where
  dx : K
  data : List K

/-- Nearest integer to `t`, ties to the even one. -/
def roundHalfEven [FloorRing K] (t : K) : Int :=
  if t - (Int.floor t : K) < 1 / 2 then Int.floor t
  else if 1 / 2 < t - (Int.floor t : K) then Int.floor t + 1
  else if Int.floor t % 2 = 0 then Int.floor t else Int.floor t + 1

/-- Rounding of an exact result to an IEEE-754 `double` (53-bit significand, round to
nearest, ties to even), for results in the normal range: `q` with
`2^e ≤ |q| < 2^(e+1)` goes to the nearest multiple of `2^(e-52)`. -/
def roundDouble [FloorRing K] (q : K) : K :=
  if q = 0 then 0
  else (roundHalfEven (q / (2 : K) ^ (Int.log 2 |q| - 52)) : K) * (2 : K) ^ (Int.log 2 |q| - 52)

/-- The index `il = static_cast<size_t>(floor(xp / dx))` of `field_at_particles`.  The
quotient is a `double` operation: `fl` is the rounding applied to its exact result
(`roundDouble` on the machine, `id` in exact arithmetic). -/
def gatherIndex [FloorRing K] (fl : K → K) (dx xp : K) : Nat :=
  (Int.floor (fl (xp / dx))).toNat

/-- Body of the particle loop of `field_at_particles` for particle `i`; `fl` rounds the
result of every `double` operation. -/
def fieldBody [FloorRing K] {V : Type} (fl : K → K) (field : UniformGrid K) (i : Nat)
    (s : ChargedSpecies K (Vec1 K) V) : ChargedSpecies K (Vec1 K) V :=
  let dx := field.dx
  let e := field.data
  let xp := (rd1 s.x i).x
  let il := gatherIndex fl dx xp
  let xl := fl ((il : K) * dx)
  let xr := fl (((il + 1 : Nat) : K) * dx)
  { s with f := s.f.set i (Vec1.mk
      (fl (fl (fl (rd e il * fl (xr - xp)) / dx) + fl (fl (rd e (il + 1) * fl (xp - xl)) / dx)))) }

/-- Embedding of `field_at_particles(field, species)` for `ChargedSpecies<1, NV>`, with
`fl` the rounding of the `double` operations. -/
def field_at_particles [FloorRing K] {V : Type} (fl : K → K) (field : UniformGrid K)
    (species : ChargedSpecies K (Vec1 K) V) : ChargedSpecies K (Vec1 K) V :=
  forLoop (fieldBody fl field) species.n species

/-! ### Specification-level sequences for the Thomas algorithm -/

/-- Coefficient `c'_k` held in `cprime` after `k` forward iterations of `poisson_thomas`. -/
def thomasC : Nat → K
  | 0 => -(1 / 2)
  | k + 1 => 1 / (-2 - thomasC k)

/-- Value stored in `yout[t]` by the forward elimination of `poisson_thomas`. -/
def thomasD (fin : List K) (off : Nat) (dx2 ylhs : K) : Nat → K
  | 0 => (rd fin (off + 0) * dx2 - ylhs) / (-2)
  | t + 1 => (rd fin (off + (t + 1)) * dx2 - thomasD fin off dx2 ylhs t) / (-2 - thomasC t)

/-- Value `yout[p + 1 - i]` after the back substitution of `poisson_thomas` on
`p + 2` unknowns (counted from the last unknown). -/
def thomasX (fin : List K) (off : Nat) (dx2 ylhs yrhs : K) (p : Nat) : Nat → K
  | 0 => ((rd fin (off + p + 1) * dx2 - yrhs) - thomasD fin off dx2 ylhs p) / (-2 - thomasC p)
  | i + 1 => thomasD fin off dx2 ylhs (p - i) - thomasC (p - i) * thomasX fin off dx2 ylhs yrhs p i

/-! ### Concrete inputs used by the witnesses -/

/-- Scenario E3 of the specification: one particle at `x = 0` with `v = (1, 2, 3)`
(charge `-1`, mass `1`). -/
def scenarioE3 : ChargedSpecies ℚ (Vec1 ℚ) (Vec3 ℚ) :=
  ⟨[⟨0⟩], [⟨1, 2, 3⟩], [⟨0⟩], -1, 1, 1⟩

/-- Scenario E4 of the specification: one particle at `(z, r) = (0, 1e-16)` with
`v = (0, 1, 1)` (charge `1`, mass `1`). -/
def scenarioE4 : ChargedSpecies ℚ (Vec2 ℚ) (Vec3 ℚ) :=
  ⟨[⟨0, 1e-16⟩], [⟨0, 1, 1⟩], [⟨0, 0⟩], 1, 1, 1⟩

/-- A collision set-up with constant cross sections `1` (elastic and ionization, no
excitation), `n_neutral = 1`, `nu'_e = 4` and `p_null_e = 1/2`. -/
def exampleMcc : MonteCarloCollisions K :=
  { m_config := ⟨1, 1⟩
    m_el_cs := ⟨[0], [1], 0⟩
    m_exc_cs := []
    m_iz_cs := ⟨[0], [1], 0⟩
    m_iso_cs := ⟨[0], [1], 0⟩
    m_bs_cs := ⟨[0], [1], 0⟩
    m_nu_prime_e := 4
    m_p_null_e := 1 / 2
    m_nu_prime_i := 4
    m_p_null_i := 1 / 2
    m_particle_samples := []
    m_used_cache := [] }

/-- One electron at `x = 0` with `v = (1, 0, 0)` in a species of mass `m_e/e`, so that
`2*e*T/m_e = 1` for the value `T` of `kinetic_energy_ev`. -/
def exampleElectrons : ChargedSpecies K (Vec1 K) (Vec3 K) :=
  ⟨[⟨0⟩], [⟨1, 0, 0⟩], [⟨0⟩], -constants.e, constants.m_e / constants.e, 1⟩

/-- An ion species without particles (mass `1`). -/
def exampleIons : ChargedSpecies K (Vec1 K) (Vec3 K) :=
  ⟨[], [], [], constants.e, 1, 0⟩

/-- A generator whose `uniform()` returns `1/4` and then `3/8` for ever, and whose
`uniform_u64()` returns `0`. -/
def exampleRng : Rng K :=
  ⟨fun i => if i = 0 then 1 / 4 else 3 / 8, fun _ => 0⟩

/-- A generator whose `uniform()` returns `1/4` and then `3/8` for ever, and whose
`uniform_u64()` counts `0, 1, 2, ...`. -/
def exampleRngCounting : Rng K :=
  ⟨fun i => if i = 0 then 1 / 4 else 3 / 8, fun i => i⟩

/-- Property 6 of the specification: one particle on the axis (`r = 0`) with
`v_r = 1`, `v_theta = 1` (charge `1`, mass `1`). -/
def scenarioAxis : ChargedSpecies ℚ (Vec2 ℚ) (Vec3 ℚ) :=
  ⟨[⟨0, 0⟩], [⟨0, 1, 1⟩], [⟨0, 0⟩], 1, 1, 1⟩

/-- One particle at `(z, r) = (0, 1)` moving inwards with `v_r = -3` (charge `1`,
mass `1`): one step with `dt = 1` would take it to radius `-2`. -/
def scenarioInward : ChargedSpecies ℚ (Vec2 ℚ) (Vec3 ℚ) :=
  ⟨[⟨0, 1⟩], [⟨0, -3, 0⟩], [⟨0, 0⟩], 1, 1, 1⟩

/-- A field grid of three nodes with spacing `1/2` holding `e = [10, 20, 40]`. -/
def exampleGrid : UniformGrid ℚ := ⟨1 / 2, [10, 20, 40]⟩

/-- One particle sitting on node `1` of `exampleGrid` (`x = 1/2`). -/
def exampleOnNode : ChargedSpecies ℚ (Vec1 ℚ) (Vec3 ℚ) :=
  ⟨[⟨1 / 2⟩], [⟨0, 0, 0⟩], [⟨0⟩], 1, 1, 1⟩

/-- The cross-section table `E = [0, 1, 2]`, `sigma = [0, 10, 20]` with threshold `0`. -/
def exampleReaction : CollisionReaction ℚ := ⟨[0, 1, 2], [0, 10, 20], 0⟩

/-- The set-up `exampleMcc` with the ionization cross section raised to the constant `3`
(the elastic one stays `1`). -/
def exampleMccIz : MonteCarloCollisions K :=
  { (exampleMcc : MonteCarloCollisions K) with m_iz_cs := ⟨[0], [3], 0⟩ }

/-- One electron moving along the z axis, `v = (0, 0, 1)` (species mass `m_e`). -/
def exampleAlongZ : ChargedSpecies K (Vec1 K) (Vec3 K) :=
  ⟨[⟨0⟩], [⟨0, 0, 1⟩], [⟨0⟩], -constants.e, constants.m_e, 1⟩

/-- One particle at `(z, r) = (0, 1)` with `v = (3, 1, 1)` (charge `1`, mass `1`), away
from the axis. -/
def scenarioOrbit : ChargedSpecies ℚ (Vec2 ℚ) (Vec3 ℚ) :=
  ⟨[⟨0, 1⟩], [⟨3, 1, 1⟩], [⟨0, 0⟩], 1, 1, 1⟩

/-- One particle of `exampleGrid` between nodes `1` and `2` (`x = 3/4`). -/
def exampleOffNode : ChargedSpecies ℚ (Vec1 ℚ) (Vec3 ℚ) :=
  ⟨[⟨3 / 4⟩], [⟨0, 0, 0⟩], [⟨0⟩], 1, 1, 1⟩

/-- The `double` written `0.7`, that is `3152519739159347 / 2^52`. -/
def doubleDx : ℚ := 3152519739159347 / 4503599627370496

/-- The `double` written `3.4999999999999996`, that is `3.5 - 2^(-51)`. -/
def doubleXp : ℚ := 7881299347898367 / 2251799813685248

/-- A field grid of six nodes with spacing the `double` `0.7`. -/
def exampleGridSix : UniformGrid ℚ := ⟨doubleDx, [1, 2, 3, 4, 5, 6]⟩

/-! ## Theorems -/

theorem getD_set_eq {α : Type} (l : List α) (i : Nat) (a d : α) (h : i < l.length) :
    (l.set i a).getD i d = a := by
  simp [List.getD_eq_getElem?_getD, h]

theorem getD_set_ne {α : Type} (l : List α) (i j : Nat) (a d : α) (h : i ≠ j) :
    (l.set i a).getD j d = l.getD j d := by
  simp [List.getD_eq_getElem?_getD, List.getElem?_set_ne h]

theorem rd_set_eq (v : List K) (i : Nat) (x : K) (h : i < v.length) :
    rd (v.set i x) i = x := by
  simp [rd, List.getD_eq_getElem?_getD, h]

theorem rd_set_ne (v : List K) (i j : Nat) (x : K) (h : i ≠ j) :
    rd (v.set i x) j = rd v j := by
  simp [rd, List.getD_eq_getElem?_getD, List.getElem?_set_ne h]

theorem length_resize (v : List K) (n : Nat) : (resize v n).length = n := by
  simp [resize]
  omega

theorem thomasC_closed (k : Nat) : (thomasC k : K) = -((k : K) + 1) / ((k : K) + 2) := by
  induction k with
  | zero => simp [thomasC]; ring
  | succ k ih =>
    have h2 : (k : K) + 2 ≠ 0 := by positivity
    have h3 : (k : K) + 3 ≠ 0 := by positivity
    have h4 : ((k : K) + 1 + 2) ≠ 0 := by positivity
    have h5 : (-2 - -((k : K) + 1) / ((k : K) + 2)) = -((k : K) + 3) / ((k : K) + 2) := by
      field_simp; ring
    have h6 : -((k : K) + 3) ≠ 0 := neg_ne_zero.mpr h3
    rw [thomasC, ih, h5, one_div_div]
    push_cast
    rw [div_eq_div_iff h6 h4]
    ring

theorem thomasC_denom_ne (k : Nat) : (-2 - thomasC k : K) ≠ 0 := by
  rw [thomasC_closed]
  have h2 : (k : K) + 2 ≠ 0 := by positivity
  have h3 : (k : K) + 3 ≠ 0 := by positivity
  have h5 : (-2 - -((k : K) + 1) / ((k : K) + 2)) = -((k : K) + 3) / ((k : K) + 2) := by
    field_simp; ring
  rw [h5]
  exact div_ne_zero (neg_ne_zero.mpr h3) h2

theorem thomas_forward_inv (fin y0 : List K) (off : Nat) (dx2 ylhs : K) (k : Nat)
    (hk : off + k < y0.length) (h0 : rd y0 off = thomasD fin off dx2 ylhs 0) :
    (forLoop (fun j => thomasForwardBody fin off dx2 (j + 1)) k (y0, -(1 / 2))).2 = thomasC k ∧
    (forLoop (fun j => thomasForwardBody fin off dx2 (j + 1)) k (y0, -(1 / 2))).1.length
      = y0.length ∧
    (∀ t, t ≤ k →
      rd (forLoop (fun j => thomasForwardBody fin off dx2 (j + 1)) k (y0, -(1 / 2))).1 (off + t)
        = thomasD fin off dx2 ylhs t) ∧
    (∀ idx, idx < off ∨ off + k < idx →
      rd (forLoop (fun j => thomasForwardBody fin off dx2 (j + 1)) k (y0, -(1 / 2))).1 idx
        = rd y0 idx) := by
  induction k with
  | zero =>
    refine ⟨rfl, rfl, ?_, fun _ _ => rfl⟩
    intro t ht
    have : t = 0 := by omega
    subst this
    simpa [forLoop] using h0
  | succ k ih =>
    obtain ⟨ih1, ih2, ih3, ih4⟩ := ih (by omega)
    simp only [forLoop, thomasForwardBody]
    refine ⟨by rw [ih1, thomasC], by rw [List.length_set, ih2], ?_, ?_⟩
    · intro t ht
      rcases Nat.lt_or_ge t (k + 1) with hlt | hge
      · rw [rd_set_ne _ _ _ _ (by omega)]
        exact ih3 t (by omega)
      · have : t = k + 1 := by omega
        subst this
        rw [rd_set_eq _ _ _ (by rw [ih2]; omega), ih1, thomasD]
        have e : off + (k + 1) - 1 = off + k := by omega
        rw [e, ih3 k (le_refl k)]
    · intro idx hidx
      rw [rd_set_ne _ _ _ _ (by omega)]
      exact ih4 idx (by omega)

theorem thomas_backward_inv (fin y0 : List K) (off : Nat) (dx2 ylhs yrhs : K) (p j : Nat)
    (hj : j ≤ p) (hlen : off + p + 1 < y0.length)
    (hD : ∀ t, t ≤ p → rd y0 (off + t) = thomasD fin off dx2 ylhs t)
    (hX : rd y0 (off + p + 1) = thomasX fin off dx2 ylhs yrhs p 0) :
    (forLoop (fun j => thomasBackwardBody off (p - j)) j (y0, thomasC p)).2 = thomasC (p - j) ∧
    (forLoop (fun j => thomasBackwardBody off (p - j)) j (y0, thomasC p)).1.length
      = y0.length ∧
    (∀ t, t ≤ p - j →
      rd (forLoop (fun j => thomasBackwardBody off (p - j)) j (y0, thomasC p)).1 (off + t)
        = thomasD fin off dx2 ylhs t) ∧
    (∀ i, i ≤ j →
      rd (forLoop (fun j => thomasBackwardBody off (p - j)) j (y0, thomasC p)).1 (off + p + 1 - i)
        = thomasX fin off dx2 ylhs yrhs p i) ∧
    (∀ idx, idx < off ∨ off + p + 1 < idx →
      rd (forLoop (fun j => thomasBackwardBody off (p - j)) j (y0, thomasC p)).1 idx
        = rd y0 idx) := by
  induction j with
  | zero =>
    refine ⟨rfl, rfl, fun t ht => hD t (by omega), ?_, fun _ _ => rfl⟩
    intro i hi
    have : i = 0 := by omega
    subst this
    simpa [forLoop] using hX
  | succ j ih =>
    obtain ⟨ih1, ih2, ih3, ih4, ih5⟩ := ih (by omega)
    simp only [forLoop, thomasBackwardBody]
    refine ⟨?_, by rw [List.length_set, ih2], ?_, ?_, ?_⟩
    · rw [ih1]
      have e : p - j = (p - (j + 1)) + 1 := by omega
      rw [e, thomasC, one_div_one_div]
      ring
    · intro t ht
      rw [rd_set_ne _ _ _ _ (by omega)]
      exact ih3 t (by omega)
    · intro i hi
      rcases Nat.lt_or_ge i (j + 1) with hlt | hge
      · rw [rd_set_ne _ _ _ _ (by omega)]
        exact ih4 i (by omega)
      · have : i = j + 1 := by omega
        subst this
        have e1 : off + p + 1 - (j + 1) = off + (p - j) := by omega
        have e2 : off + (p - j) + 1 = off + p + 1 - j := by omega
        rw [e1, rd_set_eq _ _ _ (by rw [ih2]; omega), ih1, ih3 (p - j) (le_refl _), e2,
          ih4 j (le_refl j), thomasX]
    · intro idx hidx
      rw [rd_set_ne _ _ _ _ (by omega)]
      exact ih5 idx hidx

theorem poisson_thomas_spec (fin yout : List K) (off p : Nat) (dx ylhs yrhs : K)
    (hlen : off + p + 1 < yout.length) :
    (poisson_thomas fin yout off (p + 2) dx ylhs yrhs).length = yout.length ∧
    (∀ i, i ≤ p + 1 →
      rd (poisson_thomas fin yout off (p + 2) dx ylhs yrhs) (off + p + 1 - i)
        = thomasX fin off (dx * dx) ylhs yrhs p i) ∧
    (∀ idx, idx < off ∨ off + p + 1 < idx →
      rd (poisson_thomas fin yout off (p + 2) dx ylhs yrhs) idx = rd yout idx) := by
  have hf := thomas_forward_inv fin
    (yout.set (off + 0) ((rd fin (off + 0) * (dx * dx) - ylhs) / (-2))) off (dx * dx) ylhs p
    (by rw [List.length_set]; omega)
    (by rw [thomasD]; exact rd_set_eq _ _ _ (by omega))
  obtain ⟨f1, f2, f3, f4⟩ := hf
  rw [List.length_set] at f2
  have e1 : off + (p + 2) - 1 = off + p + 1 := by omega
  have e2 : off + (p + 2) - 2 = off + p := by omega
  have e3 : p + 2 - 2 = p := by omega
  have hb := fun j hj => thomas_backward_inv fin
    ((forLoop (fun j => thomasForwardBody fin off (dx * dx) (j + 1)) p
        (yout.set (off + 0) ((rd fin (off + 0) * (dx * dx) - ylhs) / (-2)), -(1 / 2))).1.set
      (off + p + 1)
      (((rd fin (off + p + 1) * (dx * dx) - yrhs) -
        rd (forLoop (fun j => thomasForwardBody fin off (dx * dx) (j + 1)) p
          (yout.set (off + 0) ((rd fin (off + 0) * (dx * dx) - ylhs) / (-2)), -(1 / 2))).1
          (off + p)) /
        (-2 - (forLoop (fun j => thomasForwardBody fin off (dx * dx) (j + 1)) p
          (yout.set (off + 0) ((rd fin (off + 0) * (dx * dx) - ylhs) / (-2)), -(1 / 2))).2)))
    off (dx * dx) ylhs yrhs p j hj
    (by rw [List.length_set, f2]; exact hlen)
    (by
      intro t ht
      rw [rd_set_ne _ _ _ _ (by omega)]
      exact f3 t ht)
    (by rw [rd_set_eq _ _ _ (by rw [f2]; exact hlen), f3 p (le_refl p), f1, thomasX])
  obtain ⟨b1, b2, b3, b4, b5⟩ := hb p (le_refl p)
  rw [List.length_set, f2] at b2
  simp only [poisson_thomas, e1, e2, e3]
  rw [f1] at b1 b2 b3 b4 b5 ⊢
  refine ⟨by rw [List.length_set, b2], ?_, ?_⟩
  · intro i hi
    rcases Nat.lt_or_ge i (p + 1) with hlt | hge
    · rw [rd_set_ne _ _ _ _ (by omega)]
      exact b4 i (by omega)
    · have : i = p + 1 := by omega
      subst this
      have e4 : off + p + 1 - (p + 1) = off + 0 := by omega
      have e5 : off + 1 = off + p + 1 - p := by omega
      rw [e4, rd_set_eq _ _ _ (by rw [b2]; omega), b3 0 (by omega), e5, b4 p (le_refl p), thomasX]
      simp [thomasC]
  · intro idx hidx
    rw [rd_set_ne _ _ _ _ (by omega), b5 idx hidx, rd_set_ne _ _ _ _ (by omega),
      f4 idx (by omega), rd_set_ne _ _ _ _ (by omega)]

theorem thomasX_last (fin : List K) (off : Nat) (dx2 ylhs yrhs : K) (p : Nat) :
    thomasX fin off dx2 ylhs yrhs p 1 - 2 * thomasX fin off dx2 ylhs yrhs p 0 + yrhs
      = rd fin (off + p + 1) * dx2 := by
  have hne := thomasC_denom_ne (K := K) p
  simp only [thomasX, Nat.sub_zero]
  field_simp
  ring

theorem thomasX_first (fin : List K) (off : Nat) (dx2 ylhs yrhs : K) (p : Nat) :
    ylhs - 2 * thomasX fin off dx2 ylhs yrhs p (p + 1) + thomasX fin off dx2 ylhs yrhs p p
      = rd fin (off + 0) * dx2 := by
  simp only [thomasX, Nat.sub_self, thomasC, thomasD]
  ring

theorem thomasX_mid (fin : List K) (off : Nat) (dx2 ylhs yrhs : K) (p i : Nat)
    (hi : i < p) :
    thomasX fin off dx2 ylhs yrhs p (i + 2) - 2 * thomasX fin off dx2 ylhs yrhs p (i + 1)
      + thomasX fin off dx2 ylhs yrhs p i
      = rd fin (off + (p - i)) * dx2 := by
  have hne := thomasC_denom_ne (K := K) (p - (i + 1))
  have e : p - i = (p - (i + 1)) + 1 := by omega
  rw [thomasX, thomasX, e, thomasD, thomasC]
  field_simp
  ring

theorem forLoop_length_inv (body : Nat → List K × K → List K × K)
    (hbody : ∀ i s, (body i s).1.length = s.1.length) (k : Nat) (s : List K × K) :
    (forLoop body k s).1.length = s.1.length := by
  induction k with
  | zero => rfl
  | succ k ih => rw [forLoop, hbody, ih]

theorem poisson_thomas_length (fin yout : List K) (off n : Nat) (dx ylhs yrhs : K) :
    (poisson_thomas fin yout off n dx ylhs yrhs).length = yout.length := by
  simp only [poisson_thomas, List.length_set]
  rw [forLoop_length_inv _ (fun i s => by simp [thomasBackwardBody]), List.length_set,
    forLoop_length_inv _ (fun i s => by simp [thomasForwardBody]), List.length_set]

theorem dirichlet_solve_length (n : Nat) (dx : K) (rho out : List K) (v0 v1 : K) :
    (DirichletPoissonSolver.solve n dx rho out v0 v1).length = n := by
  simp only [DirichletPoissonSolver.solve, List.length_set, poisson_thomas_length,
    length_resize]

/-- C1: for every `n ≥ 4`, every density of length `n`, every `v0`, `v1`, `dx` and every
prior content of the output buffer, `DirichletPoissonSolver::solve` returns `phi` of
length `n` with `phi[0] = v0`, `phi[n-1] = v1` and
`phi[i-1] - 2*phi[i] + phi[i+1] = rho[i]*dx^2` at every interior index `1 ≤ i ≤ n-2`. -/
theorem dirichlet_solve_discrete_poisson (n : Nat) (hn : 4 ≤ n) (rho out : List K)
    (hrho : rho.length = n) (v0 v1 dx : K) :
    (DirichletPoissonSolver.solve n dx rho out v0 v1).length = n ∧
    rd (DirichletPoissonSolver.solve n dx rho out v0 v1) 0 = v0 ∧
    rd (DirichletPoissonSolver.solve n dx rho out v0 v1) (n - 1) = v1 ∧
    ∀ i, 1 ≤ i → i ≤ n - 2 →
      rd (DirichletPoissonSolver.solve n dx rho out v0 v1) (i - 1)
        - 2 * rd (DirichletPoissonSolver.solve n dx rho out v0 v1) i
        + rd (DirichletPoissonSolver.solve n dx rho out v0 v1) (i + 1)
        = rd rho i * dx ^ 2 := by
  obtain ⟨p, rfl⟩ : ∃ p, n = p + 4 := ⟨n - 4, by omega⟩
  have hlenR := length_resize out (p + 4)
  obtain ⟨t1, t2, -⟩ := poisson_thomas_spec rho (resize out (p + 4)) 1 p dx v0 v1
    (by rw [hlenR]; omega)
  rw [hlenR] at t1
  have e0 : p + 4 - 2 = p + 2 := by omega
  have hphi0 : rd (DirichletPoissonSolver.solve (p + 4) dx rho out v0 v1) 0 = v0 := by
    simp only [DirichletPoissonSolver.solve, e0, List.length_set, t1]
    rw [rd_set_ne _ _ _ _ (by omega), rd_set_eq _ _ _ (by rw [t1]; omega)]
  have hphiN : rd (DirichletPoissonSolver.solve (p + 4) dx rho out v0 v1) (p + 4 - 1) = v1 := by
    simp only [DirichletPoissonSolver.solve, e0, List.length_set, t1]
    rw [rd_set_eq _ _ _ (by rw [List.length_set, t1]; omega)]
  have hmid : ∀ i, i ≤ p + 1 →
      rd (DirichletPoissonSolver.solve (p + 4) dx rho out v0 v1) (p + 2 - i)
        = thomasX rho 1 (dx * dx) v0 v1 p i := by
    intro i hi
    simp only [DirichletPoissonSolver.solve, e0, List.length_set, t1]
    rw [rd_set_ne _ _ _ _ (by omega), rd_set_ne _ _ _ _ (by omega)]
    have e : p + 2 - i = 1 + p + 1 - i := by omega
    rw [e]
    exact t2 i hi
  refine ⟨dirichlet_solve_length _ _ _ _ _ _, hphi0, hphiN, ?_⟩
  intro i h1 h2
  have hsq : dx ^ 2 = dx * dx := by ring
  rw [hsq]
  rcases Nat.eq_or_lt_of_le h1 with h | h
  · -- first interior row: the left neighbour is the boundary value `v0`
    subst h
    have a1 := hmid (p + 1) (le_refl _)
    have a2 := hmid p (by omega)
    have e1 : p + 2 - (p + 1) = 1 := by omega
    have e2 : p + 2 - p = 1 + 1 := by omega
    rw [e1] at a1
    rw [e2] at a2
    rw [show (1 : Nat) - 1 = 0 from rfl, hphi0, a1, a2]
    exact thomasX_first rho 1 (dx * dx) v0 v1 p
  · rcases Nat.eq_or_lt_of_le h2 with h' | h'
    · -- last interior row: the right neighbour is the boundary value `v1`
      subst h'
      have a1 := hmid 0 (by omega)
      have a2 := hmid 1 (by omega)
      have e1 : p + 4 - 2 - 1 = p + 2 - 1 := by omega
      have e2 : p + 4 - 2 = p + 2 - 0 := by omega
      have e3 : p + 2 - 0 + 1 = p + 4 - 1 := by omega
      have e4 : p + 2 - 0 = 1 + p + 1 := by omega
      rw [e1, a2, e2, a1, e3, hphiN, e4]
      exact thomasX_last rho 1 (dx * dx) v0 v1 p
    · -- rows in between
      obtain ⟨j, hj, rfl⟩ : ∃ j, j < p ∧ i = p + 1 - j := ⟨p + 1 - i, by omega, by omega⟩
      have a0 := hmid j (by omega)
      have a1 := hmid (j + 1) (by omega)
      have a2 := hmid (j + 2) (by omega)
      have e1 : p + 1 - j - 1 = p + 2 - (j + 2) := by omega
      have e2 : p + 1 - j = p + 2 - (j + 1) := by omega
      have e3 : p + 2 - (j + 1) + 1 = p + 2 - j := by omega
      have e4 : p + 2 - (j + 1) = 1 + (p - j) := by omega
      rw [e1, a2, e2, a1, e3, a0, e4]
      exact thomasX_mid rho 1 (dx * dx) v0 v1 p j hj

/-- C1 witness: the grid `n = 4`, `dx = 0.5`, `rho = 0`, `v0 = 0`, `v1 = 3` meets the
hypotheses and the solver returns `[0, 1, 2, 3]`. -/
theorem dirichlet_solve_discrete_poisson_witness :
    (4 ≤ 4 ∧ ([0, 0, 0, 0] : List ℚ).length = 4) ∧
    DirichletPoissonSolver.solve 4 (1 / 2 : ℚ) [0, 0, 0, 0] [] 0 3 = [0, 1, 2, 3] ∧
    ((DirichletPoissonSolver.solve 4 (1 / 2 : ℚ) [0, 0, 0, 0] [] 0 3).length = 4 ∧
      rd (DirichletPoissonSolver.solve 4 (1 / 2 : ℚ) [0, 0, 0, 0] [] 0 3) 0 = 0 ∧
      rd (DirichletPoissonSolver.solve 4 (1 / 2 : ℚ) [0, 0, 0, 0] [] 0 3) (4 - 1) = 3 ∧
      ∀ i, 1 ≤ i → i ≤ 4 - 2 →
        rd (DirichletPoissonSolver.solve 4 (1 / 2 : ℚ) [0, 0, 0, 0] [] 0 3) (i - 1)
          - 2 * rd (DirichletPoissonSolver.solve 4 (1 / 2 : ℚ) [0, 0, 0, 0] [] 0 3) i
          + rd (DirichletPoissonSolver.solve 4 (1 / 2 : ℚ) [0, 0, 0, 0] [] 0 3) (i + 1)
          = rd [0, 0, 0, 0] i * (1 / 2 : ℚ) ^ 2) :=
  ⟨⟨le_refl 4, rfl⟩,
   by norm_num [DirichletPoissonSolver.solve, poisson_thomas, forLoop, thomasForwardBody,
     thomasBackwardBody, rd, resize, List.replicate, List.set],
   dirichlet_solve_discrete_poisson 4 (le_refl 4) [0, 0, 0, 0] [] rfl 0 3 (1 / 2)⟩

/-- C7 (the code departs from the claim): on the grid `n = 3` the single interior value
returned by `DirichletPoissonSolver::solve` ignores `v0` and depends on the prior
content of the output buffer: with `rho = 0`, `dx = 1`, `v0 = 0`, `v1 = 3` a fresh
buffer gives `[0, 2, 3]` and the buffer `[5, 0, 7]` gives `[0, 53/6, 3]`, neither of
which is `[0, 3/2, 3]`, so `phi[0] - 2*phi[1] + phi[2] = rho[1]*dx^2` fails. -/
theorem dirichlet_solve_three_points :
    DirichletPoissonSolver.solve 3 (1 : ℚ) [0, 0, 0] [] 0 3 = [0, 2, 3] ∧
    DirichletPoissonSolver.solve 3 (1 : ℚ) [0, 0, 0] [5, 0, 7] 0 3 = [0, 53 / 6, 3] ∧
    rd (DirichletPoissonSolver.solve 3 (1 : ℚ) [0, 0, 0] [] 0 3) 0
      - 2 * rd (DirichletPoissonSolver.solve 3 (1 : ℚ) [0, 0, 0] [] 0 3) 1
      + rd (DirichletPoissonSolver.solve 3 (1 : ℚ) [0, 0, 0] [] 0 3) 2
      ≠ rd [0, 0, 0] 1 * (1 : ℚ) ^ 2 := by
  have h1 : DirichletPoissonSolver.solve 3 (1 : ℚ) [0, 0, 0] [] 0 3 = [0, 2, 3] := by
    norm_num [DirichletPoissonSolver.solve, poisson_thomas, forLoop, thomasForwardBody,
      thomasBackwardBody, rd, resize, List.replicate, List.set]
  have h2 : DirichletPoissonSolver.solve 3 (1 : ℚ) [0, 0, 0] [5, 0, 7] 0 3 = [0, 53 / 6, 3] := by
    norm_num [DirichletPoissonSolver.solve, poisson_thomas, forLoop, thomasForwardBody,
      thomasBackwardBody, rd, resize, List.replicate, List.set]
  refine ⟨h1, h2, ?_⟩
  rw [h1]
  norm_num [rd]

theorem dirichlet_solve_three_formula (rho out : List K) (v0 v1 dx : K) :
    DirichletPoissonSolver.solve 3 dx rho out v0 v1
      = [v0,
         ((rd rho 1 * (dx * dx) - v1) - rd (resize out 3) 0) / (-2 - -(1 / 2))
           - (-(1 / 2)) * rd (resize out 3) 2,
         v1] := by
  obtain ⟨a, b, c, h⟩ : ∃ a b c, resize out 3 = [a, b, c] := by
    have hl := length_resize out 3
    match hr : resize out 3, hl with
    | [a, b, c], _ => exact ⟨a, b, c, rfl⟩
  simp [DirichletPoissonSolver.solve, poisson_thomas, forLoop, h, rd, List.set]

/-- C8: for every `n ≥ 3`, every `rho`, `v0`, `v1`, `dx` (and every prior content of the
buffer) the output of `DirichletPoissonSolver::solve` has length `n` with
`phi[0] = v0` and `phi[n-1] = v1`. -/
theorem dirichlet_solve_endpoints (n : Nat) (hn : 3 ≤ n) (rho out : List K) (v0 v1 dx : K) :
    (DirichletPoissonSolver.solve n dx rho out v0 v1).length = n ∧
    rd (DirichletPoissonSolver.solve n dx rho out v0 v1) 0 = v0 ∧
    rd (DirichletPoissonSolver.solve n dx rho out v0 v1) (n - 1) = v1 := by
  have hlen : (poisson_thomas rho (resize out n) 1 (n - 2) dx v0 v1).length = n := by
    rw [poisson_thomas_length, length_resize]
  refine ⟨dirichlet_solve_length _ _ _ _ _ _, ?_, ?_⟩
  · simp only [DirichletPoissonSolver.solve, List.length_set, hlen]
    rw [rd_set_ne _ _ _ _ (by omega), rd_set_eq _ _ _ (by rw [hlen]; omega)]
  · simp only [DirichletPoissonSolver.solve, List.length_set, hlen]
    rw [rd_set_eq _ _ _ (by rw [List.length_set, hlen]; omega)]

/-- C8 witness: the grid `n = 3` with `rho = [1, 2, 3]`, stale buffer `[9, 9]`,
`v0 = 4`, `v1 = 5`, `dx = 2`. -/
theorem dirichlet_solve_endpoints_witness :
    3 ≤ 3 ∧
    (DirichletPoissonSolver.solve 3 (2 : ℚ) [1, 2, 3] [9, 9] 4 5).length = 3 ∧
    rd (DirichletPoissonSolver.solve 3 (2 : ℚ) [1, 2, 3] [9, 9] 4 5) 0 = 4 ∧
    rd (DirichletPoissonSolver.solve 3 (2 : ℚ) [1, 2, 3] [9, 9] 4 5) (3 - 1) = 5 :=
  ⟨le_refl 3, dirichlet_solve_endpoints 3 (le_refl 3) [1, 2, 3] [9, 9] 4 5 2⟩

/-! ### collisions/mcc.cpp : cross sections and sampling -/

/-- C2 (the code departs from the claim): `interpolate_cross_section` reads the two
tabulated cross sections in swapped order (`y1` is the left one, `y0` the right one),
so on the table `E = [0, 1, 2]`, `sigma = [0, 10, 20]` it returns `sigma_0 = 0` at the
tabulated energy `E_1 = 1` (not `sigma_1 = 10`) and `15/2` at `E = 1/4`, where linear
interpolation gives `5/2`. -/
theorem interpolate_cross_section_swapped :
    lower_bound ([0, 1, 2] : List ℚ) 1 = 1 ∧
    interpolate_cross_section (⟨[0, 1, 2], [0, 10, 20], 0⟩ : CollisionReaction ℚ) 1 = 0 ∧
    lower_bound ([0, 1, 2] : List ℚ) (1 / 4) = 1 ∧
    interpolate_cross_section (⟨[0, 1, 2], [0, 10, 20], 0⟩ : CollisionReaction ℚ) (1 / 4)
      = 15 / 2 ∧
    (0 : ℚ) + (1 / 4 - 0) * (10 - 0) / (1 - 0) = 5 / 2 := by
  have l1 : lower_bound ([0, 1, 2] : List ℚ) 1 = 1 := by
    norm_num [lower_bound, lowerBoundLoop, rd]
  have l2 : lower_bound ([0, 1, 2] : List ℚ) (1 / 4) = 1 := by
    norm_num [lower_bound, lowerBoundLoop, rd]
  refine ⟨l1, ?_, l2, ?_, by norm_num⟩
  · norm_num [interpolate_cross_section, l1, rd]
  · norm_num [interpolate_cross_section, l2, rd]

theorem lowerBoundLoop_spec (v : List K) (val : K)
    (hmono : ∀ i j, i ≤ j → j < v.length → rd v i ≤ rd v j) (fuel : Nat) :
    ∀ first len, len ≤ fuel → first + len ≤ v.length →
      (∀ i, i < first → rd v i < val) →
      (∀ i, first + len ≤ i → i < v.length → ¬ rd v i < val) →
      first ≤ lowerBoundLoop v val fuel first len ∧
      lowerBoundLoop v val fuel first len ≤ first + len ∧
      (∀ i, i < lowerBoundLoop v val fuel first len → rd v i < val) ∧
      (∀ i, lowerBoundLoop v val fuel first len ≤ i → i < v.length → ¬ rd v i < val) := by
  induction fuel with
  | zero =>
    intro first len hlen hb hlo hhi
    have : len = 0 := by omega
    subst this
    exact ⟨le_refl _, le_refl _, hlo, hhi⟩
  | succ fuel ih =>
    intro first len hlen hb hlo hhi
    rw [lowerBoundLoop]
    by_cases h0 : len = 0
    · rw [if_pos h0]
      subst h0
      exact ⟨le_refl _, le_refl _, hlo, hhi⟩
    · rw [if_neg h0]
      have hhalf : len / 2 < len := Nat.div_lt_self (Nat.pos_of_ne_zero h0) (by decide)
      by_cases hlt : rd v (first + len / 2) < val
      · rw [if_pos hlt]
        obtain ⟨a, b, c, d⟩ := ih (first + len / 2 + 1) (len - len / 2 - 1) (by omega) (by omega)
          (fun i hi => lt_of_le_of_lt (hmono i (first + len / 2) (by omega) (by omega)) hlt)
          (fun i hi hl => hhi i (by omega) hl)
        exact ⟨by omega, by omega, c, d⟩
      · rw [if_neg hlt]
        obtain ⟨a, b, c, d⟩ := ih first (len / 2) (by omega) (by omega) hlo
          (fun i hi hl hc => hlt (lt_of_le_of_lt (hmono (first + len / 2) i hi hl) hc))
        exact ⟨a, by omega, c, d⟩

theorem lower_bound_spec (v : List K) (val : K)
    (hmono : ∀ i j, i ≤ j → j < v.length → rd v i ≤ rd v j) :
    lower_bound v val ≤ v.length ∧
    (∀ i, i < lower_bound v val → rd v i < val) ∧
    (∀ i, lower_bound v val ≤ i → i < v.length → ¬ rd v i < val) := by
  obtain ⟨-, b, c, d⟩ := lowerBoundLoop_spec v val hmono v.length 0 v.length (le_refl _)
    (by omega) (fun i hi => absurd hi (Nat.not_lt_zero i)) (fun i hi hl => absurd hl (by omega))
  exact ⟨by simpa [lower_bound] using b, c, d⟩
theorem interpolate_cross_section_interior (cs : CollisionReaction K) (energy : K)
    (hinc : ∀ i j, i < j → j < cs.energy.length → rd cs.energy i < rd cs.energy j)
    (hlo : rd cs.energy 0 < energy) (hhi : energy < rd cs.energy (cs.energy.length - 1)) :
    1 ≤ lower_bound cs.energy energy ∧
    lower_bound cs.energy energy ≤ cs.energy.length - 1 ∧
    rd cs.energy (lower_bound cs.energy energy - 1) < energy ∧
    energy ≤ rd cs.energy (lower_bound cs.energy energy) ∧
    interpolate_cross_section cs energy
      = rd cs.cross_section (lower_bound cs.energy energy)
        + (energy - rd cs.energy (lower_bound cs.energy energy - 1))
          * (rd cs.cross_section (lower_bound cs.energy energy - 1)
              - rd cs.cross_section (lower_bound cs.energy energy))
          / (rd cs.energy (lower_bound cs.energy energy)
              - rd cs.energy (lower_bound cs.energy energy - 1)) := by
  have hmono : ∀ i j, i ≤ j → j < cs.energy.length → rd cs.energy i ≤ rd cs.energy j := by
    intro i j hij hj
    rcases Nat.eq_or_lt_of_le hij with h | h
    · rw [h]
    · exact le_of_lt (hinc i j h hj)
  have hlen : 0 < cs.energy.length := by
    rcases Nat.eq_zero_or_pos cs.energy.length with h | h
    · have e1 : rd cs.energy 0 = 0 := by
        simp [rd, List.length_eq_zero.mp h]
      have e2 : rd cs.energy (cs.energy.length - 1) = 0 := by
        simp [rd, List.length_eq_zero.mp h]
      rw [e1] at hlo
      rw [e2] at hhi
      exact absurd hlo (not_lt.mpr (le_of_lt hhi))
    · exact h
  obtain ⟨a, b, c⟩ := lower_bound_spec cs.energy energy hmono
  have h1 : 1 ≤ lower_bound cs.energy energy := by
    by_contra hcon
    exact c 0 (by omega) hlen hlo
  have h2 : lower_bound cs.energy energy ≤ cs.energy.length - 1 := by
    by_contra hcon
    exact absurd (b (cs.energy.length - 1) (by omega)) (not_lt.mpr (le_of_lt hhi))
  refine ⟨h1, h2, b _ (by omega), not_lt.mp (c _ (le_refl _) (by omega)), ?_⟩
  simp only [interpolate_cross_section]
  rw [if_neg (not_le.mpr hlo), if_neg (not_le.mpr hhi)]

theorem drawUnused_spec (n : Nat) (used : List Nat) (fuel : Nat) (g : Rng K) (num : Nat)
    (g' : Rng K) (h : drawUnused n used fuel g = some (num, g')) :
    num < n + 1 ∧ num ∉ used := by
  induction fuel generalizing g with
  | zero => simp [drawUnused] at h
  | succ f ih =>
    rw [drawUnused] at h
    split_ifs at h with hm
    · exact ih _ h
    · simp only [Option.some.injEq, Prod.mk.injEq] at h
      obtain ⟨h1, -⟩ := h
      subst h1
      exact ⟨Nat.mod_lt _ (Nat.succ_pos n), hm⟩

theorem sampleLoop_spec (n fuel k : Nat) :
    ∀ (i : Nat) (sequence used : List Nat) (g : Rng K) (r : List Nat × List Nat × Rng K),
      sampleLoop n fuel k i (sequence, used, g) = some r → i + k ≤ sequence.length →
      r.1.length = sequence.length ∧
      (∀ j, j < i → r.1.getD j 0 = sequence.getD j 0) ∧
      (∀ j, i ≤ j → j < i + k → r.1.getD j 0 < n + 1 ∧ r.1.getD j 0 ∉ used) ∧
      (∀ j1 j2, i ≤ j1 → j1 < j2 → j2 < i + k → r.1.getD j1 0 ≠ r.1.getD j2 0) := by
  induction k with
  | zero =>
    intro i sequence used g r h hlen
    simp only [sampleLoop, Option.some.injEq] at h
    subst h
    exact ⟨rfl, fun _ _ => rfl, fun j h1 h2 => absurd h2 (by omega),
      fun j1 j2 h1 h2 h3 => absurd h3 (by omega)⟩
  | succ k ih =>
    intro i sequence used g r h hlen
    rw [sampleLoop] at h
    split at h
    · exact absurd h (by simp)
    · rename_i num g' hd
      obtain ⟨d1, d2⟩ := drawUnused_spec n used fuel g num g' hd
      obtain ⟨a, b, c, d⟩ := ih (i + 1) (sequence.set i num) (num :: used) g' r h
        (by rw [List.length_set]; omega)
      rw [List.length_set] at a
      have hi : r.1.getD i 0 = num := by
        rw [b i (by omega)]
        exact getD_set_eq _ _ _ _ (by omega)
      refine ⟨a, ?_, ?_, ?_⟩
      · intro j hj
        rw [b j (by omega)]
        exact getD_set_ne _ _ _ _ _ (by omega)
      · intro j h1 h2
        rcases Nat.eq_or_lt_of_le h1 with e | e
        · subst e
          rw [hi]
          exact ⟨d1, d2⟩
        · obtain ⟨c1, c2⟩ := c j (by omega) (by omega)
          exact ⟨c1, fun hc => c2 (List.mem_cons_of_mem _ hc)⟩
      · intro j1 j2 h1 h2 h3
        rcases Nat.eq_or_lt_of_le h1 with e | e
        · subst e
          rw [hi]
          intro hc
          exact (c j2 (by omega) (by omega)).2 (by rw [← hc]; exact List.mem_cons_self _ _)
        · exact d j1 j2 (by omega) h2 (by omega)

theorem sample_from_sequence_spec (fuel n range : Nat) (sequence used : List Nat) (g : Rng K)
    (r : List Nat × List Nat × Rng K)
    (h : sample_from_sequence fuel n range sequence used g = some r) :
    r.1.length = n ∧
    (∀ j, j < n → r.1.getD j 0 < n + 1) ∧
    (∀ j1 j2, j1 < j2 → j2 < n → r.1.getD j1 0 ≠ r.1.getD j2 0) := by
  have hl : (sequence.take n ++ List.replicate (n - sequence.length) 0).length = n := by
    simp
    omega
  obtain ⟨a, -, c, d⟩ := sampleLoop_spec n fuel n 0 _ [] g r h (by rw [hl]; omega)
  rw [hl] at a
  exact ⟨a, fun j hj => (c j (by omega) (by omega)).1,
    fun j1 j2 h1 h2 => d j1 j2 (by omega) h1 (by omega)⟩

/-- C3 (the code departs from the claim): with one electron (`N = 1`), `p_null = 1/2`
and a first uniform draw `1/4`, `collide_electrons` computes `n_null = 1 ≤ N`, and
`sample_from_sequence(1, 1, ...)` on a generator whose first 64-bit value is `1`
terminates and returns the sequence `[1]`, whose entry is not `< N`. -/
theorem sample_from_sequence_out_of_range :
    (exampleElectrons : ChargedSpecies ℚ (Vec1 ℚ) (Vec3 ℚ)).n = 1 ∧
    MonteCarloCollisions.n_null (exampleMcc : MonteCarloCollisions ℚ) exampleElectrons
      (⟨fun _ => 1 / 4, fun _ => 1⟩ : Rng ℚ) = 1 ∧
    Option.map Prod.fst
      (sample_from_sequence 1 1 1 [] [] (⟨fun _ => 1 / 4, fun _ => 1⟩ : Rng ℚ).uniform.2)
      = some [1] ∧
    ¬ (1 < (exampleElectrons : ChargedSpecies ℚ (Vec1 ℚ) (Vec3 ℚ)).n) := by
  refine ⟨rfl, ?_, rfl, by decide⟩
  have hfl : Int.floor ((1 : ℚ) / 2) = 0 := by
    rw [Int.floor_eq_iff]
    norm_num
  simp only [MonteCarloCollisions.n_null, Rng.uniform, exampleMcc, exampleElectrons]
  norm_num [hfl]

/-- C6 (the code departs from the claim): with `N = 3` particles and `n_null = 1` the
numbers drawn are `uniform_u64() % 2`, so for every generator and every bound on the
draws `sample_from_sequence(1, 3, ...)` either does not finish or returns `[0]` or
`[1]`: particle `j = 2` is never chosen. -/
theorem sample_from_sequence_misses_particle (fuel : Nat) (g : Rng K) :
    sample_from_sequence fuel 1 3 [] [] g = none ∨
    ∃ r, sample_from_sequence fuel 1 3 [] [] g = some r ∧ (r.1 = [0] ∨ r.1 = [1]) ∧ 2 ∉ r.1 := by
  cases fuel with
  | zero => left; rfl
  | succ f =>
    right
    refine ⟨([g.uniform_u64.1 % 2], [g.uniform_u64.1 % 2], g.uniform_u64.2), ?_, ?_⟩
    · simp [sample_from_sequence, sampleLoop, drawUnused]
    · have h : g.uniform_u64.1 % 2 = 0 ∨ g.uniform_u64.1 % 2 = 1 := by omega
      rcases h with h | h <;> simp [h]

/-! ### particle/pusher.cpp -/

theorem move_loop_inv (force : List (Vec1 K)) (k dt : K)
    (s0 : ChargedSpecies K (Vec1 K) (Vec3 K)) (c : Nat) :
    (forLoop (moveBody force k dt) c s0).n = s0.n ∧
    (forLoop (moveBody force k dt) c s0).q = s0.q ∧
    (forLoop (moveBody force k dt) c s0).m = s0.m ∧
    (forLoop (moveBody force k dt) c s0).x.length = s0.x.length ∧
    (forLoop (moveBody force k dt) c s0).v.length = s0.v.length ∧
    (∀ i, i < c → i < s0.x.length → i < s0.v.length →
      rd3 (forLoop (moveBody force k dt) c s0).v i
        = { rd3 s0.v i with x := (rd3 s0.v i).x + (rd1 force i).x * k } ∧
      rd1 (forLoop (moveBody force k dt) c s0).x i
        = ⟨(rd1 s0.x i).x + ((rd3 s0.v i).x + (rd1 force i).x * k) * dt⟩) ∧
    (∀ i, c ≤ i →
      rd3 (forLoop (moveBody force k dt) c s0).v i = rd3 s0.v i ∧
      rd1 (forLoop (moveBody force k dt) c s0).x i = rd1 s0.x i) := by
  induction c with
  | zero => exact ⟨rfl, rfl, rfl, rfl, rfl, fun i h => absurd h (Nat.not_lt_zero i),
      fun i _ => ⟨rfl, rfl⟩⟩
  | succ c ih =>
    obtain ⟨h1, h2, h3, h4, h5, h6, h7⟩ := ih
    simp only [forLoop, moveBody]
    refine ⟨h1, h2, h3, by rw [List.length_set, h4], by rw [List.length_set, h5], ?_, ?_⟩
    · intro i hi hx hv
      rcases Nat.lt_or_ge i c with hlt | hge
      · simp only [rd3, rd1]
        rw [getD_set_ne _ _ _ _ _ (by omega), getD_set_ne _ _ _ _ _ (by omega)]
        exact h6 i hlt hx hv
      · have : i = c := by omega
        subst this
        simp only [rd3, rd1]
        rw [getD_set_eq _ _ _ _ (by rw [h5]; exact hv), getD_set_eq _ _ _ _ (by rw [h4]; exact hx)]
        have a := (h7 i (le_refl i)).1
        have b := (h7 i (le_refl i)).2
        simp only [rd3, rd1] at a b
        rw [a, b]
        exact ⟨rfl, rfl⟩
    · intro i hi
      simp only [rd3, rd1]
      rw [getD_set_ne _ _ _ _ _ (by omega), getD_set_ne _ _ _ _ _ (by omega)]
      exact h7 i (by omega)

theorem move_particles_iterate_inv (species : ChargedSpecies K (Vec1 K) (Vec3 K))
    (force : List (Vec1 K)) (dt : K) (k i : Nat) (hi : i < species.n)
    (hx : species.n ≤ species.x.length) (hv : species.n ≤ species.v.length) :
    (Nat.iterate (fun s => move_particles s force dt) k species).n = species.n ∧
    (Nat.iterate (fun s => move_particles s force dt) k species).q = species.q ∧
    (Nat.iterate (fun s => move_particles s force dt) k species).m = species.m ∧
    (Nat.iterate (fun s => move_particles s force dt) k species).x.length = species.x.length ∧
    (Nat.iterate (fun s => move_particles s force dt) k species).v.length = species.v.length ∧
    (rd3 (Nat.iterate (fun s => move_particles s force dt) k species).v i).x
      = (rd3 species.v i).x + k * (species.q / species.m) * (rd1 force i).x * dt ∧
    (rd1 (Nat.iterate (fun s => move_particles s force dt) k species).x i).x
      = (rd1 species.x i).x + k * (rd3 species.v i).x * dt
        + (species.q / species.m) * (rd1 force i).x * dt ^ 2 * k * (k + 1) / 2 ∧
    (rd3 (Nat.iterate (fun s => move_particles s force dt) k species).v i).y
      = (rd3 species.v i).y ∧
    (rd3 (Nat.iterate (fun s => move_particles s force dt) k species).v i).z
      = (rd3 species.v i).z := by
  induction k with
  | zero => simp
  | succ k ih =>
    obtain ⟨h1, h2, h3, h4, h5, h6, h7, h8, h9⟩ := ih
    rw [Function.iterate_succ_apply']
    obtain ⟨m1, m2, m3, m4, m5, m6, -⟩ := move_loop_inv force
      ((Nat.iterate (fun s => move_particles s force dt) k species).q * dt
        / (Nat.iterate (fun s => move_particles s force dt) k species).m) dt
      (Nat.iterate (fun s => move_particles s force dt) k species)
      (Nat.iterate (fun s => move_particles s force dt) k species).n
    obtain ⟨m6v, m6x⟩ := m6 i (by rw [h1]; exact hi) (by rw [h4]; omega) (by rw [h5]; omega)
    have e : move_particles (Nat.iterate (fun s => move_particles s force dt) k species) force dt
        = forLoop (moveBody force
            ((Nat.iterate (fun s => move_particles s force dt) k species).q * dt
              / (Nat.iterate (fun s => move_particles s force dt) k species).m) dt)
            (Nat.iterate (fun s => move_particles s force dt) k species).n
            (Nat.iterate (fun s => move_particles s force dt) k species) := rfl
    rw [e]
    refine ⟨m1.trans h1, m2.trans h2, m3.trans h3, m4.trans h4, m5.trans h5, ?_, ?_, ?_, ?_⟩
    · rw [m6v]
      simp only
      rw [h6, h2, h3]
      push_cast
      ring
    · rw [m6x]
      simp only
      rw [h6, h7, h2, h3]
      push_cast
      ring
    · rw [m6v]
      exact h8
    · rw [m6v]
      exact h9

/-- C9: after `k` calls of `move_particles` (1D-3V) with the same force array and `dt`,
every particle `i < n` has `v.x = v0.x + k*(q/m)*E_i*dt` and
`x = x0 + k*v0.x*dt + (q/m)*E_i*dt^2*k*(k+1)/2`, while `v.y`, `v.z` and the particle
count `n` are unchanged. -/
theorem move_particles_closed_form (species : ChargedSpecies K (Vec1 K) (Vec3 K))
    (force : List (Vec1 K)) (dt : K) (k i : Nat) (hi : i < species.n)
    (hx : species.n ≤ species.x.length) (hv : species.n ≤ species.v.length)
    (hm : species.m ≠ 0) :
    (Nat.iterate (fun s => move_particles s force dt) k species).n = species.n ∧
    (rd3 (Nat.iterate (fun s => move_particles s force dt) k species).v i).x
      = (rd3 species.v i).x + k * (species.q / species.m) * (rd1 force i).x * dt ∧
    (rd1 (Nat.iterate (fun s => move_particles s force dt) k species).x i).x
      = (rd1 species.x i).x + k * (rd3 species.v i).x * dt
        + (species.q / species.m) * (rd1 force i).x * dt ^ 2 * k * (k + 1) / 2 ∧
    (rd3 (Nat.iterate (fun s => move_particles s force dt) k species).v i).y
      = (rd3 species.v i).y ∧
    (rd3 (Nat.iterate (fun s => move_particles s force dt) k species).v i).z
      = (rd3 species.v i).z := by
  obtain ⟨h1, -, -, -, -, h6, h7, h8, h9⟩ :=
    move_particles_iterate_inv species force dt k i hi hx hv
  exact ⟨h1, h6, h7, h8, h9⟩

/-- C9 witness: scenario E3 (`x = 0`, `v = (1, 2, 3)`, `E = 0`, `dt = 0.1`, 10 steps)
meets the hypotheses and ends at `x = 1`, `v = (1, 2, 3)`. -/
theorem move_particles_closed_form_witness :
    (0 < scenarioE3.n ∧ scenarioE3.n ≤ scenarioE3.x.length ∧
      scenarioE3.n ≤ scenarioE3.v.length ∧ scenarioE3.m ≠ 0) ∧
    (Nat.iterate (fun s => move_particles s [⟨0⟩] (1 / 10)) 10 scenarioE3).n = 1 ∧
    (rd3 (Nat.iterate (fun s => move_particles s [⟨0⟩] (1 / 10)) 10 scenarioE3).v 0).x = 1 ∧
    (rd1 (Nat.iterate (fun s => move_particles s [⟨0⟩] (1 / 10)) 10 scenarioE3).x 0).x = 1 ∧
    (rd3 (Nat.iterate (fun s => move_particles s [⟨0⟩] (1 / 10)) 10 scenarioE3).v 0).y = 2 ∧
    (rd3 (Nat.iterate (fun s => move_particles s [⟨0⟩] (1 / 10)) 10 scenarioE3).v 0).z = 3 := by
  have hyp : 0 < scenarioE3.n ∧ scenarioE3.n ≤ scenarioE3.x.length ∧
      scenarioE3.n ≤ scenarioE3.v.length ∧ scenarioE3.m ≠ 0 := by
    refine ⟨by decide, by decide, by decide, ?_⟩
    norm_num [scenarioE3]
  have h := move_particles_closed_form scenarioE3 [⟨0⟩] (1 / 10) 10 0 hyp.1 hyp.2.1 hyp.2.2.1
    hyp.2.2.2
  obtain ⟨h1, h2, h3, h4, h5⟩ := h
  refine ⟨hyp, ?_, ?_, ?_, ?_, ?_⟩
  · rw [h1]
    rfl
  · rw [h2]
    norm_num [scenarioE3, rd3, rd1]
  · rw [h3]
    norm_num [scenarioE3, rd3, rd1]
  · rw [h4]
    norm_num [scenarioE3, rd3]
  · rw [h5]
    norm_num [scenarioE3, rd3]

theorem cylindrical_loop_inv (force : List (Vec2 K)) (k dt : K)
    (s0 : ChargedSpecies K (Vec2 K) (Vec3 K)) (c : Nat) :
    (forLoop (cylindricalLoopBody force k dt) c s0).n = s0.n ∧
    (forLoop (cylindricalLoopBody force k dt) c s0).q = s0.q ∧
    (forLoop (cylindricalLoopBody force k dt) c s0).m = s0.m ∧
    (forLoop (cylindricalLoopBody force k dt) c s0).x.length = s0.x.length ∧
    (forLoop (cylindricalLoopBody force k dt) c s0).v.length = s0.v.length ∧
    (∀ i, i < c → i < s0.x.length → i < s0.v.length →
      rd2 (forLoop (cylindricalLoopBody force k dt) c s0).x i
        = (cylindricalBody k dt (rd2 force i) (rd2 s0.x i) (rd3 s0.v i)).1 ∧
      rd3 (forLoop (cylindricalLoopBody force k dt) c s0).v i
        = (cylindricalBody k dt (rd2 force i) (rd2 s0.x i) (rd3 s0.v i)).2) ∧
    (∀ i, c ≤ i →
      rd2 (forLoop (cylindricalLoopBody force k dt) c s0).x i = rd2 s0.x i ∧
      rd3 (forLoop (cylindricalLoopBody force k dt) c s0).v i = rd3 s0.v i) := by
  induction c with
  | zero => exact ⟨rfl, rfl, rfl, rfl, rfl, fun i h => absurd h (Nat.not_lt_zero i),
      fun i _ => ⟨rfl, rfl⟩⟩
  | succ c ih =>
    obtain ⟨h1, h2, h3, h4, h5, h6, h7⟩ := ih
    simp only [forLoop, cylindricalLoopBody]
    refine ⟨h1, h2, h3, by rw [List.length_set, h4], by rw [List.length_set, h5], ?_, ?_⟩
    · intro i hi hx hv
      rcases Nat.lt_or_ge i c with hlt | hge
      · simp only [rd3, rd2]
        rw [getD_set_ne _ _ _ _ _ (by omega), getD_set_ne _ _ _ _ _ (by omega)]
        exact h6 i hlt hx hv
      · have : i = c := by omega
        subst this
        have a := (h7 i (le_refl i)).1
        have b := (h7 i (le_refl i)).2
        rw [a, b]
        simp only [rd3, rd2]
        rw [getD_set_eq _ _ _ _ (by rw [h4]; exact hx), getD_set_eq _ _ _ _ (by rw [h5]; exact hv)]
        exact ⟨rfl, rfl⟩
    · intro i hi
      simp only [rd3, rd2]
      rw [getD_set_ne _ _ _ _ _ (by omega), getD_set_ne _ _ _ _ _ (by omega)]
      exact h7 i (by omega)

theorem cylindricalBody_near_axis (k dt : K) (x : Vec2 K) (v : Vec3 K)
    (hr : |x.y| < 1e-15) :
    cylindricalBody k dt ⟨0, 0⟩ x v = (⟨x.x + v.x * dt, max x.y 0⟩, ⟨v.x, 0, 0⟩) := by
  have h1 : ¬ x.y > 1e-15 := not_lt.mpr (le_of_lt (lt_of_le_of_lt (le_abs_self _) hr))
  simp only [cylindricalBody, if_neg h1, if_pos hr, mul_zero, zero_mul, add_zero]
  by_cases h2 : x.y < 0
  · rw [if_pos h2, max_eq_right (le_of_lt h2)]
  · rw [if_neg h2, max_eq_left (not_lt.mp h2)]

/-- C10 (as amended): a particle within the axis tolerance (`|r| < 1e-15`) in zero field
leaves one call of `move_particles_cylindrical` with velocity `(vz, 0, 0)`, axial
position `z + vz*dt` and radial position `max r 0`: a radius `0 ≤ r < 1e-15` is kept
as it is, a negative one is put on the axis. -/
theorem cylindrical_near_axis (species : ChargedSpecies K (Vec2 K) (Vec3 K))
    (force : List (Vec2 K)) (dt : K) (i : Nat) (hi : i < species.n)
    (hx : species.n ≤ species.x.length) (hv : species.n ≤ species.v.length)
    (hr : |(rd2 species.x i).y| < 1e-15) (hF : rd2 force i = ⟨0, 0⟩) :
    rd3 (move_particles_cylindrical species force dt).v i = ⟨(rd3 species.v i).x, 0, 0⟩ ∧
    rd2 (move_particles_cylindrical species force dt).x i
      = ⟨(rd2 species.x i).x + (rd3 species.v i).x * dt, max (rd2 species.x i).y 0⟩ := by
  obtain ⟨-, -, -, -, -, h6, -⟩ := cylindrical_loop_inv force (species.q / species.m) dt
    species species.n
  obtain ⟨a, b⟩ := h6 i hi (by omega) (by omega)
  rw [hF, cylindricalBody_near_axis _ _ _ _ hr] at a b
  exact ⟨b, a⟩

/-- C10 witness: scenario E4 (`x = (0, 1e-16)`, `v = (0, 1, 1)`, `E = 0`, `dt = 1`) meets the
hypotheses; it ends with `v = (0, 0, 0)` and `x = (0, 1e-16)`. -/
theorem cylindrical_near_axis_witness :
    (0 < scenarioE4.n ∧ scenarioE4.n ≤ scenarioE4.x.length ∧
      scenarioE4.n ≤ scenarioE4.v.length ∧ |(rd2 scenarioE4.x 0).y| < 1e-15 ∧
      rd2 [(⟨0, 0⟩ : Vec2 ℚ)] 0 = ⟨0, 0⟩) ∧
    rd3 (move_particles_cylindrical scenarioE4 [⟨0, 0⟩] 1).v 0 = ⟨0, 0, 0⟩ ∧
    rd2 (move_particles_cylindrical scenarioE4 [⟨0, 0⟩] 1).x 0 = ⟨0, 1e-16⟩ := by
  have hyp : 0 < scenarioE4.n ∧ scenarioE4.n ≤ scenarioE4.x.length ∧
      scenarioE4.n ≤ scenarioE4.v.length ∧ |(rd2 scenarioE4.x 0).y| < 1e-15 ∧
      rd2 [(⟨0, 0⟩ : Vec2 ℚ)] 0 = ⟨0, 0⟩ := by
    refine ⟨by decide, by decide, by decide, ?_, rfl⟩
    norm_num [scenarioE4, rd2, abs_lt]
  have h := cylindrical_near_axis scenarioE4 [⟨0, 0⟩] 1 0 hyp.1 hyp.2.1 hyp.2.2.1 hyp.2.2.2.1
    hyp.2.2.2.2
  obtain ⟨h1, h2⟩ := h
  refine ⟨hyp, ?_, ?_⟩
  · rw [h1]
    norm_num [scenarioE4, rd3]
  · rw [h2]
    norm_num [scenarioE4, rd2, rd3]

/-- C10 counterexample: in scenario E4 the particle has `|r| = 1e-16 < 1e-15` and zero
field, yet after one call of `move_particles_cylindrical` its radial position is
still `1e-16`, not `0` (its velocity is `(0, 0, 0)`). -/
theorem cylindrical_tolerance_radius_kept :
    |(rd2 scenarioE4.x 0).y| < 1e-15 ∧
    (rd2 (move_particles_cylindrical scenarioE4 [⟨0, 0⟩] 1).x 0).y = 1e-16 ∧
    (rd2 (move_particles_cylindrical scenarioE4 [⟨0, 0⟩] 1).x 0).y ≠ 0 ∧
    (rd3 (move_particles_cylindrical scenarioE4 [⟨0, 0⟩] 1).v 0).x = 0 ∧
    (rd3 (move_particles_cylindrical scenarioE4 [⟨0, 0⟩] 1).v 0).y = 0 ∧
    (rd3 (move_particles_cylindrical scenarioE4 [⟨0, 0⟩] 1).v 0).z = 0 := by
  have e : move_particles_cylindrical scenarioE4 [⟨0, 0⟩] 1
      = ⟨[⟨0, 1e-16⟩], [⟨0, 0, 0⟩], [⟨0, 0⟩], 1, 1, 1⟩ := by
    norm_num [move_particles_cylindrical, scenarioE4, forLoop, cylindricalLoopBody,
      cylindricalBody, rd2, rd3, abs_lt]
  rw [e]
  norm_num [scenarioE4, rd2, rd3, abs_lt]

/-! ### collisions/mcc.cpp : elastic collision -/

theorem scatter_norm (x y z s c t a b : K) (hu : x * x + y * y + z * z = 1)
    (hs : s * s = 1 - z * z) (hs0 : s ≠ 0) (hct : c * c + t * t = 1) (hab : a * a + b * b = 1) :
    (x * c + y * t * a / s + x * z * t * b / s) * (x * c + y * t * a / s + x * z * t * b / s)
    + (y * c - x * t * a / s + y * z * t * b / s) * (y * c - x * t * a / s + y * z * t * b / s)
    + (z * c - (x * x + y * y) * t * b / s) * (z * c - (x * x + y * y) * t * b / s) = 1 := by
  field_simp
  linear_combination (s ^ 2 * c ^ 2 + t ^ 2 * (x ^ 2 + y ^ 2) * b ^ 2 + t ^ 2) * hu - t ^ 2 * hs
    + t ^ 2 * (x ^ 2 + y ^ 2) * hab + s ^ 2 * hct

theorem scatter_dot (x y z s c t a b : K) (hu : x * x + y * y + z * z = 1) (hs0 : s ≠ 0) :
    (x * c + y * t * a / s + x * z * t * b / s) * x
    + (y * c - x * t * a / s + y * z * t * b / s) * y
    + (z * c - (x * x + y * y) * t * b / s) * z = c := by
  field_simp
  linear_combination (s * c) * hu

theorem normalized_norm2 (L : MathFns K) (hsqrt : ∀ x, 0 ≤ x → L.sqrt x * L.sqrt x = x)
    (v : Vec3 K) (hv : 0 < v.norm2) : (v.normalized L).norm2 = 1 := by
  have h := hsqrt v.norm2 (le_of_lt hv)
  simp only [Vec3.normalized]
  rw [Vec3.norm2]
  simp only
  rw [div_mul_div_comm, div_mul_div_comm, div_mul_div_comm, h, ← add_div, ← add_div]
  exact div_self (ne_of_gt hv)

theorem isotropic_scatter_unit (L : MathFns K)
    (hsqrt : ∀ x, 0 ≤ x → L.sqrt x * L.sqrt x = x)
    (htrig : ∀ x, L.cos x * L.cos x + L.sin x * L.sin x = 1)
    (hacos : ∀ z, -1 ≤ z → z ≤ 1 → L.sin (L.acos z) * L.sin (L.acos z) = 1 - z * z)
    (p : ChargedSpecies K (Vec1 K) (Vec3 K)) (idx : Nat) (chi : K) (g : Rng K)
    (hv : 0 < (rd3 p.v idx).norm2)
    (hz : ((rd3 p.v idx).normalized L).z * ((rd3 p.v idx).normalized L).z ≠ 1) :
    (isotropic_scatter L p idx chi g).1.norm2 = 1 ∧
    (isotropic_scatter L p idx chi g).1.x * ((rd3 p.v idx).normalized L).x
      + (isotropic_scatter L p idx chi g).1.y * ((rd3 p.v idx).normalized L).y
      + (isotropic_scatter L p idx chi g).1.z * ((rd3 p.v idx).normalized L).z = L.cos chi := by
  have hu := normalized_norm2 L hsqrt (rd3 p.v idx) hv
  simp only [Vec3.norm2] at hu
  have hzz : ((rd3 p.v idx).normalized L).z * ((rd3 p.v idx).normalized L).z ≤ 1 := by
    nlinarith [mul_self_nonneg ((rd3 p.v idx).normalized L).x,
      mul_self_nonneg ((rd3 p.v idx).normalized L).y]
  have hb := abs_le.mp (abs_le_one_iff_mul_self_le_one.mpr hzz)
  have hs := hacos ((rd3 p.v idx).normalized L).z hb.1 hb.2
  have hs0 : L.sin (L.acos ((rd3 p.v idx).normalized L).z) ≠ 0 := by
    intro hc
    rw [hc, mul_zero] at hs
    exact hz (by linarith)
  simp only [isotropic_scatter, Vec3.norm2]
  exact ⟨scatter_norm _ _ _ _ _ _ _ _ hu hs hs0 (htrig chi) (by rw [add_comm]; exact htrig _),
    scatter_dot _ _ _ _ _ _ _ _ hu hs0⟩

theorem electron_elastic_coll_norm2 (L : MathFns K)
    (hsqrt : ∀ x, 0 ≤ x → L.sqrt x * L.sqrt x = x)
    (htrig : ∀ x, L.cos x * L.cos x + L.sin x * L.sin x = 1)
    (hacos : ∀ z, -1 ≤ z → z ≤ 1 → L.sin (L.acos z) * L.sin (L.acos z) = 1 - z * z)
    (electrons : ChargedSpecies K (Vec1 K) (Vec3 K)) (idx : Nat) (ion_mass : K) (g : Rng K)
    (hidx : idx < electrons.v.length) (hm : electrons.m ≠ 0)
    (hv : 0 < (rd3 electrons.v idx).norm2)
    (hz : ((rd3 electrons.v idx).normalized L).z * ((rd3 electrons.v idx).normalized L).z ≠ 1)
    (hpos : 0 ≤ 2 * constants.e * (kinetic_energy_ev electrons idx
      * (1 - (2 * electrons.m / ion_mass) * (1 - L.cos (L.acos (1 - 2 * g.uniform.1)))))
      / electrons.m) :
    (rd3 (MonteCarloCollisions.electron_elastic_coll L electrons idx
        (kinetic_energy_ev electrons idx) ion_mass g).1.v idx).norm2
      = constants.e * (rd3 electrons.v idx).norm2
        * (1 - (2 * electrons.m / ion_mass) * (1 - L.cos (L.acos (1 - 2 * g.uniform.1)))) := by
  obtain ⟨hun, -⟩ := isotropic_scatter_unit L hsqrt htrig hacos electrons idx
    (L.acos (1 - 2 * g.uniform.1)) g.uniform.2 hv hz
  have hq := hsqrt _ hpos
  simp only [MonteCarloCollisions.electron_elastic_coll, rd3]
  rw [getD_set_eq _ _ _ _ hidx]
  simp only [Vec3.norm2] at hun ⊢
  have e1 : ∀ a b c w : K, a * w * (a * w) + b * w * (b * w) + c * w * (c * w)
      = (a * a + b * b + c * c) * (w * w) := fun a b c w => by ring
  rw [e1, hun, hq, one_mul]
  simp only [kinetic_energy_ev, rd3]
  field_simp
  ring

theorem real_mathfns_spec :
    (∀ x : ℝ, 0 ≤ x →
      (⟨Real.sqrt, Real.cos, Real.sin, Real.arccos⟩ : MathFns ℝ).sqrt x
        * (⟨Real.sqrt, Real.cos, Real.sin, Real.arccos⟩ : MathFns ℝ).sqrt x = x) ∧
    (∀ x : ℝ,
      (⟨Real.sqrt, Real.cos, Real.sin, Real.arccos⟩ : MathFns ℝ).cos x
        * (⟨Real.sqrt, Real.cos, Real.sin, Real.arccos⟩ : MathFns ℝ).cos x
      + (⟨Real.sqrt, Real.cos, Real.sin, Real.arccos⟩ : MathFns ℝ).sin x
        * (⟨Real.sqrt, Real.cos, Real.sin, Real.arccos⟩ : MathFns ℝ).sin x = 1) ∧
    (∀ z : ℝ, -1 ≤ z → z ≤ 1 →
      (⟨Real.sqrt, Real.cos, Real.sin, Real.arccos⟩ : MathFns ℝ).sin
          ((⟨Real.sqrt, Real.cos, Real.sin, Real.arccos⟩ : MathFns ℝ).acos z)
        * (⟨Real.sqrt, Real.cos, Real.sin, Real.arccos⟩ : MathFns ℝ).sin
          ((⟨Real.sqrt, Real.cos, Real.sin, Real.arccos⟩ : MathFns ℝ).acos z) = 1 - z * z) := by
  refine ⟨fun x hx => Real.mul_self_sqrt hx, fun x => ?_, fun z h1 h2 => ?_⟩
  · have := Real.cos_sq_add_sin_sq x
    simp only [sq] at this
    exact this
  · simp only
    rw [Real.sin_arccos]
    have h : (0 : ℝ) ≤ 1 - z ^ 2 := by nlinarith
    rw [Real.mul_self_sqrt h]
    ring

/-- C4 (the code departs from the claim): `kinetic_energy_ev` returns `m*|v|^2/2` (joule)
and `electron_elastic_coll` multiplies it by `e` again, so the new speed carries a
factor `e`.  For one electron with `v = (1, 0, 0)`, mass `m_e`, ion mass `1` and random
draws `0` (`chi = acos 1 = 0`, `phi = 0`) over the reals, the new velocity has
`|v'|^2 = e = 1.602176634e-19`, while `|v|^2 * (1 - (2*m/M)*(1 - cos chi)) = 1`. -/
theorem electron_elastic_coll_energy_scale :
    (rd3 (MonteCarloCollisions.electron_elastic_coll
        (⟨Real.sqrt, Real.cos, Real.sin, Real.arccos⟩ : MathFns ℝ)
        (⟨[⟨0⟩], [⟨1, 0, 0⟩], [⟨0⟩], -constants.e, constants.m_e, 1⟩ :
          ChargedSpecies ℝ (Vec1 ℝ) (Vec3 ℝ)) 0
        (kinetic_energy_ev (⟨[⟨0⟩], [⟨1, 0, 0⟩], [⟨0⟩], -constants.e, constants.m_e, 1⟩ :
          ChargedSpecies ℝ (Vec1 ℝ) (Vec3 ℝ)) 0) 1
        (⟨fun _ => 0, fun _ => 0⟩ : Rng ℝ)).1.v 0).norm2 = constants.e ∧
    (⟨1, 0, 0⟩ : Vec3 ℝ).norm2
      * (1 - (2 * constants.m_e / 1) * (1 - Real.cos (Real.arccos (1 - 2 * 0)))) = 1 ∧
    (constants.e : ℝ) ≠ 1 := by
  have he : (0 : ℝ) ≤ constants.e := by norm_num [constants.e]
  have hm : (constants.m_e : ℝ) ≠ 0 := by norm_num [constants.m_e]
  refine ⟨?_, ?_, ?_⟩
  · have harg : (2 * constants.e * (2⁻¹ * constants.m_e) / constants.m_e : ℝ) = constants.e := by
      field_simp
      ring
    simp [MonteCarloCollisions.electron_elastic_coll, isotropic_scatter, kinetic_energy_ev,
      Vec3.normalized, Vec3.norm2, rd3, Rng.uniform, harg, Real.mul_self_sqrt he]
  · simp [Vec3.norm2]
  · norm_num [constants.e]

/-! ### collisions/mcc.cpp : collide_electrons -/

theorem example_kinetic_energy :
    kinetic_energy_ev (exampleElectrons : ChargedSpecies ℝ (Vec1 ℝ) (Vec3 ℝ)) 0
      = constants.m_e / (2 * constants.e) := by
  simp only [kinetic_energy_ev, exampleElectrons, rd3, List.getD_cons_zero]
  ring

theorem example_frequency_ratio (cs : CollisionReaction ℝ) :
    MonteCarloCollisions.frequency_ratio
      (⟨Real.sqrt, Real.cos, Real.sin, Real.arccos⟩ : MathFns ℝ) exampleMcc cs
      (constants.m_e / (2 * constants.e)) = 1 / 4 := by
  have hpos : (0 : ℝ) < constants.m_e / (2 * constants.e) := by
    norm_num [constants.m_e, constants.e]
  have harg : (2 * constants.e * (constants.m_e / (2 * constants.e)) / constants.m_e : ℝ) = 1 := by
    norm_num [constants.m_e, constants.e]
  have hcs : interpolate_cross_section (exampleMcc : MonteCarloCollisions ℝ).m_el_cs
      (constants.m_e / (2 * constants.e)) = 1 := by
    simp only [interpolate_cross_section, exampleMcc, rd, List.getD_cons_zero, List.length_cons,
      List.length_nil]
    rw [if_neg (not_le.mpr hpos)]
    have e : (0 + 1 - 1 : Nat) = 0 := rfl
    rw [e, List.getD_cons_zero, List.getD_cons_zero, if_pos (le_of_lt hpos)]
  simp only [MonteCarloCollisions.frequency_ratio, collision_frequency, hcs, harg, Real.sqrt_one]
  norm_num [exampleMcc]

theorem example_n_null :
    MonteCarloCollisions.n_null (exampleMcc : MonteCarloCollisions ℝ) exampleElectrons
      exampleRng = 1 := by
  have hfl : Int.floor ((1 : ℝ) / 2) = 0 := by
    rw [Int.floor_eq_iff]
    norm_num
  simp only [MonteCarloCollisions.n_null, Rng.uniform, exampleMcc, exampleElectrons, exampleRng]
  norm_num [hfl]

theorem example_sample :
    sample_from_sequence 1 1 1 [] [] (exampleRng : Rng ℝ).uniform.2
      = some ([0], [0], (exampleRng : Rng ℝ).uniform.2.uniform_u64.2) := by
  simp [sample_from_sequence, sampleLoop, drawUnused, Rng.uniform_u64, Rng.uniform, exampleRng]

theorem example_collide_body :
    collideBody (⟨Real.sqrt, Real.cos, Real.sin, Real.arccos⟩ : MathFns ℝ) exampleMcc [0] 0
      (exampleElectrons, exampleIons, (exampleRng : Rng ℝ).uniform.2.uniform_u64.2, [])
    = (exampleElectrons, exampleIons, (exampleRng : Rng ℝ).uniform.2.uniform_u64.2.uniform.2,
        [Branch.ionization]) := by
  have hr1 : (exampleRng : Rng ℝ).uniform.2.uniform_u64.2.uniform.1 = 3 / 8 := by
    simp [Rng.uniform, Rng.uniform_u64, exampleRng]
  have hthr : (exampleMcc : MonteCarloCollisions ℝ).m_iz_cs.energy_threshold = 0 := rfl
  have hexc : (exampleMcc : MonteCarloCollisions ℝ).m_exc_cs = [] := rfl
  have hpos : (0 : ℝ) ≤ constants.m_e / (2 * constants.e) := by
    norm_num [constants.m_e, constants.e]
  simp only [collideBody, List.getD_cons_zero, example_kinetic_energy, example_frequency_ratio,
    hr1, hthr, hexc, excitationLoop]
  rw [if_neg (by norm_num), if_pos ⟨by norm_num, by norm_num, hpos⟩]

theorem example_collide_electrons :
    ∃ r, MonteCarloCollisions.collide_electrons
        (⟨Real.sqrt, Real.cos, Real.sin, Real.arccos⟩ : MathFns ℝ) 1 exampleMcc
        exampleElectrons exampleIons exampleRng = some r ∧
      r.branches = [Branch.ionization] ∧ r.electrons = exampleElectrons ∧
      r.ions = exampleIons := by
  have hN : (exampleElectrons : ChargedSpecies ℝ (Vec1 ℝ) (Vec3 ℝ)).n = 1 := rfl
  have hS : (exampleMcc : MonteCarloCollisions ℝ).m_particle_samples = [] := rfl
  have hU : (exampleMcc : MonteCarloCollisions ℝ).m_used_cache = [] := rfl
  simp only [MonteCarloCollisions.collide_electrons, example_n_null, hN, hS, hU, example_sample,
    forLoop, example_collide_body]
  exact ⟨_, rfl, rfl, rfl, rfl⟩

theorem collideBody_frame (L : MathFns K) (mcc : MonteCarloCollisions K) (samples : List Nat)
    (i : Nat)
    (s : ChargedSpecies K (Vec1 K) (Vec3 K) × ChargedSpecies K (Vec1 K) (Vec3 K) × Rng K
      × List Branch) :
    (collideBody L mcc samples i s).1.n = s.1.n ∧
    (collideBody L mcc samples i s).1.x = s.1.x ∧
    (collideBody L mcc samples i s).1.v.length = s.1.v.length ∧
    (collideBody L mcc samples i s).2.1 = s.2.1 := by
  simp only [collideBody]
  split_ifs <;> simp [MonteCarloCollisions.electron_elastic_coll]

theorem collide_loop_frame (L : MathFns K) (mcc : MonteCarloCollisions K) (samples : List Nat)
    (c : Nat)
    (s : ChargedSpecies K (Vec1 K) (Vec3 K) × ChargedSpecies K (Vec1 K) (Vec3 K) × Rng K
      × List Branch) :
    (forLoop (collideBody L mcc samples) c s).1.n = s.1.n ∧
    (forLoop (collideBody L mcc samples) c s).1.x = s.1.x ∧
    (forLoop (collideBody L mcc samples) c s).1.v.length = s.1.v.length ∧
    (forLoop (collideBody L mcc samples) c s).2.1 = s.2.1 := by
  induction c with
  | zero => exact ⟨rfl, rfl, rfl, rfl⟩
  | succ c ih =>
    obtain ⟨h1, h2, h3, h4⟩ := ih
    obtain ⟨b1, b2, b3, b4⟩ := collideBody_frame L mcc samples c
      (forLoop (collideBody L mcc samples) c s)
    exact ⟨b1.trans h1, b2.trans h2, b3.trans h3, b4.trans h4⟩

theorem collideBody_ionization (L : MathFns K) (mcc : MonteCarloCollisions K)
    (samples : List Nat) (i : Nat)
    (s : ChargedSpecies K (Vec1 K) (Vec3 K) × ChargedSpecies K (Vec1 K) (Vec3 K) × Rng K
      × List Branch)
    (h : (collideBody L mcc samples i s).2.2.2 = Branch.ionization :: s.2.2.2) :
    (collideBody L mcc samples i s).1 = s.1 ∧ (collideBody L mcc samples i s).2.1 = s.2.1 := by
  simp only [collideBody] at h ⊢
  split_ifs at h ⊢
  · simp at h
  · exact ⟨rfl, rfl⟩
  · exact ⟨rfl, rfl⟩
  · exact ⟨rfl, rfl⟩

theorem recurrent_uniform (g : Rng K) (n : Nat) (h : g.Recurrent n) :
    g.uniform.2.Recurrent n := h

theorem recurrent_uniform_u64 (g : Rng K) (n : Nat) (h : g.Recurrent n) :
    g.uniform_u64.2.Recurrent n := by
  intro r hr p
  obtain ⟨q, hq, e⟩ := h r hr (p + 1)
  refine ⟨q - 1, by omega, ?_⟩
  have e1 : q - 1 + 1 = q := by omega
  simp only [Rng.uniform_u64, e1]
  exact e

theorem unused_exists (n : Nat) (used : List Nat) (h : used.length ≤ n) :
    ∃ r, r ≤ n ∧ r ∉ used := by
  by_contra hc
  push_neg at hc
  have hsub : Finset.range (n + 1) ⊆ used.toFinset := by
    intro r hr
    rw [List.mem_toFinset]
    exact hc r (by rw [Finset.mem_range] at hr; omega)
  have h1 := Finset.card_le_card hsub
  have h2 := List.toFinset_card_le used
  rw [Finset.card_range] at h1
  omega

theorem drawUnused_mono (n : Nat) (used : List Nat) (fuel : Nat) :
    ∀ (g : Rng K) (x : Nat × Rng K) (fuel2 : Nat), drawUnused n used fuel g = some x →
      fuel ≤ fuel2 → drawUnused n used fuel2 g = some x := by
  induction fuel with
  | zero =>
    intro g x fuel2 h
    simp [drawUnused] at h
  | succ fuel ih =>
    intro g x fuel2 h hle
    obtain ⟨m, rfl⟩ : ∃ m, fuel2 = m + 1 := ⟨fuel2 - 1, by omega⟩
    simp only [drawUnused] at h ⊢
    by_cases hm : g.uniform_u64.1 % (n + 1) ∈ used
    · rw [if_pos hm] at h ⊢
      exact ih _ x m h (by omega)
    · rw [if_neg hm] at h ⊢
      exact h

theorem drawUnused_hit (n : Nat) (used : List Nat) (q : Nat) :
    ∀ (g : Rng K), g.Recurrent n → g.u64 q % (n + 1) ∉ used →
      ∃ x, drawUnused n used (q + 1) g = some x ∧ x.2.Recurrent n := by
  induction q with
  | zero =>
    intro g hg hq
    refine ⟨(g.uniform_u64.1 % (n + 1), g.uniform_u64.2), ?_, recurrent_uniform_u64 g n hg⟩
    have hq2 : g.uniform_u64.1 % (n + 1) ∉ used := hq
    simp only [drawUnused]
    rw [if_neg hq2]
  | succ q ih =>
    intro g hg hq
    by_cases hm : g.uniform_u64.1 % (n + 1) ∈ used
    · obtain ⟨x, hx, hr⟩ := ih g.uniform_u64.2 (recurrent_uniform_u64 g n hg) hq
      refine ⟨x, ?_, hr⟩
      simp only [drawUnused] at hx ⊢
      rw [if_pos hm]
      exact hx
    · refine ⟨(g.uniform_u64.1 % (n + 1), g.uniform_u64.2), ?_, recurrent_uniform_u64 g n hg⟩
      simp only [drawUnused]
      rw [if_neg hm]

theorem drawUnused_terminates (n : Nat) (used : List Nat) (g : Rng K) (hg : g.Recurrent n)
    (hu : used.length ≤ n) :
    ∃ fuel x, drawUnused n used fuel g = some x ∧ x.2.Recurrent n := by
  obtain ⟨r, hr, hnot⟩ := unused_exists n used hu
  obtain ⟨q, -, hq⟩ := hg r hr 0
  obtain ⟨x, hx, hrec⟩ := drawUnused_hit n used q g hg (by rw [hq]; exact hnot)
  exact ⟨q + 1, x, hx, hrec⟩

theorem sampleLoop_terminates (n : Nat) (k : Nat) :
    ∀ (i : Nat) (sequence used : List Nat) (g : Rng K), g.Recurrent n →
      used.length + k ≤ n + 1 →
      ∃ fuel0 s, ∀ fuel, fuel0 ≤ fuel → sampleLoop n fuel k i (sequence, used, g) = some s := by
  induction k with
  | zero =>
    intro i sequence used g hg hu
    exact ⟨0, (sequence, used, g), fun fuel _ => rfl⟩
  | succ k ih =>
    intro i sequence used g hg hu
    obtain ⟨f1, ⟨num, g2⟩, hx, hrec⟩ := drawUnused_terminates n used g hg (by omega)
    obtain ⟨f2, s, hs⟩ := ih (i + 1) (sequence.set i num) (num :: used) g2 hrec
      (by rw [List.length_cons]; omega)
    refine ⟨max f1 f2, s, fun fuel hf => ?_⟩
    have hd : drawUnused n used fuel g = some (num, g2) :=
      drawUnused_mono n used f1 g (num, g2) fuel hx (le_trans (le_max_left f1 f2) hf)
    simp only [sampleLoop, hd]
    exact hs fuel (le_trans (le_max_right f1 f2) hf)

theorem sample_from_sequence_terminates (n range : Nat) (sequence used : List Nat) (g : Rng K)
    (hg : g.Recurrent n) :
    ∃ fuel0 s, ∀ fuel, fuel0 ≤ fuel →
      sample_from_sequence fuel n range sequence used g = some s := by
  obtain ⟨f, s, hs⟩ := sampleLoop_terminates n n 0
    (sequence.take n ++ List.replicate (n - sequence.length) 0) [] g hg
    (by rw [List.length_nil]; omega)
  exact ⟨f, s, fun fuel hf => hs fuel hf⟩

theorem exampleRngCounting_recurrent (n : Nat) : (exampleRngCounting : Rng K).Recurrent n := by
  intro r hr p
  refine ⟨p * (n + 1) + r, ?_, ?_⟩
  · have : p ≤ p * (n + 1) := Nat.le_mul_of_pos_right p (by omega)
    omega
  · simp only [exampleRngCounting]
    rw [Nat.mul_add_mod_of_lt (by omega)]

/-- C5 (as amended): ionization creates no pair.  For a generator whose integer stream
keeps reaching every residue modulo `n_null + 1`, `collide_electrons` returns: with
enough draws allowed to the rejection loop it produces one result, in which the
electron count, the electron positions and the number of stored velocities are as
before, the ion species is unchanged and the returned value is `0`; and a sample that
takes the ionization branch leaves the electron species (velocity included) and the
ion species exactly as they were: nothing is appended (the call is commented out in
the source). -/
theorem collide_electrons_creates_no_pair [FloorRing K] (L : MathFns K)
    (mcc : MonteCarloCollisions K) (electrons ions : ChargedSpecies K (Vec1 K) (Vec3 K))
    (g : Rng K) (hg : g.Recurrent (mcc.n_null electrons g)) :
    (∃ fuel0 r, ∀ fuel, fuel0 ≤ fuel →
      MonteCarloCollisions.collide_electrons L fuel mcc electrons ions g = some r ∧
      r.electrons.n = electrons.n ∧ r.electrons.x = electrons.x ∧
      r.electrons.v.length = electrons.v.length ∧ r.ions = ions ∧ r.ret = 0) ∧
    ∀ (samples : List Nat) (i : Nat)
      (s : ChargedSpecies K (Vec1 K) (Vec3 K) × ChargedSpecies K (Vec1 K) (Vec3 K) × Rng K
        × List Branch),
      (collideBody L mcc samples i s).2.2.2 = Branch.ionization :: s.2.2.2 →
      (collideBody L mcc samples i s).1 = s.1 ∧
      (collideBody L mcc samples i s).2.1 = s.2.1 := by
  refine ⟨?_, fun samples i s hs => collideBody_ionization L mcc samples i s hs⟩
  obtain ⟨f, ⟨sequence, used, g2⟩, hs⟩ := sample_from_sequence_terminates
    (mcc.n_null electrons g) electrons.n mcc.m_particle_samples mcc.m_used_cache g.uniform.2
    (recurrent_uniform g _ hg)
  obtain ⟨f1, f2, f3, f4⟩ := collide_loop_frame L mcc sequence (mcc.n_null electrons g)
    (electrons, ions, g2, [])
  refine ⟨f,
    { mcc := { mcc with m_particle_samples := sequence, m_used_cache := used },
      electrons := (forLoop (collideBody L mcc sequence) (mcc.n_null electrons g)
        (electrons, ions, g2, [])).1,
      ions := (forLoop (collideBody L mcc sequence) (mcc.n_null electrons g)
        (electrons, ions, g2, [])).2.1,
      rng := (forLoop (collideBody L mcc sequence) (mcc.n_null electrons g)
        (electrons, ions, g2, [])).2.2.1,
      ret := 0,
      branches := (forLoop (collideBody L mcc sequence) (mcc.n_null electrons g)
        (electrons, ions, g2, [])).2.2.2 },
    fun fuel hf => ⟨?_, f1, f2, f3, f4, rfl⟩⟩
  simp only [MonteCarloCollisions.collide_electrons, hs fuel hf]

/-- C5 witness: the example set-up with the counting generator, whose integer stream
reaches every residue again and again: `collide_electrons` returns `0` and leaves the
electron count, positions and the ion species as they were. -/
theorem collide_electrons_creates_no_pair_witness :
    (exampleRngCounting : Rng ℝ).Recurrent
        (MonteCarloCollisions.n_null (exampleMcc : MonteCarloCollisions ℝ) exampleElectrons
          exampleRngCounting) ∧
    ∃ fuel0 r, ∀ fuel, fuel0 ≤ fuel →
      MonteCarloCollisions.collide_electrons
        (⟨Real.sqrt, Real.cos, Real.sin, Real.arccos⟩ : MathFns ℝ) fuel exampleMcc
        exampleElectrons exampleIons exampleRngCounting = some r ∧
      r.electrons.n = (exampleElectrons : ChargedSpecies ℝ (Vec1 ℝ) (Vec3 ℝ)).n ∧
      r.electrons.x = (exampleElectrons : ChargedSpecies ℝ (Vec1 ℝ) (Vec3 ℝ)).x ∧
      r.electrons.v.length = (exampleElectrons : ChargedSpecies ℝ (Vec1 ℝ) (Vec3 ℝ)).v.length ∧
      r.ions = exampleIons ∧ r.ret = 0 :=
  ⟨exampleRngCounting_recurrent _,
    (collide_electrons_creates_no_pair _ exampleMcc exampleElectrons exampleIons
      exampleRngCounting (exampleRngCounting_recurrent _)).1⟩

/-- C5 counterexample: in the example set-up the sampled electron has kinetic energy
above the ionization threshold and `collide_electrons` takes the ionization branch
for it, yet the electron count stays `1` and the ion count stays `0`: no pair is
appended. -/
theorem collide_electrons_ionization_no_pair :
    ∃ r, MonteCarloCollisions.collide_electrons
        (⟨Real.sqrt, Real.cos, Real.sin, Real.arccos⟩ : MathFns ℝ) 1 exampleMcc
        exampleElectrons exampleIons exampleRng = some r ∧
      r.branches = [Branch.ionization] ∧
      kinetic_energy_ev (exampleElectrons : ChargedSpecies ℝ (Vec1 ℝ) (Vec3 ℝ)) 0
        ≥ (exampleMcc : MonteCarloCollisions ℝ).m_iz_cs.energy_threshold ∧
      r.electrons.n = 1 ∧ r.ions.n = 0 ∧
      r.electrons.n ≠ (exampleElectrons : ChargedSpecies ℝ (Vec1 ℝ) (Vec3 ℝ)).n + 1 ∧
      r.ions.n ≠ (exampleIons : ChargedSpecies ℝ (Vec1 ℝ) (Vec3 ℝ)).n + 1 := by
  obtain ⟨r, hr, hb, he, hi⟩ := example_collide_electrons
  refine ⟨r, hr, hb, ?_, ?_, ?_, ?_, ?_⟩
  · rw [example_kinetic_energy]
    have hthr : (exampleMcc : MonteCarloCollisions ℝ).m_iz_cs.energy_threshold = 0 := rfl
    rw [hthr]
    norm_num [constants.m_e, constants.e]
  · rw [he]; rfl
  · rw [hi]; rfl
  · rw [he]; exact by decide
  · rw [hi]; exact by decide

/-! ### particle/pusher.cpp : cylindrical axis -/

theorem cylindricalBody_eq_reflect (k dt : K) (F : Vec2 K) (x : Vec2 K) (v : Vec3 K) :
    cylindricalBody k dt F x v
      = if (cylindricalAdvance k dt F x v).1.y < 0 then
          ({ (cylindricalAdvance k dt F x v).1 with y := 0 },
           { (cylindricalAdvance k dt F x v).2 with y := 0, z := 0 })
        else cylindricalAdvance k dt F x v := rfl

theorem cylindricalBody_axis_velocity (k dt : K) (F : Vec2 K) (x : Vec2 K) (v : Vec3 K)
    (hr : |x.y| < 1e-15) :
    (cylindricalBody k dt F x v).2.y = 0 ∧ (cylindricalBody k dt F x v).2.z = 0 := by
  have h1 : ¬ x.y > 1e-15 := not_lt.mpr (le_of_lt (lt_of_le_of_lt (le_abs_self _) hr))
  simp only [cylindricalBody, if_neg h1, if_pos hr, zero_mul, add_zero]
  split_ifs <;> exact ⟨rfl, rfl⟩

/-- C11: for every particle with `|r| < 1e-15` and every field `(Ez, Er)`, charge, mass
and `dt`, after one call of `move_particles_cylindrical` its radial and azimuthal
velocity components are both exactly `0`. -/
theorem cylindrical_axis_zeroes_transverse (species : ChargedSpecies K (Vec2 K) (Vec3 K))
    (force : List (Vec2 K)) (dt : K) (i : Nat) (hi : i < species.n)
    (hx : species.n ≤ species.x.length) (hv : species.n ≤ species.v.length)
    (hr : |(rd2 species.x i).y| < 1e-15) :
    (rd3 (move_particles_cylindrical species force dt).v i).y = 0 ∧
    (rd3 (move_particles_cylindrical species force dt).v i).z = 0 := by
  obtain ⟨-, -, -, -, -, h6, -⟩ := cylindrical_loop_inv force (species.q / species.m) dt
    species species.n
  obtain ⟨-, b⟩ := h6 i hi (by omega) (by omega)
  have e : move_particles_cylindrical species force dt
      = forLoop (cylindricalLoopBody force (species.q / species.m) dt) species.n species := rfl
  rw [e, b]
  exact cylindricalBody_axis_velocity _ _ _ _ _ hr

/-- C11 witness: the particle of property 6 (`r = 0`, `v_r = 1`, `v_theta = 1`) in the
field `(Ez, Er) = (2, 5)` with `dt = 1/10`. -/
theorem cylindrical_axis_zeroes_transverse_witness :
    (0 < scenarioAxis.n ∧ scenarioAxis.n ≤ scenarioAxis.x.length ∧
      scenarioAxis.n ≤ scenarioAxis.v.length ∧ |(rd2 scenarioAxis.x 0).y| < 1e-15) ∧
    (rd3 (move_particles_cylindrical scenarioAxis [⟨2, 5⟩] (1 / 10)).v 0).y = 0 ∧
    (rd3 (move_particles_cylindrical scenarioAxis [⟨2, 5⟩] (1 / 10)).v 0).z = 0 := by
  have hyp : 0 < scenarioAxis.n ∧ scenarioAxis.n ≤ scenarioAxis.x.length ∧
      scenarioAxis.n ≤ scenarioAxis.v.length ∧ |(rd2 scenarioAxis.x 0).y| < 1e-15 := by
    refine ⟨by decide, by decide, by decide, ?_⟩
    norm_num [scenarioAxis, rd2]
  exact ⟨hyp, cylindrical_axis_zeroes_transverse scenarioAxis [⟨2, 5⟩] (1 / 10) 0 hyp.1 hyp.2.1
    hyp.2.2.1 hyp.2.2.2⟩

theorem cylindricalBody_radius_nonneg (k dt : K) (F : Vec2 K) (x : Vec2 K) (v : Vec3 K) :
    0 ≤ (cylindricalBody k dt F x v).1.y ∧
    ((cylindricalAdvance k dt F x v).1.y < 0 →
      (cylindricalBody k dt F x v).1.y = 0 ∧ (cylindricalBody k dt F x v).2.y = 0 ∧
      (cylindricalBody k dt F x v).2.z = 0) := by
  rw [cylindricalBody_eq_reflect]
  by_cases h : (cylindricalAdvance k dt F x v).1.y < 0
  · rw [if_pos h]
    exact ⟨le_refl _, fun _ => ⟨rfl, rfl, rfl⟩⟩
  · rw [if_neg h]
    exact ⟨not_lt.mp h, fun hc => absurd hc h⟩

theorem cylindricalAdvance_radius (k dt : K) (F : Vec2 K) (x : Vec2 K) (v : Vec3 K) :
    (cylindricalAdvance k dt F x v).1.y = x.y + (cylindricalAdvance k dt F x v).2.y * dt := rfl

/-- C12: after `move_particles_cylindrical` every active particle has `r ≥ 0`, and
whenever its freshly updated radius `r + v_r'*dt` (with `v_r'` the updated radial
velocity) is negative it ends with `r = 0`, `v_r = 0` and `v_theta = 0`. -/
theorem cylindrical_radius_nonneg (species : ChargedSpecies K (Vec2 K) (Vec3 K))
    (force : List (Vec2 K)) (dt : K) (i : Nat) (hi : i < species.n)
    (hx : species.n ≤ species.x.length) (hv : species.n ≤ species.v.length) :
    0 ≤ (rd2 (move_particles_cylindrical species force dt).x i).y ∧
    ((rd2 species.x i).y
        + (cylindricalAdvance (species.q / species.m) dt (rd2 force i) (rd2 species.x i)
            (rd3 species.v i)).2.y * dt < 0 →
      (rd2 (move_particles_cylindrical species force dt).x i).y = 0 ∧
      (rd3 (move_particles_cylindrical species force dt).v i).y = 0 ∧
      (rd3 (move_particles_cylindrical species force dt).v i).z = 0) := by
  obtain ⟨-, -, -, -, -, h6, -⟩ := cylindrical_loop_inv force (species.q / species.m) dt
    species species.n
  obtain ⟨a, b⟩ := h6 i hi (by omega) (by omega)
  have e : move_particles_cylindrical species force dt
      = forLoop (cylindricalLoopBody force (species.q / species.m) dt) species.n species := rfl
  rw [e, a, b, ← cylindricalAdvance_radius]
  exact cylindricalBody_radius_nonneg _ _ _ _ _

/-- C12 witness: a particle at `r = 1` with `v_r = -3` in zero field and `dt = 1` has the
fresh radius `1 + (-3)*1 = -2 < 0`; it ends at `r = 0` with `v_r = v_theta = 0`. -/
theorem cylindrical_radius_nonneg_witness :
    (0 < scenarioInward.n ∧ scenarioInward.n ≤ scenarioInward.x.length ∧
      scenarioInward.n ≤ scenarioInward.v.length) ∧
    (rd2 scenarioInward.x 0).y
        + (cylindricalAdvance (scenarioInward.q / scenarioInward.m) 1 (rd2 [⟨0, 0⟩] 0)
            (rd2 scenarioInward.x 0) (rd3 scenarioInward.v 0)).2.y * 1 = -2 ∧
    0 ≤ (rd2 (move_particles_cylindrical scenarioInward [⟨0, 0⟩] 1).x 0).y ∧
    (rd2 (move_particles_cylindrical scenarioInward [⟨0, 0⟩] 1).x 0).y = 0 ∧
    (rd3 (move_particles_cylindrical scenarioInward [⟨0, 0⟩] 1).v 0).y = 0 ∧
    (rd3 (move_particles_cylindrical scenarioInward [⟨0, 0⟩] 1).v 0).z = 0 := by
  have hyp : 0 < scenarioInward.n ∧ scenarioInward.n ≤ scenarioInward.x.length ∧
      scenarioInward.n ≤ scenarioInward.v.length := ⟨by decide, by decide, by decide⟩
  have hfresh : (rd2 scenarioInward.x 0).y
        + (cylindricalAdvance (scenarioInward.q / scenarioInward.m) 1 (rd2 [⟨0, 0⟩] 0)
            (rd2 scenarioInward.x 0) (rd3 scenarioInward.v 0)).2.y * 1 = -2 := by
    norm_num [scenarioInward, cylindricalAdvance, rd2, rd3]
  have h := cylindrical_radius_nonneg scenarioInward [⟨0, 0⟩] 1 0 hyp.1 hyp.2.1 hyp.2.2
  exact ⟨hyp, hfresh, h.1, h.2 (by rw [hfresh]; norm_num)⟩

/-! ### interpolate/field.cpp -/

theorem log_two_eq_of_bounds [FloorRing K] (q : K) (e : Int) (hq : 0 < q) (h1 : (2 : K) ^ e ≤ q)
    (h2 : q < (2 : K) ^ (e + 1)) : Int.log 2 q = e := by
  have hb : 1 < 2 := by norm_num
  have a : e ≤ Int.log 2 q := (Int.zpow_le_iff_le_log hb hq).mp (by exact_mod_cast h1)
  have b : Int.log 2 q < e + 1 := (Int.lt_zpow_iff_log_lt hb hq).mp (by exact_mod_cast h2)
  omega

theorem roundHalfEven_down [FloorRing K] (t : K) (f : Int) (h1 : (f : K) ≤ t)
    (h2 : t < (f : K) + 1 / 2) : roundHalfEven t = f := by
  have hf : Int.floor t = f := by
    rw [Int.floor_eq_iff]
    exact ⟨h1, by linarith⟩
  rw [roundHalfEven, hf, if_pos (by linarith)]

theorem roundHalfEven_up [FloorRing K] (t : K) (f : Int) (h1 : (f : K) + 1 / 2 < t)
    (h2 : t < (f : K) + 1) : roundHalfEven t = f + 1 := by
  have hf : Int.floor t = f := by
    rw [Int.floor_eq_iff]
    exact ⟨by linarith, h2⟩
  rw [roundHalfEven, hf, if_neg (by linarith), if_pos (by linarith)]

theorem roundHalfEven_tie_odd [FloorRing K] (t : K) (f : Int) (h1 : t = (f : K) + 1 / 2)
    (hodd : f % 2 = 1) : roundHalfEven t = f + 1 := by
  have hf : Int.floor t = f := by
    rw [Int.floor_eq_iff]
    exact ⟨by linarith, by linarith⟩
  rw [roundHalfEven, hf, if_neg (by linarith), if_neg (by linarith), if_neg (by omega)]

theorem roundDouble_eval [FloorRing K] (q : K) (e m : Int) (hq : 0 < q)
    (h1 : (2 : K) ^ e ≤ q) (h2 : q < (2 : K) ^ (e + 1))
    (hm : roundHalfEven (q / (2 : K) ^ (e - 52)) = m) :
    roundDouble q = (m : K) * (2 : K) ^ (e - 52) := by
  have hl : Int.log 2 |q| = e := by
    rw [abs_of_pos hq]
    exact log_two_eq_of_bounds q e hq h1 h2
  rw [roundDouble, if_neg (ne_of_gt hq), hl, hm]

theorem gatherIndex_cast [FloorRing K] (dx xp : K) (hdx : 0 < dx) (hxp : 0 ≤ xp) :
    0 ≤ Int.floor (xp / dx) ∧
    ((gatherIndex id dx xp : Nat) : Int) = Int.floor (xp / dx) ∧
    ((gatherIndex id dx xp : Nat) : K) = ((Int.floor (xp / dx) : Int) : K) := by
  have h0 : 0 ≤ Int.floor (xp / dx) := Int.floor_nonneg.mpr (div_nonneg hxp (le_of_lt hdx))
  have h1 : ((gatherIndex id dx xp : Nat) : Int) = Int.floor (xp / dx) := Int.toNat_of_nonneg h0
  refine ⟨h0, h1, ?_⟩
  rw [← h1, Int.cast_natCast]

theorem gatherIndex_exact_in_range [FloorRing K] (field : UniformGrid K) (xp : K)
    (hdx : 0 < field.dx) (hext : 2 ≤ field.data.length) (h0 : 0 ≤ xp)
    (h1 : xp < ((field.data.length - 1 : Nat) : K) * field.dx) :
    0 ≤ Int.floor (xp / field.dx) ∧
    ((gatherIndex id field.dx xp : Nat) : Int) = Int.floor (xp / field.dx) ∧
    gatherIndex id field.dx xp + 1 ≤ field.data.length - 1 := by
  obtain ⟨a, b, -⟩ := gatherIndex_cast field.dx xp hdx h0
  refine ⟨a, b, ?_⟩
  have hq : xp / field.dx < ((field.data.length - 1 : Nat) : K) := (div_lt_iff₀ hdx).mpr h1
  have hfl : Int.floor (xp / field.dx) < ((field.data.length - 1 : Nat) : Int) := by
    rw [Int.floor_lt]
    exact_mod_cast hq
  omega

theorem roundDouble_dx : roundDouble (7 / 10 : ℚ) = doubleDx := by
  rw [roundDouble_eval (7 / 10 : ℚ) (-1) 6305039478318694 (by norm_num) (by norm_num)
    (by norm_num) (roundHalfEven_down _ _ (by norm_num) (by norm_num))]
  norm_num [doubleDx]

theorem roundDouble_xp : roundDouble (3.4999999999999996 : ℚ) = doubleXp := by
  rw [roundDouble_eval _ 1 7881299347898367 (by norm_num) (by norm_num)
    (by norm_num) (roundHalfEven_down _ 7881299347898367 (by norm_num) (by norm_num))]
  norm_num [doubleXp]

theorem roundDouble_quotient : roundDouble (doubleXp / doubleDx) = 5 := by
  rw [roundDouble_eval _ 2 5629499534213120 (by norm_num [doubleXp, doubleDx])
    (by norm_num [doubleXp, doubleDx]) (by norm_num [doubleXp, doubleDx])
    (roundHalfEven_up _ 5629499534213119 (by norm_num [doubleXp, doubleDx])
      (by norm_num [doubleXp, doubleDx]))]
  norm_num

theorem roundDouble_edge : roundDouble (((6 - 1 : Nat) : ℚ) * doubleDx) = 7 / 2 := by
  rw [roundDouble_eval _ 1 7881299347898368 (by norm_num [doubleDx]) (by norm_num [doubleDx])
    (by norm_num [doubleDx])
    (roundHalfEven_tie_odd _ 7881299347898367 (by norm_num [doubleDx]) (by decide))]
  norm_num

/-- C13 (the code departs from the claim): the index is the floor of the rounded `double`
quotient.  On a grid of 6 nodes with `dx` the double `0.7` and `xp` the double
`3.4999999999999996`, the edge policy `0 ≤ xp < (extents-1)*dx` holds (exactly, and
with the product rounded to `3.5`), yet the quotient `xp/dx = 5 - 3.2e-16` rounds to
`5.0`: `field_at_particles` gets `il = 5` and reads `e[il + 1] = e[6]`, past the last
node `5`.  In exact arithmetic the same input gives `il = 4`. -/
theorem gather_index_rounded_quotient :
    exampleGridSix.data.length = 6 ∧ exampleGridSix.dx = roundDouble (7 / 10) ∧
    doubleXp = roundDouble 3.4999999999999996 ∧
    (0 < exampleGridSix.dx ∧ 0 ≤ doubleXp ∧
      doubleXp < ((exampleGridSix.data.length - 1 : Nat) : ℚ) * exampleGridSix.dx ∧
      doubleXp < roundDouble (((exampleGridSix.data.length - 1 : Nat) : ℚ) * exampleGridSix.dx)) ∧
    roundDouble (doubleXp / exampleGridSix.dx) = 5 ∧
    gatherIndex roundDouble exampleGridSix.dx doubleXp = 5 ∧
    ¬ (gatherIndex roundDouble exampleGridSix.dx doubleXp + 1 ≤ exampleGridSix.data.length - 1) ∧
    gatherIndex id exampleGridSix.dx doubleXp = 4 := by
  have hq : roundDouble (doubleXp / exampleGridSix.dx) = 5 := roundDouble_quotient
  have hi : gatherIndex roundDouble exampleGridSix.dx doubleXp = 5 := by
    rw [gatherIndex, hq]
    have : Int.floor (5 : ℚ) = 5 := by
      rw [Int.floor_eq_iff]
      norm_num
    rw [this]
    rfl
  have hlen : exampleGridSix.data.length = 6 := rfl
  have hdx : exampleGridSix.dx = doubleDx := rfl
  refine ⟨hlen, by rw [roundDouble_dx]; rfl, roundDouble_xp.symm, ⟨?_, ?_, ?_, ?_⟩, hq, hi, ?_, ?_⟩
  · rw [hdx]; norm_num [doubleDx]
  · norm_num [doubleXp]
  · rw [hlen, hdx]; norm_num [doubleXp, doubleDx]
  · rw [hlen, hdx, roundDouble_edge]; norm_num [doubleXp]
  · rw [hi, hlen]; decide
  · rw [gatherIndex, hdx]
    have : Int.floor (id (doubleXp / doubleDx)) = 4 := by
      rw [Int.floor_eq_iff]
      norm_num [doubleXp, doubleDx]
    rw [this]
    rfl

theorem field_loop_inv [FloorRing K] {V : Type} (fl : K → K) (field : UniformGrid K)
    (s0 : ChargedSpecies K (Vec1 K) V) (c : Nat) :
    (forLoop (fieldBody fl field) c s0).n = s0.n ∧
    (forLoop (fieldBody fl field) c s0).x = s0.x ∧
    (forLoop (fieldBody fl field) c s0).v = s0.v ∧
    (forLoop (fieldBody fl field) c s0).f.length = s0.f.length ∧
    (∀ i, i < c → i < s0.f.length →
      rd1 (forLoop (fieldBody fl field) c s0).f i
        = ⟨fl (fl (fl (rd field.data (gatherIndex fl field.dx (rd1 s0.x i).x)
              * fl (fl (((gatherIndex fl field.dx (rd1 s0.x i).x + 1 : Nat) : K) * field.dx)
                  - (rd1 s0.x i).x)) / field.dx)
            + fl (fl (rd field.data (gatherIndex fl field.dx (rd1 s0.x i).x + 1)
              * fl ((rd1 s0.x i).x
                  - fl (((gatherIndex fl field.dx (rd1 s0.x i).x : Nat) : K) * field.dx)))
              / field.dx))⟩) ∧
    (∀ i, c ≤ i → rd1 (forLoop (fieldBody fl field) c s0).f i = rd1 s0.f i) := by
  induction c with
  | zero => exact ⟨rfl, rfl, rfl, rfl, fun i h => absurd h (Nat.not_lt_zero i), fun i _ => rfl⟩
  | succ c ih =>
    obtain ⟨h1, h2, h3, h4, h5, h6⟩ := ih
    simp only [forLoop, fieldBody]
    refine ⟨h1, h2, h3, by rw [List.length_set, h4], ?_, ?_⟩
    · intro i hi hf
      rcases Nat.lt_or_ge i c with hlt | hge
      · simp only [rd1]
        rw [getD_set_ne _ _ _ _ _ (by omega)]
        exact h5 i hlt hf
      · have : i = c := by omega
        subst this
        simp only [rd1]
        rw [getD_set_eq _ _ _ _ (by rw [h4]; exact hf), h2]
    · intro i hi
      simp only [rd1]
      rw [getD_set_ne _ _ _ _ _ (by omega)]
      exact h6 i (by omega)

theorem gatherIndex_node [FloorRing K] (dx : K) (k : Nat) (hdx : 0 < dx) :
    gatherIndex id dx ((k : K) * dx) = k := by
  have e : id ((k : K) * dx / dx) = ((k : Int) : K) := by
    rw [id, mul_div_assoc, div_self (ne_of_gt hdx), mul_one, Int.cast_natCast]
  rw [gatherIndex, e, Int.floor_intCast, Int.toNat_natCast]

theorem field_at_particles_exact [FloorRing K] {V : Type} (field : UniformGrid K)
    (species : ChargedSpecies K (Vec1 K) V) (i : Nat) (hi : i < species.n)
    (hf : species.n ≤ species.f.length) :
    (rd1 (field_at_particles id field species).f i).x
      = rd field.data (gatherIndex id field.dx (rd1 species.x i).x)
          * ((((gatherIndex id field.dx (rd1 species.x i).x + 1 : Nat) : K) * field.dx
              - (rd1 species.x i).x) / field.dx)
        + rd field.data (gatherIndex id field.dx (rd1 species.x i).x + 1)
          * (((rd1 species.x i).x
              - ((gatherIndex id field.dx (rd1 species.x i).x : Nat) : K) * field.dx)
            / field.dx) := by
  obtain ⟨-, -, -, -, h5, -⟩ := field_loop_inv id field species species.n
  have e : field_at_particles id field species
      = forLoop (fieldBody id field) species.n species := rfl
  rw [e, h5 i hi (by omega)]
  simp only [id]
  rw [mul_div_assoc, mul_div_assoc]

/-- C14: in exact arithmetic (`fl = id`), for every `dx > 0`: with `il = floor(xp/dx)`,
`xl = il*dx` and `xr = (il+1)*dx`, the value `field_at_particles` stores for a particle
at `xp` is `e[il]*wl + e[il+1]*wr` with the two weights `wl = (xr-xp)/dx` and
`wr = (xp-xl)/dx`; for `xp ≥ 0` each weight lies in `[0, 1]` and they sum to exactly `1`;
and a particle sitting on node `k` (`xp = k*dx`) receives exactly `e[k]`. -/
theorem gather_weights_partition [FloorRing K] {V : Type} (field : UniformGrid K)
    (hdx : 0 < field.dx) :
    (∀ (species : ChargedSpecies K (Vec1 K) V) (i : Nat), i < species.n →
      species.n ≤ species.f.length →
      (rd1 (field_at_particles id field species).f i).x
        = rd field.data (gatherIndex id field.dx (rd1 species.x i).x)
            * ((((gatherIndex id field.dx (rd1 species.x i).x + 1 : Nat) : K) * field.dx
                - (rd1 species.x i).x) / field.dx)
          + rd field.data (gatherIndex id field.dx (rd1 species.x i).x + 1)
            * (((rd1 species.x i).x
                - ((gatherIndex id field.dx (rd1 species.x i).x : Nat) : K) * field.dx)
              / field.dx)) ∧
    (∀ xp : K, 0 ≤ xp →
      0 ≤ (((gatherIndex id field.dx xp + 1 : Nat) : K) * field.dx - xp) / field.dx ∧
      (((gatherIndex id field.dx xp + 1 : Nat) : K) * field.dx - xp) / field.dx ≤ 1 ∧
      0 ≤ (xp - ((gatherIndex id field.dx xp : Nat) : K) * field.dx) / field.dx ∧
      (xp - ((gatherIndex id field.dx xp : Nat) : K) * field.dx) / field.dx ≤ 1 ∧
      (((gatherIndex id field.dx xp + 1 : Nat) : K) * field.dx - xp) / field.dx
        + (xp - ((gatherIndex id field.dx xp : Nat) : K) * field.dx) / field.dx = 1) ∧
    (∀ (species : ChargedSpecies K (Vec1 K) V) (i k : Nat), i < species.n →
      species.n ≤ species.f.length → (rd1 species.x i).x = (k : K) * field.dx →
      (rd1 (field_at_particles id field species).f i).x = rd field.data k) := by
  have hne : field.dx ≠ 0 := ne_of_gt hdx
  refine ⟨fun species i hi hf => field_at_particles_exact field species i hi hf, ?_, ?_⟩
  · intro xp hxp
    obtain ⟨-, -, hc⟩ := gatherIndex_cast field.dx xp hdx hxp
    have hlo : ((Int.floor (xp / field.dx) : Int) : K) ≤ xp / field.dx := Int.floor_le _
    have hhi : xp / field.dx < ((Int.floor (xp / field.dx) : Int) : K) + 1 :=
      Int.lt_floor_add_one _
    have e1 : (((gatherIndex id field.dx xp + 1 : Nat) : K) * field.dx - xp) / field.dx
        = ((Int.floor (xp / field.dx) : Int) : K) + 1 - xp / field.dx := by
      push_cast
      rw [hc]
      field_simp
    have e2 : (xp - ((gatherIndex id field.dx xp : Nat) : K) * field.dx) / field.dx
        = xp / field.dx - ((Int.floor (xp / field.dx) : Int) : K) := by
      rw [hc]
      field_simp
      ring
    rw [e1, e2]
    refine ⟨by linarith, by linarith, by linarith, by linarith, by ring⟩
  · intro species i k hi hf hx
    rw [field_at_particles_exact field species i hi hf, hx, gatherIndex_node field.dx k hdx]
    push_cast
    have e3 : ((k : K) + 1) * field.dx - (k : K) * field.dx = field.dx := by ring
    rw [sub_self, zero_div, mul_zero, add_zero, e3, div_self hne, mul_one]

/-- C14 witness: on `exampleGrid` (`dx = 1/2`, `e = [10, 20, 40]`) the particle of
`exampleOffNode` at `xp = 3/4` has `il = 1` and weights `1/2`, `1/2`, and receives
`20/2 + 40/2 = 30`; the particle of `exampleOnNode` on node `1` receives `e[1] = 20`. -/
theorem gather_weights_partition_witness :
    0 < exampleGrid.dx ∧
    gatherIndex id exampleGrid.dx (3 / 4 : ℚ) = 1 ∧
    (((gatherIndex id exampleGrid.dx (3 / 4 : ℚ) + 1 : Nat) : ℚ) * exampleGrid.dx - 3 / 4)
        / exampleGrid.dx
      + (3 / 4 - ((gatherIndex id exampleGrid.dx (3 / 4 : ℚ) : Nat) : ℚ) * exampleGrid.dx)
        / exampleGrid.dx = 1 ∧
    (rd1 (field_at_particles id exampleGrid exampleOffNode).f 0).x = 30 ∧
    (rd1 (field_at_particles id exampleGrid exampleOnNode).f 0).x = 20 := by
  have hdx : 0 < exampleGrid.dx := by norm_num [exampleGrid]
  have hil : gatherIndex id exampleGrid.dx (3 / 4 : ℚ) = 1 := by
    have : Int.floor (id ((3 / 4 : ℚ) / exampleGrid.dx)) = 1 := by
      rw [Int.floor_eq_iff]
      norm_num [exampleGrid]
    rw [gatherIndex, this]
    rfl
  have h := gather_weights_partition (V := Vec3 ℚ) exampleGrid hdx
  have hx : (rd1 exampleOffNode.x 0).x = 3 / 4 := rfl
  refine ⟨hdx, hil, (h.2.1 (3 / 4) (by norm_num)).2.2.2.2, ?_, ?_⟩
  · rw [h.1 exampleOffNode 0 (by decide) (by decide), hx, hil]
    norm_num [exampleGrid, rd]
  · rw [h.2.2 exampleOnNode 0 1 (by decide) (by decide)
      (by norm_num [exampleOnNode, exampleGrid, rd1])]
    rfl

/-! ### collisions/mcc.cpp : clamping, frequency ratio, scatter -/

theorem wellFormed_increasing (cs : CollisionReaction K) (h : cs.WellFormed) :
    ∀ i j, i < j → j < cs.energy.length → rd cs.energy i < rd cs.energy j := by
  intro i j hij hj
  have hp := List.pairwise_iff_getElem.mp h.2.2 i j (by omega) hj hij
  rw [rd, rd, List.getD_eq_getElem _ _ (by omega), List.getD_eq_getElem _ _ hj]
  exact hp

/-- C15: for every reaction (non-empty tables of equal length, energies strictly
increasing) and every energy `E`, `interpolate_cross_section` returns the first
tabulated cross section when `E ≤ E_0` and the last one when `E ≥ E_last`; the two
positions it reads there, `0` and `len - 1`, are inside both tables. -/
theorem interpolate_cross_section_clamped (cs : CollisionReaction K) (energy : K)
    (hwf : cs.WellFormed) :
    (energy ≤ rd cs.energy 0 → interpolate_cross_section cs energy = rd cs.cross_section 0) ∧
    (energy ≥ rd cs.energy (cs.energy.length - 1) →
      interpolate_cross_section cs energy
        = rd cs.cross_section (cs.cross_section.length - 1)) ∧
    0 < cs.energy.length ∧ cs.energy.length - 1 < cs.energy.length ∧
    0 < cs.cross_section.length ∧ cs.cross_section.length - 1 < cs.cross_section.length := by
  have hinc := wellFormed_increasing cs hwf
  obtain ⟨hne, hlen, -⟩ := hwf
  refine ⟨?_, ?_, hne, by omega, by omega, by omega⟩
  · intro h
    simp only [interpolate_cross_section]
    rw [if_pos h]
  · intro h
    simp only [interpolate_cross_section]
    by_cases h0 : energy ≤ rd cs.energy 0
    · rw [if_pos h0]
      rcases Nat.eq_or_lt_of_le (Nat.succ_le_of_lt hne) with h1 | h1
      · have e : cs.cross_section.length - 1 = 0 := by omega
        rw [e]
      · have hlt := hinc 0 (cs.energy.length - 1) (by omega) (by omega)
        exact absurd (lt_of_lt_of_le hlt (le_trans h h0)) (lt_irrefl _)
    · rw [if_neg h0, if_pos h]

/-- C15 witness: on the table `E = [0, 1, 2]`, `sigma = [0, 10, 20]` the energy `-1` gives
`sigma_0 = 0` and the energy `5` gives `sigma_last = 20`. -/
theorem interpolate_cross_section_clamped_witness :
    exampleReaction.WellFormed ∧
    ((-1 : ℚ) ≤ rd exampleReaction.energy 0 ∧ interpolate_cross_section exampleReaction (-1) = 0) ∧
    ((5 : ℚ) ≥ rd exampleReaction.energy (exampleReaction.energy.length - 1) ∧
      interpolate_cross_section exampleReaction 5 = 20) := by
  have hwf : exampleReaction.WellFormed := by decide
  have hlo : (-1 : ℚ) ≤ rd exampleReaction.energy 0 := by norm_num [exampleReaction, rd]
  have hhi : (5 : ℚ) ≥ rd exampleReaction.energy (exampleReaction.energy.length - 1) := by
    norm_num [exampleReaction, rd]
  have h1 := (interpolate_cross_section_clamped exampleReaction (-1) hwf).1 hlo
  have h2 := (interpolate_cross_section_clamped exampleReaction 5 hwf).2.1 hhi
  refine ⟨hwf, ⟨hlo, ?_⟩, ⟨hhi, ?_⟩⟩
  · rw [h1]
    norm_num [exampleReaction, rd]
  · rw [h2]
    norm_num [exampleReaction, rd]

theorem frequency_ratio_ignores_reaction (L : MathFns K) (mcc : MonteCarloCollisions K)
    (cs : CollisionReaction K) (kinetic_energy : K) :
    mcc.frequency_ratio L cs kinetic_energy = mcc.frequency_ratio L mcc.m_el_cs kinetic_energy :=
  rfl

/-- C16 (the code departs from the claim): `frequency_ratio` interpolates `m_el_cs` whatever
reaction it is given.  In the set-up `exampleMccIz` (elastic cross section `1`,
ionization cross section `3`, `n_neutral = 1`, `nu'_e = 4`) and at the kinetic energy
`T = m_e/(2e)` of the example electron, where `sqrt(2*e*T/m_e) = 1`, the ratio of the
ionization reaction is `1/4`, while `n_neutral * sigma_iz(T) * sqrt(2*e*T/m_e) / nu'_e`
is `3/4`. -/
theorem frequency_ratio_uses_elastic_table :
    kinetic_energy_ev (exampleElectrons : ChargedSpecies ℝ (Vec1 ℝ) (Vec3 ℝ)) 0
      = constants.m_e / (2 * constants.e) ∧
    MonteCarloCollisions.frequency_ratio
      (⟨Real.sqrt, Real.cos, Real.sin, Real.arccos⟩ : MathFns ℝ) exampleMccIz
      (exampleMccIz : MonteCarloCollisions ℝ).m_iz_cs (constants.m_e / (2 * constants.e))
      = 1 / 4 ∧
    (exampleMccIz : MonteCarloCollisions ℝ).m_config.m_n_neutral
      * interpolate_cross_section (exampleMccIz : MonteCarloCollisions ℝ).m_iz_cs
          (constants.m_e / (2 * constants.e))
      * Real.sqrt (2 * constants.e * (constants.m_e / (2 * constants.e)) / constants.m_e)
      / (exampleMccIz : MonteCarloCollisions ℝ).m_nu_prime_e = 3 / 4 := by
  have hpos : (0 : ℝ) < constants.m_e / (2 * constants.e) := by
    norm_num [constants.m_e, constants.e]
  have harg : (2 * constants.e * (constants.m_e / (2 * constants.e)) / constants.m_e : ℝ) = 1 := by
    norm_num [constants.m_e, constants.e]
  have e0 : (0 + 1 - 1 : Nat) = 0 := rfl
  have hel : interpolate_cross_section (exampleMccIz : MonteCarloCollisions ℝ).m_el_cs
      (constants.m_e / (2 * constants.e)) = 1 := by
    simp only [interpolate_cross_section, exampleMccIz, exampleMcc, rd, List.getD_cons_zero,
      List.length_cons, List.length_nil]
    rw [if_neg (not_le.mpr hpos), e0, List.getD_cons_zero, List.getD_cons_zero,
      if_pos (le_of_lt hpos)]
  have hiz : interpolate_cross_section (exampleMccIz : MonteCarloCollisions ℝ).m_iz_cs
      (constants.m_e / (2 * constants.e)) = 3 := by
    simp only [interpolate_cross_section, exampleMccIz, rd, List.getD_cons_zero,
      List.length_cons, List.length_nil]
    rw [if_neg (not_le.mpr hpos), e0, List.getD_cons_zero, List.getD_cons_zero,
      if_pos (le_of_lt hpos)]
  refine ⟨example_kinetic_energy, ?_, ?_⟩
  · simp only [MonteCarloCollisions.frequency_ratio, collision_frequency, hel, harg,
      Real.sqrt_one]
    norm_num [exampleMccIz, exampleMcc]
  · rw [hiz, harg, Real.sqrt_one]
    norm_num [exampleMccIz, exampleMcc]

theorem norm2_pos_of_ne (v : Vec3 K) (h : v ≠ ⟨0, 0, 0⟩) : 0 < v.norm2 := by
  rcases v with ⟨x, y, z⟩
  simp only [Vec3.norm2]
  by_contra hc
  have hx := mul_self_nonneg x
  have hy := mul_self_nonneg y
  have hz := mul_self_nonneg z
  have ex : x * x = 0 := by linarith
  have ey : y * y = 0 := by linarith
  have ez : z * z = 0 := by linarith
  apply h
  rw [mul_self_eq_zero.mp ex, mul_self_eq_zero.mp ey, mul_self_eq_zero.mp ez]

/-- C17: over the reals (with `sqrt`, `cos`, `sin`, `acos` the real functions, so
`zeta = acos(vhat_z)`), for every non-zero velocity whose unit vector has `|vhat_z| < 1`,
every `chi` and every generator (hence every `phi`), the vector returned by
`isotropic_scatter` has unit length and its scalar product with `vhat` is `cos chi`. -/
theorem isotropic_scatter_rotation (p : ChargedSpecies ℝ (Vec1 ℝ) (Vec3 ℝ)) (idx : Nat)
    (chi : ℝ) (g : Rng ℝ) (hv : rd3 p.v idx ≠ ⟨0, 0, 0⟩)
    (hz : |((rd3 p.v idx).normalized ⟨Real.sqrt, Real.cos, Real.sin, Real.arccos⟩).z| < 1) :
    (isotropic_scatter ⟨Real.sqrt, Real.cos, Real.sin, Real.arccos⟩ p idx chi g).1.norm2 = 1 ∧
    (isotropic_scatter ⟨Real.sqrt, Real.cos, Real.sin, Real.arccos⟩ p idx chi g).1.x
        * ((rd3 p.v idx).normalized ⟨Real.sqrt, Real.cos, Real.sin, Real.arccos⟩).x
      + (isotropic_scatter ⟨Real.sqrt, Real.cos, Real.sin, Real.arccos⟩ p idx chi g).1.y
        * ((rd3 p.v idx).normalized ⟨Real.sqrt, Real.cos, Real.sin, Real.arccos⟩).y
      + (isotropic_scatter ⟨Real.sqrt, Real.cos, Real.sin, Real.arccos⟩ p idx chi g).1.z
        * ((rd3 p.v idx).normalized ⟨Real.sqrt, Real.cos, Real.sin, Real.arccos⟩).z
      = Real.cos chi := by
  obtain ⟨h1, h2, h3⟩ := real_mathfns_spec
  have hz2 : ((rd3 p.v idx).normalized ⟨Real.sqrt, Real.cos, Real.sin, Real.arccos⟩).z
      * ((rd3 p.v idx).normalized ⟨Real.sqrt, Real.cos, Real.sin, Real.arccos⟩).z ≠ 1 := by
    intro hc
    have := abs_mul_abs_self
      ((rd3 p.v idx).normalized ⟨Real.sqrt, Real.cos, Real.sin, Real.arccos⟩).z
    rw [hc] at this
    have hnn := abs_nonneg
      ((rd3 p.v idx).normalized ⟨Real.sqrt, Real.cos, Real.sin, Real.arccos⟩).z
    nlinarith
  exact isotropic_scatter_unit _ h1 h2 h3 p idx chi g (norm2_pos_of_ne _ hv) hz2

/-- C17 witness: the example electron (`v = (1, 0, 0)`, so `vhat_z = 0`) scattered by
`chi = 1` with the example generator. -/
theorem isotropic_scatter_rotation_witness :
    (rd3 (exampleElectrons : ChargedSpecies ℝ (Vec1 ℝ) (Vec3 ℝ)).v 0 ≠ ⟨0, 0, 0⟩ ∧
      |((rd3 (exampleElectrons : ChargedSpecies ℝ (Vec1 ℝ) (Vec3 ℝ)).v 0).normalized
          ⟨Real.sqrt, Real.cos, Real.sin, Real.arccos⟩).z| < 1) ∧
    (isotropic_scatter ⟨Real.sqrt, Real.cos, Real.sin, Real.arccos⟩
      (exampleElectrons : ChargedSpecies ℝ (Vec1 ℝ) (Vec3 ℝ)) 0 1 exampleRng).1.norm2 = 1 := by
  have hv : rd3 (exampleElectrons : ChargedSpecies ℝ (Vec1 ℝ) (Vec3 ℝ)).v 0 ≠ ⟨0, 0, 0⟩ := by
    simp [exampleElectrons, rd3]
  have hz : |((rd3 (exampleElectrons : ChargedSpecies ℝ (Vec1 ℝ) (Vec3 ℝ)).v 0).normalized
      ⟨Real.sqrt, Real.cos, Real.sin, Real.arccos⟩).z| < 1 := by
    simp [exampleElectrons, rd3, Vec3.normalized]
  exact ⟨⟨hv, hz⟩, (isotropic_scatter_rotation exampleElectrons 0 1 exampleRng hv hz).1⟩

/-- C18 (the code departs from the claim): `isotropic_scatter` has no special case for
`sin(zeta) = 0`.  For the velocity `(0, 0, 1)` over the reals `vhat = (0, 0, 1)`,
`zeta = acos 1 = 0` and the divisor `sin(zeta)` is `0`; with the quotients by zero read
as `0` the returned vector at `chi = pi/2` is `(0, 0, 0)`, which is not a unit vector. -/
theorem isotropic_scatter_divides_by_zero :
    (rd3 (exampleAlongZ : ChargedSpecies ℝ (Vec1 ℝ) (Vec3 ℝ)).v 0).normalized
        ⟨Real.sqrt, Real.cos, Real.sin, Real.arccos⟩ = ⟨0, 0, 1⟩ ∧
    Real.sin (Real.arccos ((rd3 (exampleAlongZ : ChargedSpecies ℝ (Vec1 ℝ) (Vec3 ℝ)).v 0).normalized
        ⟨Real.sqrt, Real.cos, Real.sin, Real.arccos⟩).z) = 0 ∧
    (isotropic_scatter ⟨Real.sqrt, Real.cos, Real.sin, Real.arccos⟩
      (exampleAlongZ : ChargedSpecies ℝ (Vec1 ℝ) (Vec3 ℝ)) 0 (Real.pi / 2) exampleRng).1
      = ⟨0, 0, 0⟩ ∧
    (isotropic_scatter ⟨Real.sqrt, Real.cos, Real.sin, Real.arccos⟩
      (exampleAlongZ : ChargedSpecies ℝ (Vec1 ℝ) (Vec3 ℝ)) 0 (Real.pi / 2) exampleRng).1.norm2
      ≠ 1 := by
  have hn : (rd3 (exampleAlongZ : ChargedSpecies ℝ (Vec1 ℝ) (Vec3 ℝ)).v 0).normalized
      ⟨Real.sqrt, Real.cos, Real.sin, Real.arccos⟩ = ⟨0, 0, 1⟩ := by
    simp [exampleAlongZ, rd3, Vec3.normalized, Vec3.norm2]
  have hs : (isotropic_scatter ⟨Real.sqrt, Real.cos, Real.sin, Real.arccos⟩
      (exampleAlongZ : ChargedSpecies ℝ (Vec1 ℝ) (Vec3 ℝ)) 0 (Real.pi / 2) exampleRng).1
      = ⟨0, 0, 0⟩ := by
    simp only [isotropic_scatter, hn]
    simp
  refine ⟨hn, ?_, hs, ?_⟩
  · rw [hn]
    simp
  · rw [hs]
    simp [Vec3.norm2]

/-! ### electromagnetics/poisson.cpp : SymmetricPoissonSolver -/

/-- C19 (the code departs from the claim): in `emat` the interior triplets carry
`+1/(2dx)` below and `-1/(2dx)` above the diagonal while the wrap entries are
`+1/(2dx)` at `(n-1, 0)` and `-1/(2dx)` at `(0, n-1)`.  For `n = 4`, `dx = 1/2` and the
stored potential `[1, 2, 4, 8]`, `grad` returns `[-5, 3, 6, -5]`: the interior values
are `+(phi[i+1] - phi[i-1])/(2dx)` and the last is `-(phi[0] + phi[n-2])/(2dx)`,
where the claim gives `-3`, `-6` and `-(phi[0] - phi[n-2])/(2dx) = 3`. -/
theorem symmetric_grad_sign :
    SymmetricPoissonSolver.grad 4 (1 / 2 : ℚ) [1, 2, 4, 8] = [-5, 3, 6, -5] ∧
    rd (SymmetricPoissonSolver.grad 4 (1 / 2 : ℚ) [1, 2, 4, 8]) 1
      ≠ -(rd [1, 2, 4, 8] 2 - rd [1, 2, 4, 8] 0) / (2 * (1 / 2 : ℚ)) ∧
    rd (SymmetricPoissonSolver.grad 4 (1 / 2 : ℚ) [1, 2, 4, 8]) 3
      ≠ -(rd [1, 2, 4, 8] 0 - rd [1, 2, 4, 8] 2) / (2 * (1 / 2 : ℚ)) := by
  have h : SymmetricPoissonSolver.grad 4 (1 / 2 : ℚ) [1, 2, 4, 8] = [-5, 3, 6, -5] := by
    simp [SymmetricPoissonSolver.grad, SymmetricPoissonSolver.ematTriplets, forLoop, ematBody,
      tripletMulVec, rd, List.range, List.range.loop, List.filter]
    norm_num
  refine ⟨h, ?_, ?_⟩ <;> rw [h] <;> norm_num [rd]

theorem tripletSum_append {M : Type} [AddCommMonoid M] (w : Triplet K → M)
    (A B : List (Triplet K)) (i j : Nat) :
    tripletSum w (A ++ B) i j = tripletSum w A i j + tripletSum w B i j := by
  simp [tripletSum, List.filter_append]

theorem tripletSum_single {M : Type} [AddCommMonoid M] (w : Triplet K → M)
    (t : Triplet K) (i j : Nat) :
    tripletSum w [t] i j = if t.row = i ∧ t.col = j then w t else 0 := by
  by_cases h : t.row = i ∧ t.col = j
  · simp [tripletSum, List.filter_cons, h]
  · rw [if_neg h]
    have : (decide (t.row = i) && decide (t.col = j)) = false := by
      simpa using h
    simp [tripletSum, List.filter_cons, this]

theorem tripletSum_pair {M : Type} [AddCommMonoid M] (w : Triplet K → M)
    (t u : Triplet K) (i j : Nat) :
    tripletSum w [t, u] i j
      = (if t.row = i ∧ t.col = j then w t else 0) + (if u.row = i ∧ u.col = j then w u else 0) := by
  have e : [t, u] = [t] ++ [u] := rfl
  rw [e, tripletSum_append, tripletSum_single, tripletSum_single]

theorem ite_split {M : Type} [AddCommMonoid M] (P Q R : Prop) [Decidable P] [Decidable Q]
    [Decidable R] (x y z : M) (h1 : P ↔ (Q ∨ R)) (h2 : Q → ¬ R) (hy : Q → x = y)
    (hz : R → x = z) :
    (if P then x else 0) = (if Q then y else 0) + (if R then z else 0) := by
  by_cases hQ : Q
  · rw [if_pos (h1.mpr (Or.inl hQ)), if_pos hQ, if_neg (h2 hQ), add_zero, hy hQ]
  · by_cases hR : R
    · rw [if_pos (h1.mpr (Or.inr hR)), if_neg hQ, if_pos hR, zero_add, hz hR]
    · rw [if_neg (fun hP => (h1.mp hP).elim hQ hR), if_neg hQ, if_neg hR, add_zero]

theorem matLoop_sum {M : Type} [AddCommMonoid M] (w : Triplet K → M) (n : Nat) (dx2 : K)
    (k i j : Nat) :
    tripletSum w (forLoop (matBody n dx2) k []) i j
      = (if i = j ∧ i < k then w ⟨i, i, -2 / dx2⟩ else 0)
        + (if i = j + 1 ∧ j < k ∧ j < n - 1 then w ⟨j + 1, j, 1 / dx2⟩ else 0)
        + (if j = i + 1 ∧ i < k ∧ i < n - 1 then w ⟨i, i + 1, 1 / dx2⟩ else 0) := by
  induction k with
  | zero => simp [forLoop, tripletSum]
  | succ k ih =>
    have t1 := ite_split (i = j ∧ i < k + 1) (i = j ∧ i < k) (k = i ∧ k = j)
      (w ⟨i, i, -2 / dx2⟩) (w ⟨i, i, -2 / dx2⟩) (w ⟨k, k, -2 / dx2⟩)
      (by omega) (by omega) (fun _ => rfl) (fun h => by rw [h.1])
    rw [forLoop, matBody]
    by_cases hk : k < n - 1
    · have t2 := ite_split (i = j + 1 ∧ j < k + 1 ∧ j < n - 1) (i = j + 1 ∧ j < k ∧ j < n - 1)
        (k + 1 = i ∧ k = j) (w ⟨j + 1, j, 1 / dx2⟩) (w ⟨j + 1, j, 1 / dx2⟩)
        (w ⟨k + 1, k, 1 / dx2⟩) (by omega) (by omega) (fun _ => rfl) (fun h => by rw [h.2])
      have t3 := ite_split (j = i + 1 ∧ i < k + 1 ∧ i < n - 1) (j = i + 1 ∧ i < k ∧ i < n - 1)
        (k = i ∧ k + 1 = j) (w ⟨i, i + 1, 1 / dx2⟩) (w ⟨i, i + 1, 1 / dx2⟩)
        (w ⟨k, k + 1, 1 / dx2⟩) (by omega) (by omega) (fun _ => rfl) (fun h => by rw [h.1])
      simp only [if_pos hk]
      rw [tripletSum_append, tripletSum_append, tripletSum_single, tripletSum_pair, ih, t1, t2, t3]
      abel
    · have t2 : (if i = j + 1 ∧ j < k + 1 ∧ j < n - 1 then w ⟨j + 1, j, 1 / dx2⟩ else 0)
          = (if i = j + 1 ∧ j < k ∧ j < n - 1 then w ⟨j + 1, j, 1 / dx2⟩ else 0) :=
        if_congr (by omega) rfl rfl
      have t3 : (if j = i + 1 ∧ i < k + 1 ∧ i < n - 1 then w ⟨i, i + 1, 1 / dx2⟩ else 0)
          = (if j = i + 1 ∧ i < k ∧ i < n - 1 then w ⟨i, i + 1, 1 / dx2⟩ else 0) :=
        if_congr (by omega) rfl rfl
      simp only [if_neg hk]
      rw [tripletSum_append, tripletSum_single, ih, t1, t2, t3]
      abel

theorem matTriplets_sum {M : Type} [AddCommMonoid M] (w : Triplet K → M) (n : Nat) (dx : K)
    (hn : 3 ≤ n) (i j : Nat) (hi : i < n) (hj : j < n) :
    tripletSum w (SymmetricPoissonSolver.matTriplets n dx) i j
      = (if i = j then w ⟨i, i, -2 / (dx * dx)⟩ else 0)
        + (if i = j + 1 then w ⟨j + 1, j, 1 / (dx * dx)⟩ else 0)
        + (if j = i + 1 then w ⟨i, i + 1, 1 / (dx * dx)⟩ else 0)
        + (if i = n - 1 ∧ j = 0 then w ⟨n - 1, 0, 1 / (dx * dx)⟩ else 0)
        + (if i = 0 ∧ j = n - 1 then w ⟨0, n - 1, 1 / (dx * dx)⟩ else 0) := by
  simp only [SymmetricPoissonSolver.matTriplets]
  rw [tripletSum_append, tripletSum_pair, matLoop_sum]
  have c1 : (i = j ∧ i < n) ↔ i = j := by omega
  have c2 : (i = j + 1 ∧ j < n ∧ j < n - 1) ↔ i = j + 1 := by omega
  have c3 : (j = i + 1 ∧ i < n ∧ i < n - 1) ↔ j = i + 1 := by omega
  have c4 : (n - 1 = i ∧ 0 = j) ↔ (i = n - 1 ∧ j = 0) := by omega
  have c5 : (0 = i ∧ n - 1 = j) ↔ (i = 0 ∧ j = n - 1) := by omega
  simp only [c1, c2, c3, c4, c5]
  rw [← add_assoc]

theorem circulant_neighbour_iff (n i j : Nat) (hn : 3 ≤ n) (hi : i < n) (hj : j < n) :
    (j = (i + 1) % n ∨ j = (i + n - 1) % n)
      ↔ (i = j + 1 ∨ j = i + 1 ∨ (i = n - 1 ∧ j = 0) ∨ (i = 0 ∧ j = n - 1)) := by
  have h1 : (i + 1) % n = if i + 1 = n then 0 else i + 1 := by
    split_ifs with h
    · rw [h, Nat.mod_self]
    · exact Nat.mod_eq_of_lt (by omega)
  have h2 : (i + n - 1) % n = if i = 0 then n - 1 else i - 1 := by
    split_ifs with h
    · subst h
      rw [Nat.zero_add]
      exact Nat.mod_eq_of_lt (by omega)
    · have e : i + n - 1 = (i - 1) + n := by omega
      rw [e, Nat.add_mod_right]
      exact Nat.mod_eq_of_lt (by omega)
  rw [h1, h2]
  split_ifs <;> omega

theorem matTriplets_entry (n : Nat) (dx : K) (hn : 3 ≤ n) (i j : Nat) (hi : i < n)
    (hj : j < n) :
    tripletSum (fun t => t.value) (SymmetricPoissonSolver.matTriplets n dx) i j
      = if i = j then -2 / (dx * dx)
        else if j = (i + 1) % n ∨ j = (i + n - 1) % n then 1 / (dx * dx) else 0 := by
  have hc := circulant_neighbour_iff n i j hn hi hj
  rw [matTriplets_sum _ n dx hn i j hi hj]
  by_cases h1 : i = j
  · rw [if_pos h1, if_pos h1, if_neg (by omega), if_neg (by omega), if_neg (by omega),
      if_neg (by omega)]
    simp
  · rw [if_neg h1, if_neg h1]
    by_cases h2 : i = j + 1
    · rw [if_pos h2, if_neg (by omega), if_neg (by omega), if_neg (by omega),
        if_pos (hc.mpr (Or.inl h2))]
      simp
    · by_cases h3 : j = i + 1
      · rw [if_neg h2, if_pos h3, if_neg (by omega), if_neg (by omega),
          if_pos (hc.mpr (Or.inr (Or.inl h3)))]
        simp
      · by_cases h4 : i = n - 1 ∧ j = 0
        · rw [if_neg h2, if_neg h3, if_pos h4, if_neg (by omega),
            if_pos (hc.mpr (Or.inr (Or.inr (Or.inl h4))))]
          simp
        · by_cases h5 : i = 0 ∧ j = n - 1
          · rw [if_neg h2, if_neg h3, if_neg h4, if_pos h5,
              if_pos (hc.mpr (Or.inr (Or.inr (Or.inr h5))))]
            simp
          · rw [if_neg h2, if_neg h3, if_neg h4, if_neg h5,
              if_neg (fun h => by have := hc.mp h; tauto)]
            simp

theorem matTriplets_count (n : Nat) (dx : K) (hn : 3 ≤ n) (i j : Nat) (hi : i < n)
    (hj : j < n) :
    tripletSum (fun _ => (1 : Nat)) (SymmetricPoissonSolver.matTriplets n dx) i j ≤ 1 := by
  rw [matTriplets_sum _ n dx hn i j hi hj]
  split_ifs <;> omega

theorem tripletEntry_eq_sum (ts : List (Triplet K)) (i j : Nat) :
    tripletEntry ts i j = tripletSum (fun t => t.value) ts i j := rfl

theorem tripletCount_eq_sum (ts : List (Triplet K)) (i j : Nat) :
    tripletCount ts i j = tripletSum (fun _ => (1 : Nat)) ts i j := by
  simp [tripletCount, tripletSum]

theorem circulant_idx (n i : Nat) (hn : 3 ≤ n) (hi : i < n) :
    (i + 1) % n < n ∧ (i + n - 1) % n < n ∧ (i + 1) % n ≠ i ∧ (i + n - 1) % n ≠ i ∧
    (i + 1) % n ≠ (i + n - 1) % n := by
  have h1 : (i + 1) % n = if i + 1 = n then 0 else i + 1 := by
    split_ifs with h
    · rw [h, Nat.mod_self]
    · exact Nat.mod_eq_of_lt (by omega)
  have h2 : (i + n - 1) % n = if i = 0 then n - 1 else i - 1 := by
    split_ifs with h
    · subst h
      rw [Nat.zero_add]
      exact Nat.mod_eq_of_lt (by omega)
    · have e : i + n - 1 = (i - 1) + n := by omega
      rw [e, Nat.add_mod_right]
      exact Nat.mod_eq_of_lt (by omega)
  rw [h1, h2]
  split_ifs <;> omega

theorem matTriplets_symm (n : Nat) (dx : K) (hn : 3 ≤ n) (i j : Nat) (hi : i < n)
    (hj : j < n) :
    tripletSum (fun t => t.value) (SymmetricPoissonSolver.matTriplets n dx) i j
      = tripletSum (fun t => t.value) (SymmetricPoissonSolver.matTriplets n dx) j i := by
  rw [matTriplets_entry n dx hn i j hi hj, matTriplets_entry n dx hn j i hj hi]
  have hc1 := circulant_neighbour_iff n i j hn hi hj
  have hc2 := circulant_neighbour_iff n j i hn hj hi
  have hc : (j = (i + 1) % n ∨ j = (i + n - 1) % n) ↔ (i = (j + 1) % n ∨ i = (j + n - 1) % n) := by
    rw [hc1, hc2]
    omega
  by_cases h : i = j
  · rw [if_pos h, if_pos h.symm]
  · rw [if_neg h, if_neg (Ne.symm h)]
    exact if_congr hc rfl rfl

theorem matTriplets_row_sum (n : Nat) (dx : K) (hn : 3 ≤ n) (i : Nat) (hi : i < n) :
    (Finset.range n).sum
      (fun j => tripletSum (fun t => t.value) (SymmetricPoissonSolver.matTriplets n dx) i j)
      = 0 := by
  obtain ⟨p1, p2, p3, p4, p5⟩ := circulant_idx n i hn hi
  have hpt : ∀ j ∈ Finset.range n,
      tripletSum (fun t => t.value) (SymmetricPoissonSolver.matTriplets n dx) i j
        = (if j = i then -2 / (dx * dx) else 0)
          + (if j = (i + 1) % n then 1 / (dx * dx) else 0)
          + (if j = (i + n - 1) % n then 1 / (dx * dx) else 0) := by
    intro j hj
    rw [matTriplets_entry n dx hn i j hi (Finset.mem_range.mp hj)]
    by_cases h1 : i = j
    · subst h1
      rw [if_pos rfl, if_pos rfl, if_neg (Ne.symm p3), if_neg (Ne.symm p4), add_zero, add_zero]
    · rw [if_neg h1, if_neg (Ne.symm h1), zero_add]
      by_cases h2 : j = (i + 1) % n
      · rw [if_pos (Or.inl h2), if_pos h2, if_neg (by rw [h2]; exact p5), add_zero]
      · by_cases h3 : j = (i + n - 1) % n
        · rw [if_pos (Or.inr h3), if_neg h2, if_pos h3, zero_add]
        · rw [if_neg (by tauto), if_neg h2, if_neg h3, add_zero]
  rw [Finset.sum_congr rfl hpt, Finset.sum_add_distrib, Finset.sum_add_distrib,
    Finset.sum_ite_eq', Finset.sum_ite_eq', Finset.sum_ite_eq',
    if_pos (Finset.mem_range.mpr hi), if_pos (Finset.mem_range.mpr p1),
    if_pos (Finset.mem_range.mpr p2)]
  ring

theorem matLoop_in_range (n : Nat) (dx2 : K) (k : Nat) (hk : k ≤ n) :
    ∀ t ∈ forLoop (matBody n dx2) k [], t.row < n ∧ t.col < n := by
  induction k with
  | zero => simp [forLoop]
  | succ k ih =>
    intro t ht
    rw [forLoop, matBody] at ht
    by_cases h : k < n - 1
    · simp only [if_pos h, List.mem_append, List.mem_cons, List.mem_singleton,
        List.not_mem_nil, or_false] at ht
      rcases ht with (ht | ht) | ht | ht
      · exact ih (by omega) t ht
      · rw [ht]; exact ⟨by show k < n; omega, by show k < n; omega⟩
      · rw [ht]; exact ⟨by show k + 1 < n; omega, by show k < n; omega⟩
      · rw [ht]; exact ⟨by show k < n; omega, by show k + 1 < n; omega⟩
    · simp only [if_neg h, List.mem_append, List.mem_singleton] at ht
      rcases ht with ht | ht
      · exact ih (by omega) t ht
      · rw [ht]; exact ⟨by show k < n; omega, by show k < n; omega⟩

/-- C20: for every `n ≥ 3` and `dx ≠ 0` the triplets built by the constructor of
`SymmetricPoissonSolver` lie inside the `n x n` matrix and sum to the circulant
second-difference matrix: `A[i][i] = -2/dx^2`, `A[i][(i+1) mod n] = A[i][(i-1) mod n]
= 1/dx^2`, every other entry `0`; no position receives two triplets; `A` is symmetric
and every row sums to zero. -/
theorem symmetric_matrix_circulant (n : Nat) (dx : K) (hn : 3 ≤ n) (hdx : dx ≠ 0) :
    (∀ t ∈ SymmetricPoissonSolver.matTriplets n dx, t.row < n ∧ t.col < n) ∧
    (∀ i j, i < n → j < n →
      tripletEntry (SymmetricPoissonSolver.matTriplets n dx) i j
        = if i = j then -2 / dx ^ 2
          else if j = (i + 1) % n ∨ j = (i + n - 1) % n then 1 / dx ^ 2 else 0) ∧
    (∀ i j, i < n → j < n → tripletCount (SymmetricPoissonSolver.matTriplets n dx) i j ≤ 1) ∧
    (∀ i j, i < n → j < n →
      tripletEntry (SymmetricPoissonSolver.matTriplets n dx) i j
        = tripletEntry (SymmetricPoissonSolver.matTriplets n dx) j i) ∧
    (∀ i, i < n →
      (Finset.range n).sum
        (fun j => tripletEntry (SymmetricPoissonSolver.matTriplets n dx) i j) = 0) := by
  refine ⟨?_, ?_, ?_, ?_, ?_⟩
  · intro t ht
    simp only [SymmetricPoissonSolver.matTriplets, List.mem_append, List.mem_cons,
      List.mem_singleton, List.not_mem_nil, or_false] at ht
    rcases ht with ht | ht | ht
    · exact matLoop_in_range n (dx * dx) n (le_refl n) t ht
    · rw [ht]; exact ⟨by show n - 1 < n; omega, by show 0 < n; omega⟩
    · rw [ht]; exact ⟨by show 0 < n; omega, by show n - 1 < n; omega⟩
  · intro i j hi hj
    rw [tripletEntry_eq_sum, matTriplets_entry n dx hn i j hi hj, sq]
  · intro i j hi hj
    rw [tripletCount_eq_sum]
    exact matTriplets_count n dx hn i j hi hj
  · intro i j hi hj
    rw [tripletEntry_eq_sum, tripletEntry_eq_sum]
    exact matTriplets_symm n dx hn i j hi hj
  · intro i hi
    exact matTriplets_row_sum n dx hn i hi

/-- C20 witness: `n = 3`, `dx = 1`; the wrap entry `A[0][2]` is `1`. -/
theorem symmetric_matrix_circulant_witness :
    (3 ≤ 3 ∧ (1 : ℚ) ≠ 0) ∧
    tripletEntry (SymmetricPoissonSolver.matTriplets 3 (1 : ℚ)) 0 2 = 1 ∧
    tripletEntry (SymmetricPoissonSolver.matTriplets 3 (1 : ℚ)) 0 0 = -2 ∧
    (Finset.range 3).sum
      (fun j => tripletEntry (SymmetricPoissonSolver.matTriplets 3 (1 : ℚ)) 0 j) = 0 := by
  have h := symmetric_matrix_circulant 3 (1 : ℚ) (le_refl 3) one_ne_zero
  refine ⟨⟨le_refl 3, one_ne_zero⟩, ?_, ?_, h.2.2.2.2 0 (by decide)⟩
  · rw [h.2.1 0 2 (by decide) (by decide)]
    norm_num
  · rw [h.2.1 0 0 (by decide) (by decide)]
    norm_num

theorem tripletRowSum_append {M : Type} [AddCommMonoid M] (w : Triplet K → M)
    (A B : List (Triplet K)) (r : Nat) :
    tripletRowSum w (A ++ B) r = tripletRowSum w A r + tripletRowSum w B r := by
  simp [tripletRowSum, List.filter_append]

theorem tripletRowSum_single {M : Type} [AddCommMonoid M] (w : Triplet K → M)
    (t : Triplet K) (r : Nat) :
    tripletRowSum w [t] r = if t.row = r then w t else 0 := by
  by_cases h : t.row = r
  · simp [tripletRowSum, List.filter_cons, h]
  · simp [tripletRowSum, List.filter_cons, h]

theorem tripletRowSum_pair {M : Type} [AddCommMonoid M] (w : Triplet K → M)
    (t u : Triplet K) (r : Nat) :
    tripletRowSum w [t, u] r
      = (if t.row = r then w t else 0) + (if u.row = r then w u else 0) := by
  have e : [t, u] = [t] ++ [u] := rfl
  rw [e, tripletRowSum_append, tripletRowSum_single, tripletRowSum_single]

theorem ematLoop_rowSum {M : Type} [AddCommMonoid M] (w : Triplet K → M) (dx : K)
    (k r : Nat) :
    tripletRowSum w (forLoop (ematBody dx) k []) r
      = (if 1 ≤ r ∧ r ≤ k then w ⟨r - 1 + 1, r - 1, 1 / (2 * dx)⟩ else 0)
        + (if r < k then w ⟨r, r + 1, -1 / (2 * dx)⟩ else 0) := by
  induction k with
  | zero =>
    have c1 : ¬ (1 ≤ r ∧ r ≤ 0) := by omega
    have c2 : ¬ (r < 0) := by omega
    rw [if_neg c1, if_neg c2, add_zero]
    rfl
  | succ k ih =>
    have t1 := ite_split (1 ≤ r ∧ r ≤ k + 1) (1 ≤ r ∧ r ≤ k) (k + 1 = r)
      (w ⟨r - 1 + 1, r - 1, 1 / (2 * dx)⟩) (w ⟨r - 1 + 1, r - 1, 1 / (2 * dx)⟩)
      (w ⟨k + 1, k, 1 / (2 * dx)⟩) (by omega) (by omega) (fun _ => rfl)
      (fun h => by rw [← h]; rfl)
    have t2 := ite_split (r < k + 1) (r < k) (k = r)
      (w ⟨r, r + 1, -1 / (2 * dx)⟩) (w ⟨r, r + 1, -1 / (2 * dx)⟩)
      (w ⟨k, k + 1, -1 / (2 * dx)⟩) (by omega) (by omega) (fun _ => rfl)
      (fun h => by rw [h])
    rw [forLoop, ematBody, tripletRowSum_append, tripletRowSum_pair, ih, t1, t2]
    abel

theorem rd_map_range (n : Nat) (f : Nat → K) (r : Nat) (hr : r < n) :
    rd ((List.range n).map f) r = f r := by
  simp [rd, List.getD_eq_getElem?_getD, hr]

theorem symmetric_grad_formula (n : Nat) (dx : K) (x : List K) (hn : 3 ≤ n) :
    (SymmetricPoissonSolver.grad n dx x).length = n ∧
    (∀ i, 1 ≤ i → i ≤ n - 2 →
      rd (SymmetricPoissonSolver.grad n dx x) i = (rd x (i + 1) - rd x (i - 1)) / (2 * dx)) ∧
    rd (SymmetricPoissonSolver.grad n dx x) (n - 1) = -(rd x 0 + rd x (n - 2)) / (2 * dx) ∧
    rd (SymmetricPoissonSolver.grad n dx x) 0 = rd (SymmetricPoissonSolver.grad n dx x) (n - 1) := by
  have hrow : ∀ r, tripletMulVec (SymmetricPoissonSolver.ematTriplets n dx) x r
      = (if 1 ≤ r ∧ r ≤ n - 1 then 1 / (2 * dx) * rd x (r - 1) else 0)
        + (if r < n - 1 then -1 / (2 * dx) * rd x (r + 1) else 0)
        + ((if n - 1 = r then 1 / (2 * dx) * rd x 0 else 0)
          + (if 0 = r then -1 / (2 * dx) * rd x (n - 1) else 0)) := by
    intro r
    have e : tripletMulVec (SymmetricPoissonSolver.ematTriplets n dx) x r
        = tripletRowSum (fun t => t.value * rd x t.col)
            (SymmetricPoissonSolver.ematTriplets n dx) r := rfl
    rw [e, SymmetricPoissonSolver.ematTriplets, tripletRowSum_append, tripletRowSum_pair,
      ematLoop_rowSum]
  have hlen : ((List.range n).map
      (fun r => -(tripletMulVec (SymmetricPoissonSolver.ematTriplets n dx) x r))).length = n := by
    simp
  have hlast : rd ((List.range n).map
      (fun r => -(tripletMulVec (SymmetricPoissonSolver.ematTriplets n dx) x r))) (n - 1)
      = -(rd x 0 + rd x (n - 2)) / (2 * dx) := by
    rw [rd_map_range n _ (n - 1) (by omega), hrow, if_pos (by omega), if_neg (by omega),
      if_pos rfl, if_neg (by omega)]
    have e : n - 1 - 1 = n - 2 := by omega
    rw [e]
    ring
  simp only [SymmetricPoissonSolver.grad]
  rw [hlen]
  refine ⟨by rw [List.length_set, hlen], ?_, ?_, ?_⟩
  · intro i h1 h2
    rw [rd_set_ne _ _ _ _ (by omega), rd_map_range n _ i (by omega), hrow, if_pos (by omega),
      if_pos (by omega), if_neg (by omega), if_neg (by omega)]
    ring
  · rw [rd_set_ne _ _ _ _ (by omega), hlast]
  · rw [rd_set_eq _ _ _ (by rw [hlen]; omega), rd_set_ne _ _ _ _ (by omega)]

/-! ### particle/pusher.cpp : free-field energy of the cylindrical pusher -/

theorem cylindricalAdvance_free (k dt : K) (x : Vec2 K) (v : Vec3 K) (hr : x.y > 1e-15) :
    cylindricalAdvance k dt ⟨0, 0⟩ x v
      = (⟨x.x + v.x * dt, x.y + (v.y + v.z * v.z / x.y * dt) * dt⟩,
         ⟨v.x, v.y + v.z * v.z / x.y * dt, v.z + -v.y * v.z / x.y * dt⟩) := by
  simp only [cylindricalAdvance, if_pos hr, mul_zero, zero_mul, add_zero, zero_add]

theorem cylindricalBody_free (k dt : K) (x : Vec2 K) (v : Vec3 K) (hr : x.y > 1e-15)
    (hfresh : 0 ≤ x.y + (v.y + v.z * v.z / x.y * dt) * dt) :
    cylindricalBody k dt ⟨0, 0⟩ x v
      = (⟨x.x + v.x * dt, x.y + (v.y + v.z * v.z / x.y * dt) * dt⟩,
         ⟨v.x, v.y + v.z * v.z / x.y * dt, v.z + -v.y * v.z / x.y * dt⟩) := by
  rw [cylindricalBody_eq_reflect, cylindricalAdvance_free k dt x v hr]
  exact if_neg (not_lt.mpr hfresh)

theorem free_field_gain (vr vt r dt : K) (hr : r ≠ 0) :
    (vr + vt * vt / r * dt) * (vr + vt * vt / r * dt)
      + (vt + -vr * vt / r * dt) * (vt + -vr * vt / r * dt)
      = (vr * vr + vt * vt) * (1 + (vt * dt / r) ^ 2) := by
  field_simp
  ring

/-- C21: for every particle with `r > 1e-15` in zero field whose updated radius
`r + v_r'*dt` (with `v_r' = v_r + v_theta^2/r*dt`) is `≥ 0`, one call of
`move_particles_cylindrical` leaves `v_z` unchanged and gives
`v_r'^2 + v_theta'^2 = (v_r^2 + v_theta^2) * (1 + (v_theta*dt/r)^2)`; hence `|v|^2` does
not decrease, and it strictly increases when `v_theta ≠ 0` and `dt ≠ 0`. -/
theorem cylindrical_free_field_energy (species : ChargedSpecies K (Vec2 K) (Vec3 K))
    (force : List (Vec2 K)) (dt : K) (i : Nat) (hi : i < species.n)
    (hx : species.n ≤ species.x.length) (hv : species.n ≤ species.v.length)
    (hr : (rd2 species.x i).y > 1e-15) (hF : rd2 force i = ⟨0, 0⟩)
    (hfresh : 0 ≤ (rd2 species.x i).y
      + ((rd3 species.v i).y
          + (rd3 species.v i).z * (rd3 species.v i).z / (rd2 species.x i).y * dt) * dt) :
    (rd3 (move_particles_cylindrical species force dt).v i).x = (rd3 species.v i).x ∧
    (rd3 (move_particles_cylindrical species force dt).v i).y
        * (rd3 (move_particles_cylindrical species force dt).v i).y
      + (rd3 (move_particles_cylindrical species force dt).v i).z
        * (rd3 (move_particles_cylindrical species force dt).v i).z
      = ((rd3 species.v i).y * (rd3 species.v i).y + (rd3 species.v i).z * (rd3 species.v i).z)
        * (1 + ((rd3 species.v i).z * dt / (rd2 species.x i).y) ^ 2) ∧
    (rd3 species.v i).norm2 ≤ (rd3 (move_particles_cylindrical species force dt).v i).norm2 ∧
    ((rd3 species.v i).z ≠ 0 → dt ≠ 0 →
      (rd3 species.v i).norm2 < (rd3 (move_particles_cylindrical species force dt).v i).norm2) := by
  obtain ⟨-, -, -, -, -, h6, -⟩ := cylindrical_loop_inv force (species.q / species.m) dt
    species species.n
  obtain ⟨-, b⟩ := h6 i hi (by omega) (by omega)
  have e : move_particles_cylindrical species force dt
      = forLoop (cylindricalLoopBody force (species.q / species.m) dt) species.n species := rfl
  have hpos : (0 : K) < (rd2 species.x i).y := lt_trans (by norm_num) hr
  have hne : (rd2 species.x i).y ≠ 0 := ne_of_gt hpos
  have hgain := free_field_gain (rd3 species.v i).y (rd3 species.v i).z (rd2 species.x i).y dt hne
  have hsq : 0 ≤ ((rd3 species.v i).z * dt / (rd2 species.x i).y) ^ 2 := sq_nonneg _
  have hsum : 0 ≤ (rd3 species.v i).y * (rd3 species.v i).y
      + (rd3 species.v i).z * (rd3 species.v i).z :=
    add_nonneg (mul_self_nonneg _) (mul_self_nonneg _)
  rw [e, b, hF, cylindricalBody_free _ _ _ _ hr hfresh]
  refine ⟨rfl, hgain, ?_, ?_⟩
  · simp only [Vec3.norm2]
    rw [add_assoc, add_assoc, hgain]
    nlinarith [mul_nonneg hsum hsq]
  · intro hz hdt
    simp only [Vec3.norm2]
    have ha : (rd3 species.v i).z * dt / (rd2 species.x i).y ≠ 0 :=
      div_ne_zero (mul_ne_zero hz hdt) hne
    have hsq' : 0 < ((rd3 species.v i).z * dt / (rd2 species.x i).y) ^ 2 := by positivity
    have hsum' : 0 < (rd3 species.v i).y * (rd3 species.v i).y
        + (rd3 species.v i).z * (rd3 species.v i).z :=
      add_pos_of_nonneg_of_pos (mul_self_nonneg _) (mul_self_pos.mpr hz)
    rw [add_assoc, add_assoc, hgain]
    nlinarith [mul_pos hsum' hsq']

/-- C21 witness: the particle of `scenarioOrbit` (`r = 1`, `v = (3, 1, 1)`) in zero field
with `dt = 1/2` has fresh radius `7/4 ≥ 0`; it ends with `v = (3, 3/2, 1/2)`, so
`v_r'^2 + v_theta'^2 = 5/2 = 2 * (1 + 1/4)`. -/
theorem cylindrical_free_field_energy_witness :
    (0 < scenarioOrbit.n ∧ scenarioOrbit.n ≤ scenarioOrbit.x.length ∧
      scenarioOrbit.n ≤ scenarioOrbit.v.length ∧ (rd2 scenarioOrbit.x 0).y > 1e-15 ∧
      rd2 [(⟨0, 0⟩ : Vec2 ℚ)] 0 = ⟨0, 0⟩ ∧
      0 ≤ (rd2 scenarioOrbit.x 0).y
        + ((rd3 scenarioOrbit.v 0).y
            + (rd3 scenarioOrbit.v 0).z * (rd3 scenarioOrbit.v 0).z / (rd2 scenarioOrbit.x 0).y
              * (1 / 2)) * (1 / 2)) ∧
    (rd3 (move_particles_cylindrical scenarioOrbit [⟨0, 0⟩] (1 / 2)).v 0).x = 3 ∧
    (rd3 (move_particles_cylindrical scenarioOrbit [⟨0, 0⟩] (1 / 2)).v 0).y
        * (rd3 (move_particles_cylindrical scenarioOrbit [⟨0, 0⟩] (1 / 2)).v 0).y
      + (rd3 (move_particles_cylindrical scenarioOrbit [⟨0, 0⟩] (1 / 2)).v 0).z
        * (rd3 (move_particles_cylindrical scenarioOrbit [⟨0, 0⟩] (1 / 2)).v 0).z = 5 / 2 ∧
    (rd3 scenarioOrbit.v 0).norm2
      < (rd3 (move_particles_cylindrical scenarioOrbit [⟨0, 0⟩] (1 / 2)).v 0).norm2 := by
  have hyp : 0 < scenarioOrbit.n ∧ scenarioOrbit.n ≤ scenarioOrbit.x.length ∧
      scenarioOrbit.n ≤ scenarioOrbit.v.length ∧ (rd2 scenarioOrbit.x 0).y > 1e-15 ∧
      rd2 [(⟨0, 0⟩ : Vec2 ℚ)] 0 = ⟨0, 0⟩ ∧
      0 ≤ (rd2 scenarioOrbit.x 0).y
        + ((rd3 scenarioOrbit.v 0).y
            + (rd3 scenarioOrbit.v 0).z * (rd3 scenarioOrbit.v 0).z / (rd2 scenarioOrbit.x 0).y
              * (1 / 2)) * (1 / 2) := by
    refine ⟨by decide, by decide, by decide, ?_, rfl, ?_⟩ <;>
      norm_num [scenarioOrbit, rd2, rd3]
  obtain ⟨h1, h2, -, h4⟩ := cylindrical_free_field_energy scenarioOrbit [⟨0, 0⟩] (1 / 2) 0
    hyp.1 hyp.2.1 hyp.2.2.1 hyp.2.2.2.1 hyp.2.2.2.2.1 hyp.2.2.2.2.2
  refine ⟨hyp, ?_, ?_, h4 ?_ ?_⟩
  · rw [h1]
    norm_num [scenarioOrbit, rd3]
  · rw [h2]
    norm_num [scenarioOrbit, rd2, rd3]
  · norm_num [scenarioOrbit, rd3]
  · norm_num

/-! ### collisions/mcc.cpp : the lookup is total on well-formed tables -/

/-- C22: for every reaction whose energy table is non-empty and strictly increasing and
whose cross-section table has the same length, and every energy `E`: the positions `0`
and `len - 1` read by the clamped branches are inside both tables, and in the interior
branch (`E_0 < E < E_last`) the lower-bound index `rhs` satisfies `1 ≤ rhs ≤ len - 1`, so
`rhs - 1` and `rhs` are inside both tables, `E_{rhs-1} < E ≤ E_rhs`, and the divisor
`energy[rhs] - energy[rhs-1]` is strictly positive. -/
theorem interpolate_cross_section_total (cs : CollisionReaction K) (energy : K)
    (hwf : cs.WellFormed) :
    (0 < cs.energy.length ∧ cs.energy.length - 1 < cs.energy.length ∧
      0 < cs.cross_section.length ∧ cs.cross_section.length - 1 < cs.cross_section.length) ∧
    (¬ energy ≤ rd cs.energy 0 → ¬ energy ≥ rd cs.energy (cs.energy.length - 1) →
      1 ≤ lower_bound cs.energy energy ∧
      lower_bound cs.energy energy ≤ cs.energy.length - 1 ∧
      lower_bound cs.energy energy - 1 < cs.energy.length ∧
      lower_bound cs.energy energy < cs.energy.length ∧
      lower_bound cs.energy energy - 1 < cs.cross_section.length ∧
      lower_bound cs.energy energy < cs.cross_section.length ∧
      rd cs.energy (lower_bound cs.energy energy - 1) < energy ∧
      energy ≤ rd cs.energy (lower_bound cs.energy energy) ∧
      0 < rd cs.energy (lower_bound cs.energy energy)
        - rd cs.energy (lower_bound cs.energy energy - 1)) := by
  have hinc := wellFormed_increasing cs hwf
  obtain ⟨hne, hlen, -⟩ := hwf
  refine ⟨⟨hne, by omega, by omega, by omega⟩, ?_⟩
  intro h0 h1
  obtain ⟨a, b, c, d, -⟩ := interpolate_cross_section_interior cs energy hinc
    (not_le.mp h0) (not_le.mp h1)
  refine ⟨a, b, by omega, by omega, by omega, by omega, c, d, ?_⟩
  exact sub_pos.mpr (hinc _ _ (by omega) (by omega))

/-- C22 witness: on the table `E = [0, 1, 2]`, `sigma = [0, 10, 20]` the energy `1/4` is
interior, `rhs = 1` and the divisor is `1 - 0 = 1`. -/
theorem interpolate_cross_section_total_witness :
    (exampleReaction.WellFormed ∧ ¬ (1 / 4 : ℚ) ≤ rd exampleReaction.energy 0 ∧
      ¬ (1 / 4 : ℚ) ≥ rd exampleReaction.energy (exampleReaction.energy.length - 1)) ∧
    lower_bound exampleReaction.energy (1 / 4 : ℚ) = 1 ∧
    1 ≤ lower_bound exampleReaction.energy (1 / 4 : ℚ) ∧
    lower_bound exampleReaction.energy (1 / 4 : ℚ) ≤ exampleReaction.energy.length - 1 ∧
    0 < rd exampleReaction.energy (lower_bound exampleReaction.energy (1 / 4 : ℚ))
      - rd exampleReaction.energy (lower_bound exampleReaction.energy (1 / 4 : ℚ) - 1) := by
  have hwf : exampleReaction.WellFormed := by decide
  have h0 : ¬ (1 / 4 : ℚ) ≤ rd exampleReaction.energy 0 := by norm_num [exampleReaction, rd]
  have h1 : ¬ (1 / 4 : ℚ) ≥ rd exampleReaction.energy (exampleReaction.energy.length - 1) := by
    norm_num [exampleReaction, rd]
  have hl : lower_bound exampleReaction.energy (1 / 4 : ℚ) = 1 := by
    norm_num [exampleReaction, lower_bound, lowerBoundLoop, rd]
  have h := (interpolate_cross_section_total exampleReaction (1 / 4) hwf).2 h0 h1
  exact ⟨⟨hwf, h0, h1⟩, hl, h.1, h.2.1, h.2.2.2.2.2.2.2.2⟩

end Spark
